import Mathlib

/-!
# Valkyrie asynchronous core

A shallow embedding of the future/promise shared state
(`src/.archived/before/src/async.h`), of the stream state and generator
ring memory (`src/.archived/stream copy 4.h`) and of the reference-counted
handle (`src/.archived/stx_mem/include/stx/mem.h`), followed by the
properties proved about them.

Conventions of the embedding:

* the single heap object shared by a `Future` and a `Promise` through `mem::Rc`
  is one value of `FutureState T`; every method is a function on that value
  that returns the new value (explicit state passing);
* an atomic register is a plain field: the embedding is sequential, one call
  runs to completion before the next starts;
* a pointer to a chunk is `Option Nat`, `none` being `nullptr`;
* `uint64_t` arithmetic is arithmetic on `Nat` reduced modulo `2 ^ 64`.
-/

namespace stx

/-! ## Data model of `async.h` -/

/-- The type `stx::Result<T, E>`: either a value or an error. -/
inductive Result (T E : Type) where
  | Ok (value : T)
  | Err (error : E)
  deriving DecidableEq, Repr

/-- The enumeration `FutureStatus` (async.h:83-242), in declaration order. -/
inductive FutureStatus where
  | Scheduled
  | Submitted
  | Executing
  | Canceling
  | ForceCanceling
  | Suspending
  | ForceSuspending
  | Suspended
  | ForceSuspended
  | Resuming
  | ForceResuming
  | Canceled
  | ForceCanceled
  | Completed
  deriving DecidableEq, Repr

/-- The function `is_terminal_future_status` (async.h:244-248). -/
def is_terminal_future_status (status : FutureStatus) : Bool :=
  status == FutureStatus.Canceled ||
  status == FutureStatus.ForceCanceled ||
  status == FutureStatus.Completed

/-- The enumeration `FutureError` (async.h:251-258). The enumerator `Locked` is
commented out in the declaration but is returned by `user___copy_result` and
`user___move_result`; it is kept here because those functions use it. -/
inductive FutureError where
  | Pending
  | Locked
  | Canceled
  deriving DecidableEq, Repr

/-- The enumeration `RequestedCancelState` (async.h:263-267). -/
inductive RequestedCancelState where
  | None
  | Canceled
  deriving DecidableEq, Repr

/-- The enumeration `RequestedSuspendState` (async.h:282-289). -/
inductive RequestedSuspendState where
  | None
  | Resumed
  | Suspended
  deriving DecidableEq, Repr

/-- The enumeration `RequestSource` (async.h:291). -/
inductive RequestSource where
  | User
  | Executor
  deriving DecidableEq, Repr

/-- The struct `CancelRequest` (async.h:293-296) with its default members. -/
structure CancelRequest where
  source : RequestSource := RequestSource.User
  state : RequestedCancelState := RequestedCancelState.None
  deriving DecidableEq, Repr

/-- The struct `SuspendRequest` (async.h:298-301) with its default members. -/
structure SuspendRequest where
  source : RequestSource := RequestSource.User
  state : RequestedSuspendState := RequestedSuspendState.None
  deriving DecidableEq, Repr

/-- Modelled from the spec: the enumeration `LockStatus` of the binary spin-lock
guarding the storage cell. Its declaration is not in `async.h` (the member
`result_lock_status` is commented out at async.h:571) although
`user___try_lock_result` and `user___unlock_result` use both of its values. -/
inductive LockStatus where
  | Unlocked
  | Locked
  deriving DecidableEq, Repr

/-! ### `FutureExecutionState` (async.h:329-412) -/

/-- The struct `FutureExecutionState`: the status register, initially
`Scheduled` (async.h:411). -/
structure FutureExecutionState where
  future_status : FutureStatus := FutureStatus.Scheduled
  deriving DecidableEq, Repr

namespace FutureExecutionState

/-- The private method `notify` (async.h:406-408): a relaxed store. -/
def notify (s : FutureExecutionState) (status : FutureStatus) : FutureExecutionState :=
  { s with future_status := status }

def executor___notify_scheduled (s : FutureExecutionState) : FutureExecutionState :=
  s.notify FutureStatus.Scheduled

def executor___notify_submitted (s : FutureExecutionState) : FutureExecutionState :=
  s.notify FutureStatus.Submitted

def executor___notify_executing (s : FutureExecutionState) : FutureExecutionState :=
  s.notify FutureStatus.Executing

def executor___notify_user_resumed (s : FutureExecutionState) : FutureExecutionState :=
  s.notify FutureStatus.Executing

def executor___notify_user_canceling (s : FutureExecutionState) : FutureExecutionState :=
  s.notify FutureStatus.Canceling

def executor___notify_force_canceling (s : FutureExecutionState) : FutureExecutionState :=
  s.notify FutureStatus.ForceCanceling

def executor___notify_user_suspending (s : FutureExecutionState) : FutureExecutionState :=
  s.notify FutureStatus.Suspending

def executor___notify_force_suspending (s : FutureExecutionState) : FutureExecutionState :=
  s.notify FutureStatus.ForceSuspending

def executor___notify_user_suspended (s : FutureExecutionState) : FutureExecutionState :=
  s.notify FutureStatus.Suspended

def executor___notify_force_suspended (s : FutureExecutionState) : FutureExecutionState :=
  s.notify FutureStatus.ForceSuspended

def executor___notify_user_resuming (s : FutureExecutionState) : FutureExecutionState :=
  s.notify FutureStatus.Resuming

def executor___notify_force_resuming (s : FutureExecutionState) : FutureExecutionState :=
  s.notify FutureStatus.ForceResuming

def executor___notify_user_canceled (s : FutureExecutionState) : FutureExecutionState :=
  s.notify FutureStatus.Canceled

def executor___notify_force_canceled (s : FutureExecutionState) : FutureExecutionState :=
  s.notify FutureStatus.ForceCanceled

def executor___notify_completed_with_no_return_value (s : FutureExecutionState) :
    FutureExecutionState :=
  s.notify FutureStatus.Completed

/-- The method `executor___notify_completed_with_return_value` (async.h:377-379):
a release store of `Completed`. -/
def executor___notify_completed_with_return_value (s : FutureExecutionState) :
    FutureExecutionState :=
  { s with future_status := FutureStatus.Completed }

/-- The method `user___fetch_status` (async.h:381-383): a relaxed load. -/
def user___fetch_status (s : FutureExecutionState) : FutureStatus :=
  s.future_status

/-- The method `user___fetch_status_with_result` (async.h:387-389): an acquire load. -/
def user___fetch_status_with_result (s : FutureExecutionState) : FutureStatus :=
  s.future_status

/-- The method `user___is_done` (async.h:391-403). -/
def user___is_done (s : FutureExecutionState) : Bool :=
  match s.user___fetch_status with
  | FutureStatus.Canceled => true
  | FutureStatus.ForceCanceled => true
  | FutureStatus.Completed => true
  | _ => false

end FutureExecutionState

/-! ### `FutureRequestState` (async.h:414-493) -/

/-- The struct `FutureRequestState`: the four request slots, all initially
`None` (async.h:485-492). -/
structure FutureRequestState where
  user_requested_cancel_state : RequestedCancelState := RequestedCancelState.None
  user_requested_suspend_state : RequestedSuspendState := RequestedSuspendState.None
  executor_requested_cancel_state : RequestedCancelState := RequestedCancelState.None
  executor_requested_suspend_state : RequestedSuspendState := RequestedSuspendState.None
  deriving DecidableEq, Repr

namespace FutureRequestState

/-- The method `proxy___fetch_cancel_request` (async.h:418-428). -/
def proxy___fetch_cancel_request (s : FutureRequestState) : CancelRequest :=
  let user_requested_state := s.user_requested_cancel_state
  let executor_requested_state := s.executor_requested_cancel_state
  if executor_requested_state = RequestedCancelState.None then
    { source := RequestSource.User, state := user_requested_state }
  else
    { source := RequestSource.Executor, state := executor_requested_state }

/-- The method `proxy___fetch_suspend_request` (async.h:430-443). -/
def proxy___fetch_suspend_request (s : FutureRequestState) : SuspendRequest :=
  let user_requested_state := s.user_requested_suspend_state
  let executor_requested_state := s.executor_requested_suspend_state
  if executor_requested_state = RequestedSuspendState.None then
    { source := RequestSource.User, state := user_requested_state }
  else
    { source := RequestSource.Executor, state := executor_requested_state }

def user___request_cancel (s : FutureRequestState) : FutureRequestState :=
  { s with user_requested_cancel_state := RequestedCancelState.Canceled }

def user___request_resume (s : FutureRequestState) : FutureRequestState :=
  { s with user_requested_suspend_state := RequestedSuspendState.Resumed }

def user___request_suspend (s : FutureRequestState) : FutureRequestState :=
  { s with user_requested_suspend_state := RequestedSuspendState.Suspended }

def scheduler___request_force_cancel (s : FutureRequestState) : FutureRequestState :=
  { s with executor_requested_cancel_state := RequestedCancelState.Canceled }

def scheduler___request_force_resume (s : FutureRequestState) : FutureRequestState :=
  { s with executor_requested_suspend_state := RequestedSuspendState.Resumed }

def scheduler___request_force_suspend (s : FutureRequestState) : FutureRequestState :=
  { s with executor_requested_suspend_state := RequestedSuspendState.Suspended }

def scheduler___clear_force_suspension_request (s : FutureRequestState) :
    FutureRequestState :=
  { s with executor_requested_suspend_state := RequestedSuspendState.None }

end FutureRequestState

/-! ### `FutureBaseState` and `FutureState<T>` (async.h:495-612) -/

/-- The struct `FutureBaseState` (async.h:495-496): both bases side by side. -/
structure FutureBaseState extends FutureExecutionState, FutureRequestState
  deriving DecidableEq, Repr

namespace FutureBaseState

/-- A method inherited from `FutureExecutionState`, called on the derived object. -/
def execution (f : FutureExecutionState → FutureExecutionState) (s : FutureBaseState) :
    FutureBaseState :=
  { s with toFutureExecutionState := f s.toFutureExecutionState }

/-- A method inherited from `FutureRequestState`, called on the derived object. -/
def request (f : FutureRequestState → FutureRequestState) (s : FutureBaseState) :
    FutureBaseState :=
  { s with toFutureRequestState := f s.toFutureRequestState }

end FutureBaseState

/-- The struct `FutureState<T>` (async.h:499-612) for a non-void `T`. The member
`storage` is `none` while the cell holds no constructed `T`; the lock member is
the `result_lock_status` named by `user___try_lock_result`, initially
`Unlocked` as in the commented-out declaration at async.h:571. -/
structure FutureState (T : Type) extends FutureBaseState where
  storage : Option T := none
  result_lock_status : LockStatus := LockStatus.Unlocked
  deriving DecidableEq, Repr

namespace FutureState

variable {T : Type}

/-- A method inherited from `FutureBaseState`, called on the derived object. -/
def base (f : FutureBaseState → FutureBaseState) (s : FutureState T) : FutureState T :=
  { s with toFutureBaseState := f s.toFutureBaseState }

/-- The method `executor___unsafe_init` (async.h:590): placement-new of the value
into the storage cell. -/
def executor___unsafe_init (s : FutureState T) (value : T) : FutureState T :=
  { s with storage := some value }

/-- The method `executor___notify_completed_with_return_value(T&&)`
(async.h:508-511). -/
def executor___notify_completed_with_return_value (s : FutureState T) (value : T) :
    FutureState T :=
  (s.executor___unsafe_init value).base
    (FutureBaseState.execution
      FutureExecutionState.executor___notify_completed_with_return_value)

/-- The method `user___try_lock_result` (async.h:592-597): a strong
compare-exchange from `Unlocked` to `Locked`; the result tells whether the
exchange happened. -/
def user___try_lock_result (s : FutureState T) : Bool × FutureState T :=
  if s.result_lock_status = LockStatus.Unlocked then
    (true, { s with result_lock_status := LockStatus.Locked })
  else
    (false, s)

/-- The method `user___unlock_result` (async.h:599-601). -/
def user___unlock_result (s : FutureState T) : FutureState T :=
  { s with result_lock_status := LockStatus.Unlocked }

/-- The method `unsafe_launder_readable` (async.h:607-609): the object in the
storage cell, `none` when no object was constructed there. -/
def unsafe_launder_readable (s : FutureState T) : Option T :=
  s.storage

/-- The method `user___copy_result` (async.h:513-534). The outer `Option` is
`none` only when the function reads a storage cell in which nothing was
constructed, which the source leaves undefined. -/
def user___copy_result (s : FutureState T) : Option (Result T FutureError) × FutureState T :=
  match s.toFutureExecutionState.user___fetch_status_with_result with
  | FutureStatus.Completed =>
    match s.user___try_lock_result with
    | (true, s1) =>
      let result := s1.unsafe_launder_readable
      let s2 := s1.user___unlock_result
      (result.map Result.Ok, s2)
    | (false, s1) => (some (Result.Err FutureError.Locked), s1)
  | FutureStatus.Canceled => (some (Result.Err FutureError.Canceled), s)
  | FutureStatus.ForceCanceled => (some (Result.Err FutureError.Canceled), s)
  | _ => (some (Result.Err FutureError.Pending), s)

/-- The method `user___move_result` (async.h:536-557). The argument `moved` is
the state in which the move constructor of `T` leaves its source (the identity
for trivially movable types such as `int`). The outer `Option` is as in
`user___copy_result`. -/
def user___move_result (moved : T → T) (s : FutureState T) :
    Option (Result T FutureError) × FutureState T :=
  match s.toFutureExecutionState.user___fetch_status_with_result with
  | FutureStatus.Completed =>
    match s.user___try_lock_result with
    | (true, s1) =>
      let result := s1.storage
      let s2 := { s1 with storage := s1.storage.map moved }
      let s3 := s2.user___unlock_result
      (result.map Result.Ok, s3)
    | (false, s1) => (some (Result.Err FutureError.Locked), s1)
  | FutureStatus.Canceled => (some (Result.Err FutureError.Canceled), s)
  | FutureStatus.ForceCanceled => (some (Result.Err FutureError.Canceled), s)
  | _ => (some (Result.Err FutureError.Pending), s)

end FutureState

/-- The function `make_future` (async.h:989-997): the default-constructed shared
state that the returned `Future` and `Promise` both point to. -/
def make_future (T : Type) : FutureState T := {}

/-! ### The handles: `Future<T>`, `PromiseBase<T>`, `Promise<T>`, `PromiseAny`

Each method of a handle forwards to the shared state through `state.get()`;
here it takes the shared state and returns its new value. -/

namespace Future

variable {T : Type}

/-- The method `Future<T>::fetch_status` (async.h:654-656). -/
def fetch_status (state : FutureState T) : FutureStatus :=
  state.toFutureExecutionState.user___fetch_status

/-- The method `Future<T>::request_cancel` (async.h:658). -/
def request_cancel (state : FutureState T) : FutureState T :=
  state.base (FutureBaseState.request FutureRequestState.user___request_cancel)

/-- The method `Future<T>::request_suspend` (async.h:660). -/
def request_suspend (state : FutureState T) : FutureState T :=
  state.base (FutureBaseState.request FutureRequestState.user___request_suspend)

/-- The method `Future<T>::request_resume` (async.h:662). -/
def request_resume (state : FutureState T) : FutureState T :=
  state.base (FutureBaseState.request FutureRequestState.user___request_resume)

/-- The method `Future<T>::copy` (async.h:664-666), the owner's `copy_result`. -/
def copy (state : FutureState T) : Option (Result T FutureError) × FutureState T :=
  state.user___copy_result

/-- The method `Future<T>::move` (async.h:668-670), the owner's `move_result`. -/
def move (moved : T → T) (state : FutureState T) :
    Option (Result T FutureError) × FutureState T :=
  state.user___move_result moved

/-- The method `Future<T>::is_done` (async.h:672). -/
def is_done (state : FutureState T) : Bool :=
  state.toFutureExecutionState.user___is_done

end Future

namespace PromiseAny

def notify_scheduled (state : FutureBaseState) : FutureBaseState :=
  state.execution FutureExecutionState.executor___notify_scheduled

def notify_submitted (state : FutureBaseState) : FutureBaseState :=
  state.execution FutureExecutionState.executor___notify_submitted

def notify_executing (state : FutureBaseState) : FutureBaseState :=
  state.execution FutureExecutionState.executor___notify_executing

def notify_user_cancel_begin (state : FutureBaseState) : FutureBaseState :=
  state.execution FutureExecutionState.executor___notify_user_canceling

def notify_user_canceled (state : FutureBaseState) : FutureBaseState :=
  state.execution FutureExecutionState.executor___notify_user_canceled

def notify_force_cancel_begin (state : FutureBaseState) : FutureBaseState :=
  state.execution FutureExecutionState.executor___notify_force_canceling

def notify_force_canceled (state : FutureBaseState) : FutureBaseState :=
  state.execution FutureExecutionState.executor___notify_force_canceled

def notify_force_suspend_begin (state : FutureBaseState) : FutureBaseState :=
  state.execution FutureExecutionState.executor___notify_force_suspending

def notify_force_suspended (state : FutureBaseState) : FutureBaseState :=
  state.execution FutureExecutionState.executor___notify_force_suspended

def notify_force_resume_begin (state : FutureBaseState) : FutureBaseState :=
  state.execution FutureExecutionState.executor___notify_force_resuming

def notify_force_resumed (state : FutureBaseState) : FutureBaseState :=
  state.execution FutureExecutionState.executor___notify_force_resuming

def notify_user_suspend_begin (state : FutureBaseState) : FutureBaseState :=
  state.execution FutureExecutionState.executor___notify_user_suspending

def notify_user_suspended (state : FutureBaseState) : FutureBaseState :=
  state.execution FutureExecutionState.executor___notify_user_suspended

def notify_user_resume_begin (state : FutureBaseState) : FutureBaseState :=
  state.execution FutureExecutionState.executor___notify_user_resuming

def notify_user_resumed (state : FutureBaseState) : FutureBaseState :=
  state.execution FutureExecutionState.executor___notify_user_resumed

def request_force_cancel (state : FutureBaseState) : FutureBaseState :=
  state.request FutureRequestState.scheduler___request_force_cancel

def request_force_suspend (state : FutureBaseState) : FutureBaseState :=
  state.request FutureRequestState.scheduler___request_force_suspend

def request_force_resume (state : FutureBaseState) : FutureBaseState :=
  state.request FutureRequestState.scheduler___request_force_resume

def clear_force_suspension_request (state : FutureBaseState) : FutureBaseState :=
  state.request FutureRequestState.scheduler___clear_force_suspension_request

/-- The method `PromiseAny::fetch_cancel_request` (async.h:947-949). -/
def fetch_cancel_request (state : FutureBaseState) : CancelRequest :=
  state.toFutureRequestState.proxy___fetch_cancel_request

/-- The method `PromiseAny::fetch_suspend_request` (async.h:951-953). -/
def fetch_suspend_request (state : FutureBaseState) : SuspendRequest :=
  state.toFutureRequestState.proxy___fetch_suspend_request

end PromiseAny

namespace PromiseBase

variable {T : Type}

def notify_scheduled (state : FutureState T) : FutureState T :=
  state.base (FutureBaseState.execution FutureExecutionState.executor___notify_scheduled)

def notify_submitted (state : FutureState T) : FutureState T :=
  state.base (FutureBaseState.execution FutureExecutionState.executor___notify_submitted)

def notify_executing (state : FutureState T) : FutureState T :=
  state.base (FutureBaseState.execution FutureExecutionState.executor___notify_executing)

def notify_user_cancel_begin (state : FutureState T) : FutureState T :=
  state.base (FutureBaseState.execution FutureExecutionState.executor___notify_user_canceling)

def notify_user_canceled (state : FutureState T) : FutureState T :=
  state.base (FutureBaseState.execution FutureExecutionState.executor___notify_user_canceled)

def notify_force_cancel_begin (state : FutureState T) : FutureState T :=
  state.base (FutureBaseState.execution FutureExecutionState.executor___notify_force_canceling)

def notify_force_canceled (state : FutureState T) : FutureState T :=
  state.base (FutureBaseState.execution FutureExecutionState.executor___notify_force_canceled)

def notify_force_suspend_begin (state : FutureState T) : FutureState T :=
  state.base (FutureBaseState.execution FutureExecutionState.executor___notify_force_suspending)

def notify_force_suspended (state : FutureState T) : FutureState T :=
  state.base (FutureBaseState.execution FutureExecutionState.executor___notify_force_suspended)

def notify_force_resume_begin (state : FutureState T) : FutureState T :=
  state.base (FutureBaseState.execution FutureExecutionState.executor___notify_force_resuming)

def notify_force_resumed (state : FutureState T) : FutureState T :=
  state.base (FutureBaseState.execution FutureExecutionState.executor___notify_force_resuming)

def notify_user_suspend_begin (state : FutureState T) : FutureState T :=
  state.base (FutureBaseState.execution FutureExecutionState.executor___notify_user_suspending)

def notify_user_suspended (state : FutureState T) : FutureState T :=
  state.base (FutureBaseState.execution FutureExecutionState.executor___notify_user_suspended)

def notify_user_resume_begin (state : FutureState T) : FutureState T :=
  state.base (FutureBaseState.execution FutureExecutionState.executor___notify_user_resuming)

def notify_user_resumed (state : FutureState T) : FutureState T :=
  state.base (FutureBaseState.execution FutureExecutionState.executor___notify_user_resumed)

def request_force_cancel (state : FutureState T) : FutureState T :=
  state.base (FutureBaseState.request FutureRequestState.scheduler___request_force_cancel)

def request_force_suspend (state : FutureState T) : FutureState T :=
  state.base (FutureBaseState.request FutureRequestState.scheduler___request_force_suspend)

def request_force_resume (state : FutureState T) : FutureState T :=
  state.base (FutureBaseState.request FutureRequestState.scheduler___request_force_resume)

def clear_force_suspension_request (state : FutureState T) : FutureState T :=
  state.base (FutureBaseState.request FutureRequestState.scheduler___clear_force_suspension_request)

/-- The method `PromiseBase<T>::fetch_cancel_request` (async.h:811-813). -/
def fetch_cancel_request (state : FutureState T) : CancelRequest :=
  state.toFutureRequestState.proxy___fetch_cancel_request

/-- The method `PromiseBase<T>::fetch_suspend_request` (async.h:815-817). -/
def fetch_suspend_request (state : FutureState T) : SuspendRequest :=
  state.toFutureRequestState.proxy___fetch_suspend_request

end PromiseBase

namespace Promise

variable {T : Type}

/-- The method `Promise<T>::notify_completed(T&&)` (async.h:843-846). -/
def notify_completed (state : FutureState T) (value : T) : FutureState T :=
  state.executor___notify_completed_with_return_value value

end Promise

/-! ### Sequences of calls on one shared state -/

/-- The fifteen status notifications of `PromiseBase<T>` and `PromiseAny`
(async.h:739-791 and 875-927), one constructor per method. -/
inductive Notification where
  | notify_scheduled
  | notify_submitted
  | notify_executing
  | notify_user_cancel_begin
  | notify_user_canceled
  | notify_force_cancel_begin
  | notify_force_canceled
  | notify_force_suspend_begin
  | notify_force_suspended
  | notify_force_resume_begin
  | notify_force_resumed
  | notify_user_suspend_begin
  | notify_user_suspended
  | notify_user_resume_begin
  | notify_user_resumed
  deriving DecidableEq, Repr

namespace Notification

/-- The call of the named `PromiseAny` method. -/
def applyAny : Notification → FutureBaseState → FutureBaseState
  | notify_scheduled => PromiseAny.notify_scheduled
  | notify_submitted => PromiseAny.notify_submitted
  | notify_executing => PromiseAny.notify_executing
  | notify_user_cancel_begin => PromiseAny.notify_user_cancel_begin
  | notify_user_canceled => PromiseAny.notify_user_canceled
  | notify_force_cancel_begin => PromiseAny.notify_force_cancel_begin
  | notify_force_canceled => PromiseAny.notify_force_canceled
  | notify_force_suspend_begin => PromiseAny.notify_force_suspend_begin
  | notify_force_suspended => PromiseAny.notify_force_suspended
  | notify_force_resume_begin => PromiseAny.notify_force_resume_begin
  | notify_force_resumed => PromiseAny.notify_force_resumed
  | notify_user_suspend_begin => PromiseAny.notify_user_suspend_begin
  | notify_user_suspended => PromiseAny.notify_user_suspended
  | notify_user_resume_begin => PromiseAny.notify_user_resume_begin
  | notify_user_resumed => PromiseAny.notify_user_resumed

/-- The call of the named `PromiseBase<T>` method. -/
def apply {T : Type} : Notification → FutureState T → FutureState T
  | notify_scheduled => PromiseBase.notify_scheduled
  | notify_submitted => PromiseBase.notify_submitted
  | notify_executing => PromiseBase.notify_executing
  | notify_user_cancel_begin => PromiseBase.notify_user_cancel_begin
  | notify_user_canceled => PromiseBase.notify_user_canceled
  | notify_force_cancel_begin => PromiseBase.notify_force_cancel_begin
  | notify_force_canceled => PromiseBase.notify_force_canceled
  | notify_force_suspend_begin => PromiseBase.notify_force_suspend_begin
  | notify_force_suspended => PromiseBase.notify_force_suspended
  | notify_force_resume_begin => PromiseBase.notify_force_resume_begin
  | notify_force_resumed => PromiseBase.notify_force_resumed
  | notify_user_suspend_begin => PromiseBase.notify_user_suspend_begin
  | notify_user_suspended => PromiseBase.notify_user_suspended
  | notify_user_resume_begin => PromiseBase.notify_user_resume_begin
  | notify_user_resumed => PromiseBase.notify_user_resumed

/-- The status each notification stores, read off the body of the
`executor___notify_*` method it forwards to. -/
def status : Notification → FutureStatus
  | notify_scheduled => FutureStatus.Scheduled
  | notify_submitted => FutureStatus.Submitted
  | notify_executing => FutureStatus.Executing
  | notify_user_cancel_begin => FutureStatus.Canceling
  | notify_user_canceled => FutureStatus.Canceled
  | notify_force_cancel_begin => FutureStatus.ForceCanceling
  | notify_force_canceled => FutureStatus.ForceCanceled
  | notify_force_suspend_begin => FutureStatus.ForceSuspending
  | notify_force_suspended => FutureStatus.ForceSuspended
  | notify_force_resume_begin => FutureStatus.ForceResuming
  | notify_force_resumed => FutureStatus.ForceResuming
  | notify_user_suspend_begin => FutureStatus.Suspending
  | notify_user_suspended => FutureStatus.Suspended
  | notify_user_resume_begin => FutureStatus.Resuming
  | notify_user_resumed => FutureStatus.Executing

end Notification

/-- One call made through a `Future<T>` (the owner) or a `Promise<T>` (the
executor) that changes the shared state. -/
inductive Call (T : Type) where
  | request_cancel
  | request_suspend
  | request_resume
  | request_force_cancel
  | request_force_suspend
  | request_force_resume
  | clear_force_suspension_request
  | notify (n : Notification)
  | notify_completed (value : T)
  deriving DecidableEq, Repr

namespace Call

variable {T : Type}

/-- The effect of one call on the shared state. -/
def apply : Call T → FutureState T → FutureState T
  | request_cancel => Future.request_cancel
  | request_suspend => Future.request_suspend
  | request_resume => Future.request_resume
  | request_force_cancel => PromiseBase.request_force_cancel
  | request_force_suspend => PromiseBase.request_force_suspend
  | request_force_resume => PromiseBase.request_force_resume
  | clear_force_suspension_request => PromiseBase.clear_force_suspension_request
  | notify n => n.apply
  | notify_completed value => fun state => Promise.notify_completed state value

/-- The calls that write the executor's suspend slot. -/
def writesForcedSuspend : Call T → Bool
  | request_force_suspend => true
  | request_force_resume => true
  | clear_force_suspension_request => true
  | _ => false

/-- The calls in order, each on the state the previous one left. -/
def run (calls : List (Call T)) (state : FutureState T) : FutureState T :=
  calls.foldl (fun s c => c.apply s) state

/-- The owner's most recent suspend or resume request in a history of calls,
`None` when it holds neither. -/
def lastUserSuspendRequest : List (Call T) → RequestedSuspendState
  | [] => RequestedSuspendState.None
  | c :: rest =>
    match lastUserSuspendRequest rest with
    | RequestedSuspendState.None =>
      match c with
      | request_suspend => RequestedSuspendState.Suspended
      | request_resume => RequestedSuspendState.Resumed
      | _ => RequestedSuspendState.None
    | later => later

end Call

/-! ## Data model of `stream copy 4.h` -/

/-- The enumeration `StreamError` (stream copy 4.h:52). -/
inductive StreamError where
  | Pending
  | Closed
  deriving DecidableEq, Repr

/-- Modelled from the spec: the enumeration `AllocError` of `stx/allocator.h`,
a header that is not part of the sources; `generator____allocate` uses only
its enumerator `NoMemory`, the out-of-memory condition of the ring. -/
inductive AllocError where
  | NoMemory
  deriving DecidableEq, Repr

/-- The struct `StreamChunk<T>` (stream copy 4.h:118-137): the link to the next
chunk, null until the chunk is added to a stream, and the payload. The member
`manager` is not a field: a call of `manager.unref()` is recorded in the
`unrefs` log of the `StreamSystem` instead. -/
structure StreamChunk (T : Type) where
  next : Option Nat := none
  data : T
  deriving DecidableEq, Repr

/-- The members of `StreamState<T>` (stream copy 4.h:251-254) other than the
lock. -/
structure StreamState where
  closed : Bool := false
  pop_it : Option Nat := none
  yield_last : Option Nat := none
  deriving DecidableEq, Repr

/-- A stream together with the memory its pointers point into: `chunks a` is
the chunk object at address `a`, and `unrefs` lists, oldest first, the
addresses of the chunks on which `manager.unref()` has been called. -/
structure StreamSystem (T : Type) where
  state : StreamState := {}
  chunks : Nat → StreamChunk T
  unrefs : List Nat := []

namespace StreamSystem

variable {T : Type}

/-- The method `StreamState<T>::generator____yield` (stream copy 4.h:269-302). -/
def generator____yield (w : StreamSystem T) (chunk_handle : Nat) (should_close : Bool) :
    StreamSystem T :=
  if w.state.closed then
    -- was_added = false: the chunk is released by the yield itself
    { w with unrefs := w.unrefs ++ [chunk_handle] }
  else
    let chunks :=
      match w.state.yield_last, w.state.pop_it with
      | some last, some _ =>
        Function.update w.chunks last { w.chunks last with next := some chunk_handle }
      | _, _ => w.chunks
    let yield_last := some chunk_handle
    let pop_it := if w.state.pop_it = none then yield_last else w.state.pop_it
    { w with
      state := { closed := should_close, pop_it := pop_it, yield_last := yield_last }
      chunks := chunks }

/-- The method `StreamState<T>::generator____close` (stream copy 4.h:304-309). -/
def generator____close (w : StreamSystem T) : StreamSystem T :=
  { w with state := { w.state with closed := true } }

/-- The method `StreamState<T>::stream____is_closed` (stream copy 4.h:312-317). -/
def stream____is_closed (w : StreamSystem T) : Bool :=
  w.state.closed

/-- The method `StreamState<T>::stream____pop` (stream copy 4.h:323-348). The
argument `moved` is the state in which the move constructor of `T` leaves the
payload it moves from. -/
def stream____pop (moved : T → T) (w : StreamSystem T) :
    Result T StreamError × StreamSystem T :=
  match w.state.pop_it with
  | none =>
    if w.state.closed then
      (Result.Err StreamError.Closed, w)
    else
      (Result.Err StreamError.Pending, w)
  | some chunk =>
    let item := (w.chunks chunk).data
    (Result.Ok item,
      { state := { w.state with pop_it := (w.chunks chunk).next }
        chunks := Function.update w.chunks chunk { w.chunks chunk with data := moved item }
        unrefs := w.unrefs ++ [chunk] })

end StreamSystem

namespace StreamSystem

variable {T : Type}

/-- The chunks reached from the pointer `p` by following `next` are exactly the
chunks of the list, in order, and the last link is null. -/
def Linked (chunks : Nat → StreamChunk T) : Option Nat → List Nat → Prop
  | p, [] => p = none
  | p, a :: rest => p = some a ∧ Linked chunks (chunks a).next rest

/-- An open stream holds the queue of chunks `queue`, oldest first: the chunks
are linked in that order from `pop_it`, `yield_last` points to the newest when
there is one, the chunks are pairwise different, and each still carries its
payload. -/
def Represents (payload : Nat → T) (w : StreamSystem T) (queue : List Nat) : Prop :=
  w.state.closed = false ∧
    Linked w.chunks w.state.pop_it queue ∧
    (∀ l, queue.getLast? = some l → w.state.yield_last = some l) ∧
    queue.Nodup ∧
    ∀ a ∈ queue, (w.chunks a).data = payload a

end StreamSystem

/-- One call on a stream: a producer's yield or close, or the consumer's pop. -/
inductive StreamCall where
  | yield (chunk_handle : Nat) (should_close : Bool)
  | close
  | pop
  deriving DecidableEq, Repr

namespace StreamCall

variable {T : Type}

/-- The calls in order on one stream; the first component lists what the pops
returned, oldest first. -/
def run (moved : T → T) :
    List StreamCall → StreamSystem T → List (Result T StreamError) × StreamSystem T
  | [], w => ([], w)
  | yield chunk_handle should_close :: rest, w =>
    run moved rest (w.generator____yield chunk_handle should_close)
  | close :: rest, w => run moved rest w.generator____close
  | pop :: rest, w =>
    let r := w.stream____pop moved
    let t := run moved rest r.2
    (r.1 :: t.1, t.2)

/-- The chunk handles passed to yield, in call order. -/
def yielded : List StreamCall → List Nat
  | [] => []
  | yield chunk_handle _ :: rest => chunk_handle :: yielded rest
  | _ :: rest => yielded rest

/-- The calls that are a yield without the close flag, or a pop. -/
def isOpenYieldOrPop : StreamCall → Bool
  | yield _ false => true
  | pop => true
  | _ => false

end StreamCall

/-- The payloads of the successful pops among pop results, in order. -/
def poppedValues {T : Type} : List (Result T StreamError) → List T
  | [] => []
  | Result.Ok v :: rest => v :: poppedValues rest
  | Result.Err _ :: rest => poppedValues rest

/-- The FIFO queue the spec describes, on payloads: a yield appends at the
back, a pop takes from the front and reports `Pending` on an empty queue. The
result lists what the pops returned. -/
def fifoRun {T : Type} (payload : Nat → T) :
    List StreamCall → List T → List (Result T StreamError)
  | [], _ => []
  | StreamCall.yield chunk_handle _ :: rest, queue =>
    fifoRun payload rest (queue ++ [payload chunk_handle])
  | StreamCall.close :: rest, queue => fifoRun payload rest queue
  | StreamCall.pop :: rest, [] =>
    Result.Err StreamError.Pending :: fifoRun payload rest []
  | StreamCall.pop :: rest, v :: queue => Result.Ok v :: fifoRun payload rest queue

/-! ### `GeneratorRingMemory<T, N>` (stream copy 4.h:383-484) -/

/-- The members of `GeneratorRingMemory<T, N>` other than the lock.
`memory_chunks i` is the chunk constructed in slot `i`, `none` while the slot
holds no object. The capacity `N` is a template parameter and is passed to
every method; the source asserts `N != 0` and `N` is a `uint64_t`. -/
structure GeneratorRingMemory (T : Type) where
  memory_chunks : Nat → Option (StreamChunk T) := fun _ => none
  next_chunk_index : Nat := 0
  num_in_use : Nat := 0
  next_destruct_index : Nat := 0

namespace GeneratorRingMemory

variable {T : Type}

/-- The method `generator____allocate` (stream copy 4.h:421-439). The pointer
`memory_chunks + i` is the slot index `i`. -/
def generator____allocate (N : Nat) (r : GeneratorRingMemory T) (value : T) :
    Result Nat AllocError × GeneratorRingMemory T :=
  if r.num_in_use = N then
    (Result.Err AllocError.NoMemory, r)
  else
    let memory := r.next_chunk_index
    let r1 := { r with
      next_chunk_index := (r.next_chunk_index + 1) % 2 ^ 64 % N
      num_in_use := (r.num_in_use + 1) % 2 ^ 64 }
    (Result.Ok memory,
      { r1 with
        memory_chunks :=
          Function.update r1.memory_chunks memory (some { next := none, data := value }) })

/-- First critical section of `manager____unref` (stream copy 4.h:453-457):
the slot to destroy is captured and the destruct index advances. -/
def unref_capture (N : Nat) (r : GeneratorRingMemory T) : Nat × GeneratorRingMemory T :=
  (r.next_destruct_index,
    { r with next_destruct_index := (r.next_destruct_index + 1) % 2 ^ 64 % N })

/-- The destructor call of `manager____unref` (stream copy 4.h:473), outside
the lock. -/
def unref_destroy (to_destroy_chunk : Nat) (r : GeneratorRingMemory T) :
    GeneratorRingMemory T :=
  { r with memory_chunks := Function.update r.memory_chunks to_destroy_chunk none }

/-- Second critical section of `manager____unref` (stream copy 4.h:475-478):
`num_in_use--` on a `uint64_t`. -/
def unref_release (r : GeneratorRingMemory T) : GeneratorRingMemory T :=
  { r with num_in_use := (r.num_in_use + 2 ^ 64 - 1) % 2 ^ 64 }

/-- The method `manager____unref` (stream copy 4.h:441-479), its three steps
run without interruption. The first component is `to_destroy_chunk`, the slot
whose destructor ran. -/
def manager____unref (N : Nat) (r : GeneratorRingMemory T) : Nat × GeneratorRingMemory T :=
  let c := unref_capture N r
  (c.1, unref_release (unref_destroy c.1 c.2))

/-- The registers stay in the range the ring keeps them in. -/
def InRange (N : Nat) (r : GeneratorRingMemory T) : Prop :=
  r.num_in_use ≤ N ∧ r.next_chunk_index < N ∧ r.next_destruct_index < N ∧
    r.next_destruct_index = (r.next_chunk_index + N - r.num_in_use) % N

/-- The slots the registers describe as in use, oldest first: the
`num_in_use` slots that follow `next_destruct_index` around the ring. -/
def slotsInUse (N : Nat) (r : GeneratorRingMemory T) : List Nat :=
  (List.range r.num_in_use).map (fun i => (r.next_destruct_index + i) % N)

/-- The allocation index is `num_in_use` slots past the destruct index around
the ring, and the count does not exceed the capacity. -/
def Consistent (N : Nat) (r : GeneratorRingMemory T) : Prop :=
  r.num_in_use ≤ N ∧ r.next_destruct_index < N ∧
    r.next_chunk_index = (r.next_destruct_index + r.num_in_use) % N

/-- The memory of the ring holds chunks with the payloads `values`, oldest
first: the registers are consistent, the slots in use hold, in order, the
chunks constructed with these payloads, and every other slot of
`memory_chunks` holds no object. -/
def Holds (N : Nat) (r : GeneratorRingMemory T) (values : List T) : Prop :=
  Consistent N r ∧
    (slotsInUse N r).map r.memory_chunks =
      values.map (fun value => some { next := none, data := value }) ∧
    ∀ slot, slot ∉ slotsInUse N r → r.memory_chunks slot = none

end GeneratorRingMemory

/-- One call on a ring: an allocation of a payload or a reclamation. -/
inductive RingCall (T : Type) where
  | allocate (value : T)
  | unref
  deriving DecidableEq, Repr

/-- What a call on a ring did: handed out a slot, reported the ring exhausted,
or destroyed the chunk in a slot. -/
inductive RingEvent where
  | allocated (slot : Nat)
  | exhausted
  | destroyed (slot : Nat)
  deriving DecidableEq, Repr

namespace RingCall

variable {T : Type}

/-- The calls in order on one ring, with the event of each call. -/
def run (N : Nat) :
    List (RingCall T) → GeneratorRingMemory T → List RingEvent × GeneratorRingMemory T
  | [], r => ([], r)
  | allocate value :: rest, r =>
    let a := r.generator____allocate N value
    let t := run N rest a.2
    ((match a.1 with
      | Result.Ok slot => RingEvent.allocated slot
      | Result.Err _ => RingEvent.exhausted) :: t.1, t.2)
  | unref :: rest, r =>
    let u := r.manager____unref N
    let t := run N rest u.2
    (RingEvent.destroyed u.1 :: t.1, t.2)

/-- Every unref of the sequence is called while `num_in_use > 0`. -/
def unrefsWhileInUse (N : Nat) : List (RingCall T) → GeneratorRingMemory T → Bool
  | [], _ => true
  | allocate value :: rest, r => unrefsWhileInUse N rest (r.generator____allocate N value).2
  | unref :: rest, r =>
    decide (0 < r.num_in_use) && unrefsWhileInUse N rest (r.manager____unref N).2

/-- The payloads of the successful allocations of a sequence, in order. -/
def allocatedValues (N : Nat) : List (RingCall T) → GeneratorRingMemory T → List T
  | [], _ => []
  | allocate value :: rest, r =>
    let a := r.generator____allocate N value
    match a.1 with
    | Result.Ok _ => value :: allocatedValues N rest a.2
    | Result.Err _ => allocatedValues N rest a.2
  | unref :: rest, r => allocatedValues N rest (r.manager____unref N).2

end RingCall

/-- The slots handed out by the successful allocations of a trace, in order. -/
def allocatedSlots : List RingEvent → List Nat
  | [] => []
  | RingEvent.allocated slot :: rest => slot :: allocatedSlots rest
  | _ :: rest => allocatedSlots rest

/-- The slots destroyed by the unrefs of a trace, in order. -/
def destroyedSlots : List RingEvent → List Nat
  | [] => []
  | RingEvent.destroyed slot :: rest => slot :: destroyedSlots rest
  | _ :: rest => destroyedSlots rest

/-! ### Sequences of `executor___notify_*` calls on a `FutureExecutionState` -/

/-- The sixteen `executor___notify_*` methods of `FutureExecutionState`
(async.h:333-379), one constructor per method, named by the method without
the `executor___notify_` part. -/
inductive ExecutorNotification where
  | scheduled
  | submitted
  | executing
  | user_resumed
  | user_canceling
  | force_canceling
  | user_suspending
  | force_suspending
  | user_suspended
  | force_suspended
  | user_resuming
  | force_resuming
  | user_canceled
  | force_canceled
  | completed_with_no_return_value
  | completed_with_return_value
  deriving DecidableEq, Repr

namespace ExecutorNotification

/-- The call of the named method. -/
def apply : ExecutorNotification → FutureExecutionState → FutureExecutionState
  | scheduled => FutureExecutionState.executor___notify_scheduled
  | submitted => FutureExecutionState.executor___notify_submitted
  | executing => FutureExecutionState.executor___notify_executing
  | user_resumed => FutureExecutionState.executor___notify_user_resumed
  | user_canceling => FutureExecutionState.executor___notify_user_canceling
  | force_canceling => FutureExecutionState.executor___notify_force_canceling
  | user_suspending => FutureExecutionState.executor___notify_user_suspending
  | force_suspending => FutureExecutionState.executor___notify_force_suspending
  | user_suspended => FutureExecutionState.executor___notify_user_suspended
  | force_suspended => FutureExecutionState.executor___notify_force_suspended
  | user_resuming => FutureExecutionState.executor___notify_user_resuming
  | force_resuming => FutureExecutionState.executor___notify_force_resuming
  | user_canceled => FutureExecutionState.executor___notify_user_canceled
  | force_canceled => FutureExecutionState.executor___notify_force_canceled
  | completed_with_no_return_value => FutureExecutionState.executor___notify_completed_with_no_return_value
  | completed_with_return_value => FutureExecutionState.executor___notify_completed_with_return_value

/-- The status a notification names: the status of the same name, `Executing`
for `user_resumed` (a resumed task is executing again, async.h:106-108) and
`Completed` for both completions. -/
def status : ExecutorNotification → FutureStatus
  | scheduled => FutureStatus.Scheduled
  | submitted => FutureStatus.Submitted
  | executing => FutureStatus.Executing
  | user_resumed => FutureStatus.Executing
  | user_canceling => FutureStatus.Canceling
  | force_canceling => FutureStatus.ForceCanceling
  | user_suspending => FutureStatus.Suspending
  | force_suspending => FutureStatus.ForceSuspending
  | user_suspended => FutureStatus.Suspended
  | force_suspended => FutureStatus.ForceSuspended
  | user_resuming => FutureStatus.Resuming
  | force_resuming => FutureStatus.ForceResuming
  | user_canceled => FutureStatus.Canceled
  | force_canceled => FutureStatus.ForceCanceled
  | completed_with_no_return_value => FutureStatus.Completed
  | completed_with_return_value => FutureStatus.Completed

/-- The calls in order, each on the state the previous one left. -/
def run (calls : List ExecutorNotification) (s : FutureExecutionState) :
    FutureExecutionState :=
  calls.foldl (fun t n => n.apply t) s

/-- The status named by the last call of a sequence, `Scheduled` for the empty
sequence. -/
def lastStatus (calls : List ExecutorNotification) : FutureStatus :=
  match calls.getLast? with
  | none => FutureStatus.Scheduled
  | some n => n.status

end ExecutorNotification

/-! ### Stream teardown and the queue a stream holds -/

/-- What `unref_pass` does to a chunk: it reads the chunk's `next` member, and
it calls `manager.unref()` on the chunk. -/
inductive TeardownEvent where
  | read_next (chunk : Nat)
  | unref (chunk : Nat)
  deriving DecidableEq, Repr

/-- The chunks on which a teardown trace calls `manager.unref()`, in order. -/
def TeardownEvent.unrefs : List TeardownEvent → List Nat
  | [] => []
  | TeardownEvent.unref chunk :: rest => chunk :: TeardownEvent.unrefs rest
  | TeardownEvent.read_next _ :: rest => TeardownEvent.unrefs rest

namespace StreamSystem

variable {T : Type}

/-- The method `StreamState<T>::unref_pass` (stream copy 4.h:356-363): on a
non-null chunk it reads `next`, recurses on it, and then unrefs the chunk.
The recursion follows the links, so it is bounded by `fuel`; the result is
`none` when the fuel runs out before a null link is reached. -/
def unref_pass (chunks : Nat → StreamChunk T) : Nat → Option Nat → Option (List TeardownEvent)
  | _, none => some []
  | 0, some _ => none
  | fuel + 1, some chunk_handle =>
    (unref_pass chunks fuel (chunks chunk_handle).next).map
      (fun inner =>
        TeardownEvent.read_next chunk_handle :: (inner ++ [TeardownEvent.unref chunk_handle]))

/-- The method `StreamState<T>::unref_items` (stream copy 4.h:365). -/
def unref_items (w : StreamSystem T) (fuel : Nat) : Option (List TeardownEvent) :=
  unref_pass w.chunks fuel w.state.pop_it

/-- The destructor `~StreamState` (stream copy 4.h:370): the unrefs of
`unref_items` join the log. -/
def destroy (w : StreamSystem T) (fuel : Nat) : Option (StreamSystem T) :=
  (w.unref_items fuel).map
    (fun events => { w with unrefs := w.unrefs ++ TeardownEvent.unrefs events })

/-- The chunks of `queue` are linked in that order from `pop_it`, and each
still carries its payload. -/
def Chained (payload : Nat → T) (w : StreamSystem T) (queue : List Nat) : Prop :=
  Linked w.chunks w.state.pop_it queue ∧ ∀ a ∈ queue, (w.chunks a).data = payload a

/-- A stream, open or closed, holds the queue of chunks `queue`: they are
chained from `pop_it` and `yield_last` points to the newest when there is one. -/
def Queued (payload : Nat → T) (w : StreamSystem T) (queue : List Nat) : Prop :=
  Chained payload w queue ∧ ∀ l, queue.getLast? = some l → w.state.yield_last = some l

end StreamSystem

namespace StreamCall

variable {T : Type}

/-- The chunks handed to the consumer by the pops of a call sequence, in
order: the chunk `pop_it` points to at each pop that finds one. -/
def popped (moved : T → T) : List StreamCall → StreamSystem T → List Nat
  | [], _ => []
  | yield chunk_handle should_close :: rest, w =>
    popped moved rest (w.generator____yield chunk_handle should_close)
  | close :: rest, w => popped moved rest w.generator____close
  | pop :: rest, w =>
    (match w.state.pop_it with
      | some chunk => [chunk]
      | none => []) ++ popped moved rest (w.stream____pop moved).2

end StreamCall

/-! ## Data model of `stx/mem.h`: the reference-counted shared state -/

/-- The struct `mem::pmr::IntrusiveRefCountHandle<Object>` (mem.h:57-91): the
managed object and its `uint64_t` reference count. -/
structure IntrusiveRefCountHandle (Object : Type) where
  object : Object
  ref_count : Nat
  deriving DecidableEq, Repr

namespace IntrusiveRefCountHandle

variable {Object : Type}

/-- The method `ref` (mem.h:73-75): `fetch_add(1)` on a `uint64_t`. -/
def ref (h : IntrusiveRefCountHandle Object) : IntrusiveRefCountHandle Object :=
  { h with ref_count := (h.ref_count + 1) % 2 ^ 64 }

/-- The method `unref` (mem.h:77-90): `fetch_sub(1)` returns the count it found
and `delete this` runs when that count is 1. The first component tells whether
`delete this` ran; the second is the handle with the decremented count. -/
def unref (h : IntrusiveRefCountHandle Object) : Bool × IntrusiveRefCountHandle Object :=
  (decide (h.ref_count = 1), { h with ref_count := (h.ref_count + 2 ^ 64 - 1) % 2 ^ 64 })

end IntrusiveRefCountHandle

/-- Modelled from the spec: the method `ref` of the class `stx::Manager`
(`stx/manager.h`, a header that is not part of the sources). The spec
describes the manager as the object "controlling ref/unref" of a
reference-counted handle: it forwards to the `ref()` of the handle it refers
to. -/
def Manager.ref {Object : Type} (handle : IntrusiveRefCountHandle Object) :
    IntrusiveRefCountHandle Object :=
  handle.ref

/-- Modelled from the spec: the method `unref` of the class `stx::Manager`
(`stx/manager.h`, not part of the sources): it forwards to the `unref()` of
the handle it refers to. -/
def Manager.unref {Object : Type} (handle : IntrusiveRefCountHandle Object) :
    Bool × IntrusiveRefCountHandle Object :=
  handle.unref

/-- Modelled from the spec: the copy of an `stx::Rc` (`stx/rc.h`, not part of
the sources), a shared-ownership handle that stands for one reference: the
copy takes a reference through the manager, a move takes none. -/
def Rc.copy {Object : Type} (handle : IntrusiveRefCountHandle Object) :
    IntrusiveRefCountHandle Object :=
  Manager.ref handle

/-- Modelled from the spec: the destructor of an `stx::Rc` (`stx/rc.h`, not
part of the sources): the handle gives its reference back through the
manager. -/
def Rc.release {Object : Type} (handle : IntrusiveRefCountHandle Object) :
    Bool × IntrusiveRefCountHandle Object :=
  Manager.unref handle

/-- The function `mem::make_rc_inplace` (mem.h:103-119): the handle is
constructed with the count 0 and `manager.ref` is called on it once;
`unsafe_make_rc` and `transmute` adopt that reference. -/
def make_rc_inplace {Object : Type} (object : Object) : IntrusiveRefCountHandle Object :=
  let manager_handle : IntrusiveRefCountHandle Object := { object := object, ref_count := 0 }
  Manager.ref manager_handle

/-- The reference-counted handle behind the pair returned by `make_future`
(async.h:989-997): `make_rc_inplace` of a default-constructed state, copied
once for the `Future` and moved into the `Promise`. -/
def make_future_shared (T : Type) : IntrusiveRefCountHandle (FutureState T) :=
  let shared_state := make_rc_inplace (make_future T)
  Rc.copy shared_state

/-- One call on the handle of a shared object. -/
inductive RcCall where
  | ref
  | unref
  deriving DecidableEq, Repr

namespace RcCall

variable {Object : Type}

/-- The calls in order on one handle; the first component tells, call by
call, whether the call ran `delete this`. -/
def run : List RcCall → IntrusiveRefCountHandle Object →
    List Bool × IntrusiveRefCountHandle Object
  | [], h => ([], h)
  | ref :: rest, h =>
    let t := run rest h.ref
    (false :: t.1, t.2)
  | unref :: rest, h =>
    let u := h.unref
    let t := run rest u.2
    (u.1 :: t.1, t.2)

/-- Every call of the sequence is made through a handle that holds a
reference: the count is positive when the call starts. -/
def heldThroughout : List RcCall → IntrusiveRefCountHandle Object → Bool
  | [], _ => true
  | ref :: rest, h => decide (0 < h.ref_count) && heldThroughout rest h.ref
  | unref :: rest, h => decide (0 < h.ref_count) && heldThroughout rest h.unref.2

end RcCall

/-! ### A stream whose chunks live in one ring -/

/-- A `StreamState` whose chunks are all constructed by one
`GeneratorRingMemory`: the address of a chunk is its slot index; `releases`
lists, for every `manager.unref()` the stream has issued, the chunk it was
issued on and the slot `manager____unref` destroyed in response. -/
structure RingBackedStream (T : Type) where
  ring : GeneratorRingMemory T := {}
  stream : StreamSystem T
  releases : List (Nat × Nat) := []

namespace RingBackedStream

variable {T : Type}

/-- The call `chunk->manager.unref()` on a chunk of the ring. Modelled from the
spec: `stx::Manager` (`stx/manager.h`, not part of the sources) forwards to
the handle it was built from; for a chunk constructed by
`generator____allocate` that handle is the ring (`Manager{*this}`, stream copy
4.h:436), whose `unref()` is `manager____unref()` (stream copy 4.h:483). -/
def unref (N : Nat) (s : RingBackedStream T) (chunk : Nat) : RingBackedStream T :=
  let u := s.ring.manager____unref N
  { s with ring := u.2, releases := s.releases ++ [(chunk, u.1)] }

/-- The ring serves, in order, the unrefs a stream call has added to the log. -/
def serve (N : Nat) (s : RingBackedStream T) (stream : StreamSystem T) :
    RingBackedStream T :=
  (stream.unrefs.drop s.stream.unrefs.length).foldl (unref N) { s with stream := stream }

/-- A generator streams a value: `generator____allocate` constructs the chunk
in a slot of the ring, and `generator____yield` is called on that chunk.
Nothing is yielded when the ring has no memory. -/
def allocate_and_yield (N : Nat) (s : RingBackedStream T) (value : T) (should_close : Bool) :
    RingBackedStream T :=
  match s.ring.generator____allocate N value with
  | (Result.Err _, ring) => { s with ring := ring }
  | (Result.Ok chunk, ring) =>
    let constructed : StreamSystem T :=
      { s.stream with
        chunks := Function.update s.stream.chunks chunk { next := none, data := value } }
    serve N { s with ring := ring, stream := constructed }
      (constructed.generator____yield chunk should_close)

/-- The call `generator____close()` on the stream. -/
def close (s : RingBackedStream T) : RingBackedStream T :=
  { s with stream := s.stream.generator____close }

/-- The call `stream____pop()` on the stream. -/
def pop (N : Nat) (moved : T → T) (s : RingBackedStream T) :
    Result T StreamError × RingBackedStream T :=
  let r := s.stream.stream____pop moved
  (r.1, serve N s r.2)

/-- The destructor of the stream. -/
def destroy (N : Nat) (fuel : Nat) (s : RingBackedStream T) : Option (RingBackedStream T) :=
  (s.stream.destroy fuel).map (serve N s)

end RingBackedStream

/-! ### Destruction of the shared state, and calls that read the result -/

namespace FutureState

variable {T : Type}

/-- The method `unsafe_destroy` (async.h:611): the destructor of `T` runs on
the storage cell. The result is the cell it runs on, `none` when no object was
constructed there. -/
def unsafe_destroy (s : FutureState T) : Option T :=
  s.storage

/-- The destructor `~FutureState` (async.h:559-568). The result lists the
storage cells on which the destructor of `T` was invoked. -/
def destructor (s : FutureState T) : List (Option T) :=
  match s.toFutureExecutionState.user___fetch_status_with_result with
  | FutureStatus.Completed => [s.unsafe_destroy]
  | _ => []

end FutureState

/-- One operation on a future/promise pair: a call that changes the shared
state through either handle, or the owner's `copy()` or `move()`. -/
inductive PairCall (T : Type) where
  | call (c : Call T)
  | copy
  | move
  deriving DecidableEq, Repr

namespace PairCall

variable {T : Type}

/-- The shared state after one operation. -/
def apply (moved : T → T) : PairCall T → FutureState T → FutureState T
  | call c => c.apply
  | copy => fun state => (Future.copy state).2
  | move => fun state => (Future.move moved state).2

/-- The operations in order, each on the state the previous one left. -/
def run (moved : T → T) (calls : List (PairCall T)) (state : FutureState T) : FutureState T :=
  calls.foldl (fun s c => c.apply moved s) state

end PairCall

/-! ### Interleaved steps of allocations and unrefs on one ring -/

/-- A ring used by several threads: `allocated` lists the slots handed out
whose chunk no unref has captured yet, `in_destruction` the slots captured by
an unref that has not yet run its second critical section. -/
structure RingThreads (T : Type) where
  ring : GeneratorRingMemory T := {}
  allocated : List Nat := []
  in_destruction : List Nat := []

/-- One atomic step on a ring shared by threads: a whole
`generator____allocate`; the first critical section of a `manager____unref`;
or the rest of the `manager____unref` that captured `slot`, which destroys the
chunk and decrements `num_in_use`. -/
inductive RingStep (T : Type) where
  | allocate (value : T)
  | unref_capture
  | unref_finish (slot : Nat)
  deriving DecidableEq, Repr

namespace RingStep

variable {T : Type}

/-- The ring and the two lists after one step. -/
def apply (N : Nat) : RingStep T → RingThreads T → RingThreads T
  | allocate value, s =>
    match s.ring.generator____allocate N value with
    | (Result.Ok slot, ring) => { s with ring := ring, allocated := s.allocated ++ [slot] }
    | (Result.Err _, ring) => { s with ring := ring }
  | unref_capture, s =>
    let c := s.ring.unref_capture N
    { ring := c.2
      allocated := s.allocated.erase c.1
      in_destruction := s.in_destruction ++ [c.1] }
  | unref_finish slot, s =>
    { s with
      ring := (s.ring.unref_destroy slot).unref_release
      in_destruction := s.in_destruction.erase slot }

/-- The side conditions of a step: an unref starts only when the slot at
`next_destruct_index` is allocated, and only an unref that has captured a slot
finishes. -/
def permitted : RingStep T → RingThreads T → Bool
  | allocate _, _ => true
  | unref_capture, s => decide (s.ring.next_destruct_index ∈ s.allocated)
  | unref_finish slot, s => decide (slot ∈ s.in_destruction)

/-- The steps in order. -/
def run (N : Nat) : List (RingStep T) → RingThreads T → RingThreads T
  | [], s => s
  | step :: rest, s => run N rest (step.apply N s)

/-- Every step of the sequence meets its side condition when it runs. -/
def allPermitted (N : Nat) : List (RingStep T) → RingThreads T → Bool
  | [], _ => true
  | step :: rest, s => step.permitted s && allPermitted N rest (step.apply N s)

end RingStep

/-! ## Properties of the future/promise shared state -/

section FutureProperties

variable {T : Type}

/-- C1: for every content of the four request slots, `fetch_cancel_request`
returns the executor's value tagged `Executor` when that value is not `None`
and the owner's value tagged `User` when it is `None`, and
`fetch_suspend_request` follows the same rule on the suspend slots; the
`PromiseBase` and `PromiseAny` methods return the same as the proxy reads. -/
theorem fetch_request_arbitration (state : FutureState T) :
    PromiseBase.fetch_cancel_request state =
        (if state.executor_requested_cancel_state ≠ RequestedCancelState.None then
          { source := RequestSource.Executor, state := state.executor_requested_cancel_state }
        else
          { source := RequestSource.User, state := state.user_requested_cancel_state }) ∧
      PromiseBase.fetch_suspend_request state =
        (if state.executor_requested_suspend_state ≠ RequestedSuspendState.None then
          { source := RequestSource.Executor, state := state.executor_requested_suspend_state }
        else
          { source := RequestSource.User, state := state.user_requested_suspend_state }) ∧
      PromiseAny.fetch_cancel_request state.toFutureBaseState =
        PromiseBase.fetch_cancel_request state ∧
      PromiseAny.fetch_suspend_request state.toFutureBaseState =
        PromiseBase.fetch_suspend_request state := by
  refine ⟨?_, ?_, rfl, rfl⟩
  · simp only [PromiseBase.fetch_cancel_request,
      FutureRequestState.proxy___fetch_cancel_request]
    split_ifs <;> first | rfl | contradiction
  · simp only [PromiseBase.fetch_suspend_request,
      FutureRequestState.proxy___fetch_suspend_request]
    split_ifs <;> first | rfl | contradiction

/-- C2: on a state with status `s`, `copy_result` and `move_result` give
`Err(Canceled)` exactly when `s` is `Canceled` or `ForceCanceled`,
`Err(Pending)` exactly when `s` is none of `Completed`, `Canceled`,
`ForceCanceled`, and when `s` is `Completed` they give `Err(Locked)` if the
result lock is held and `Ok` of the stored value if it is free. -/
theorem copy_move_result_outcome (moved : T → T) (s : FutureState T) :
    ((Future.copy s).1 = some (Result.Err FutureError.Canceled) ↔
        (s.future_status = FutureStatus.Canceled ∨
          s.future_status = FutureStatus.ForceCanceled)) ∧
      ((Future.copy s).1 = some (Result.Err FutureError.Pending) ↔
        (s.future_status ≠ FutureStatus.Completed ∧
          s.future_status ≠ FutureStatus.Canceled ∧
          s.future_status ≠ FutureStatus.ForceCanceled)) ∧
      (s.future_status = FutureStatus.Completed →
        s.result_lock_status = LockStatus.Locked →
        (Future.copy s).1 = some (Result.Err FutureError.Locked)) ∧
      (s.future_status = FutureStatus.Completed →
        s.result_lock_status = LockStatus.Unlocked →
        ∀ v, s.storage = some v → (Future.copy s).1 = some (Result.Ok v)) ∧
      ((Future.move moved s).1 = some (Result.Err FutureError.Canceled) ↔
        (s.future_status = FutureStatus.Canceled ∨
          s.future_status = FutureStatus.ForceCanceled)) ∧
      ((Future.move moved s).1 = some (Result.Err FutureError.Pending) ↔
        (s.future_status ≠ FutureStatus.Completed ∧
          s.future_status ≠ FutureStatus.Canceled ∧
          s.future_status ≠ FutureStatus.ForceCanceled)) ∧
      (s.future_status = FutureStatus.Completed →
        s.result_lock_status = LockStatus.Locked →
        (Future.move moved s).1 = some (Result.Err FutureError.Locked)) ∧
      (s.future_status = FutureStatus.Completed →
        s.result_lock_status = LockStatus.Unlocked →
        ∀ v, s.storage = some v → (Future.move moved s).1 = some (Result.Ok v)) := by
  obtain ⟨⟨⟨status⟩, requests⟩, storage, lock⟩ := s
  cases status <;> cases lock <;> cases storage <;>
    simp [Future.copy, Future.move, FutureState.user___copy_result,
      FutureState.user___move_result, FutureState.user___try_lock_result,
      FutureState.user___unlock_result, FutureState.unsafe_launder_readable,
      FutureExecutionState.user___fetch_status_with_result]

/-- A completed state with a free lock and the value 42 stored, an unlocked
`Completed` state being an input at which every implication of
`copy_move_result_outcome` applies. -/
theorem copy_move_result_outcome_witness :
    (Future.copy (Promise.notify_completed (make_future Nat) 42)).1 =
        some (Result.Ok 42) ∧
      (Future.move id (Promise.notify_completed (make_future Nat) 42)).1 =
        some (Result.Ok 42) :=
  ⟨(copy_move_result_outcome id (Promise.notify_completed (make_future Nat) 42)).2.2.2.1
      rfl rfl 42 rfl,
    (copy_move_result_outcome id (Promise.notify_completed (make_future Nat) 42)).2.2.2.2.2.2.2
      rfl rfl 42 rfl⟩

/-- The effect of a status notification: the status register takes the status
the notification names and nothing else changes. -/
theorem Notification.apply_eq (n : Notification) (s : FutureState T) :
    n.apply s = { s with future_status := n.status } := by
  cases n <;> rfl

/-- No call through a `Future` or `Promise` handle touches the result lock. -/
theorem Call.apply_result_lock_status (c : Call T) (s : FutureState T) :
    (c.apply s).result_lock_status = s.result_lock_status := by
  cases c <;> first | rfl | (rw [Call.apply, Notification.apply_eq])

/-- A sequence of calls leaves the result lock as it found it. -/
theorem Call.run_result_lock_status (calls : List (Call T)) (s : FutureState T) :
    (Call.run calls s).result_lock_status = s.result_lock_status := by
  induction calls generalizing s with
  | nil => rfl
  | cons c rest ih =>
    show (Call.run rest (c.apply s)).result_lock_status = _
    rw [ih, Call.apply_result_lock_status]

/-- C3: on a fresh future/promise pair, after any sequence of calls (in
particular any sequence of non-completing notifications) followed by
`notify_completed(v)`, the owner reads the status `Completed`, `is_done()` is
true, and `copy_result()`, a first `move_result()`, and a `move_result()`
that follows a `copy_result()` each return `Ok(v)`. -/
theorem completion_round_trip (moved : T → T) (v : T) (calls : List (Call T)) :
    Future.fetch_status (Promise.notify_completed (Call.run calls (make_future T)) v) =
        FutureStatus.Completed ∧
      Future.is_done (Promise.notify_completed (Call.run calls (make_future T)) v) = true ∧
      (Future.copy (Promise.notify_completed (Call.run calls (make_future T)) v)).1 =
        some (Result.Ok v) ∧
      (Future.move moved (Promise.notify_completed (Call.run calls (make_future T)) v)).1 =
        some (Result.Ok v) ∧
      (Future.move moved
        (Future.copy (Promise.notify_completed (Call.run calls (make_future T)) v)).2).1 =
        some (Result.Ok v) := by
  have hlock : (Call.run calls (make_future T)).result_lock_status = LockStatus.Unlocked :=
    Call.run_result_lock_status calls (make_future T)
  generalize Call.run calls (make_future T) = s at hlock
  obtain ⟨⟨⟨status⟩, requests⟩, storage, lock⟩ := s
  simp only at hlock
  subst hlock
  simp [Future.fetch_status, Future.is_done, Future.copy, Future.move,
    Promise.notify_completed, FutureState.executor___notify_completed_with_return_value,
    FutureState.executor___unsafe_init, FutureState.base, FutureBaseState.execution,
    FutureExecutionState.executor___notify_completed_with_return_value,
    FutureExecutionState.user___fetch_status, FutureExecutionState.user___is_done,
    FutureState.user___copy_result, FutureState.user___move_result,
    FutureState.user___try_lock_result, FutureState.user___unlock_result,
    FutureState.unsafe_launder_readable,
    FutureExecutionState.user___fetch_status_with_result]

/-- C7, as the claim states it, fails: on a future completed with 42 the
status is the terminal `Completed`, yet `notify_scheduled` changes it, and a
second `notify_completed` changes the stored result. -/
theorem terminal_status_overwritten :
    is_terminal_future_status
        (Future.fetch_status (Promise.notify_completed (make_future Nat) 42)) = true ∧
      Future.fetch_status
          (PromiseBase.notify_scheduled (Promise.notify_completed (make_future Nat) 42)) ≠
        Future.fetch_status (Promise.notify_completed (make_future Nat) 42) ∧
      (Promise.notify_completed (Promise.notify_completed (make_future Nat) 42) 7).storage ≠
        (Promise.notify_completed (make_future Nat) 42).storage := by
  decide

/-- C7, amended: for every state, terminal or not, and every executor
notification, the status after the call is the status the notification names,
so it equals the status before the call only when the notification names that
status; the `PromiseAny` method does the same on the base state; a `notify_*`
call other than `notify_completed` leaves the stored result unchanged, and
`notify_completed(v)` stores `Completed` and replaces the stored result by `v`. -/
theorem notification_overwrites_status (s : FutureState T) (n : Notification) (v : T) :
    Future.fetch_status (n.apply s) = n.status ∧
      (Future.fetch_status (n.apply s) = Future.fetch_status s ↔
        n.status = Future.fetch_status s) ∧
      n.applyAny s.toFutureBaseState = (n.apply s).toFutureBaseState ∧
      (n.apply s).storage = s.storage ∧
      Future.fetch_status (Promise.notify_completed s v) = FutureStatus.Completed ∧
      (Promise.notify_completed s v).storage = some v := by
  refine ⟨?_, ?_, ?_, ?_, rfl, rfl⟩
  · rw [Notification.apply_eq]; rfl
  · rw [Notification.apply_eq]; exact Iff.rfl
  · cases n <;> rfl
  · rw [Notification.apply_eq]

/-- C8, as the claim states it, fails: on a future completed with 42 (an
`int`, whose move leaves the source unchanged) the first `move_result` returns
`Ok(42)` and so does the second. -/
theorem second_move_result_returns_value_again :
    (Future.move id (Promise.notify_completed (make_future Nat) 42)).1 =
        some (Result.Ok 42) ∧
      (Future.move id
          (Future.move id (Promise.notify_completed (make_future Nat) 42)).2).1 =
        some (Result.Ok 42) := by
  decide

/-- C8, amended: on a future completed with `v`, the first `move_result`
returns `Ok(v)` and a second `move_result` on the same shared state is not
guarded: it returns `Ok` again, holding what the move left in the storage
cell. -/
theorem second_move_result_not_guarded (moved : T → T) (v : T) (calls : List (Call T)) :
    (Future.move moved (Promise.notify_completed (Call.run calls (make_future T)) v)).1 =
        some (Result.Ok v) ∧
      (Future.move moved
          (Future.move moved
            (Promise.notify_completed (Call.run calls (make_future T)) v)).2).1 =
        some (Result.Ok (moved v)) := by
  have hlock : (Call.run calls (make_future T)).result_lock_status = LockStatus.Unlocked :=
    Call.run_result_lock_status calls (make_future T)
  generalize Call.run calls (make_future T) = s at hlock
  obtain ⟨⟨⟨status⟩, requests⟩, storage, lock⟩ := s
  simp only at hlock
  subst hlock
  simp [Future.move, Promise.notify_completed,
    FutureState.executor___notify_completed_with_return_value,
    FutureState.executor___unsafe_init, FutureState.base, FutureBaseState.execution,
    FutureExecutionState.executor___notify_completed_with_return_value,
    FutureState.user___move_result, FutureState.user___try_lock_result,
    FutureState.user___unlock_result,
    FutureExecutionState.user___fetch_status_with_result]

/-- No call writes a value other than `Canceled` into the executor's cancel
slot. -/
theorem Call.apply_executor_cancel (c : Call T) (s : FutureState T)
    (h : s.executor_requested_cancel_state = RequestedCancelState.Canceled) :
    (c.apply s).executor_requested_cancel_state = RequestedCancelState.Canceled := by
  cases c <;> first | exact h | rfl | (rw [Call.apply, Notification.apply_eq]; exact h)

/-- Once `Canceled`, the executor's cancel slot stays `Canceled` along any
sequence of calls. -/
theorem Call.run_executor_cancel (calls : List (Call T)) (s : FutureState T)
    (h : s.executor_requested_cancel_state = RequestedCancelState.Canceled) :
    (Call.run calls s).executor_requested_cancel_state = RequestedCancelState.Canceled := by
  induction calls generalizing s with
  | nil => exact h
  | cons c rest ih => exact ih (c.apply s) (Call.apply_executor_cancel c s h)

/-- C9: once `force_cancel()` has been called, after every further finite
sequence of owner and executor calls (requests, forced requests, the clearing
of the forced suspension, notifications, completion), in any order,
`fetch_cancel_request()` returns `Executor` with `Canceled`. -/
theorem executor_cancel_wins_for_good (s : FutureState T) (calls : List (Call T)) :
    PromiseBase.fetch_cancel_request
        (Call.run calls (PromiseBase.request_force_cancel s)) =
      { source := RequestSource.Executor, state := RequestedCancelState.Canceled } := by
  have h := Call.run_executor_cancel calls (PromiseBase.request_force_cancel s) rfl
  simp only [PromiseBase.fetch_cancel_request,
    FutureRequestState.proxy___fetch_cancel_request]
  rw [h]
  rfl

/-- A call other than `request_force_suspend`, `request_force_resume` and
`clear_force_suspension_request` leaves the executor's suspend slot unchanged. -/
theorem Call.apply_executor_suspend (c : Call T) (s : FutureState T)
    (h : c.writesForcedSuspend = false) :
    (c.apply s).executor_requested_suspend_state = s.executor_requested_suspend_state := by
  cases c <;>
    first
    | rfl
    | (rw [Call.apply, Notification.apply_eq])
    | (simp [Call.writesForcedSuspend] at h)

/-- A sequence of calls none of which writes the executor's suspend slot leaves
that slot unchanged. -/
theorem Call.run_executor_suspend (calls : List (Call T)) (s : FutureState T)
    (h : ∀ c ∈ calls, Call.writesForcedSuspend c = false) :
    (Call.run calls s).executor_requested_suspend_state =
      s.executor_requested_suspend_state := by
  induction calls generalizing s with
  | nil => rfl
  | cons c rest ih =>
    show (Call.run rest (c.apply s)).executor_requested_suspend_state = _
    rw [ih (c.apply s) (fun d hd => h d (List.mem_cons_of_mem c hd)),
      Call.apply_executor_suspend c s (h c (List.mem_cons_self c rest))]

/-- What one call does to the owner's suspend slot. -/
theorem Call.apply_user_suspend (c : Call T) (s : FutureState T) :
    (c.apply s).user_requested_suspend_state =
      (match c with
      | Call.request_suspend => RequestedSuspendState.Suspended
      | Call.request_resume => RequestedSuspendState.Resumed
      | _ => s.user_requested_suspend_state) := by
  cases c <;> first | rfl | (rw [Call.apply, Notification.apply_eq])

/-- After a sequence of calls the owner's suspend slot holds the owner's most
recent suspend or resume request, and its old content when there was none. -/
theorem Call.run_user_suspend (calls : List (Call T)) (s : FutureState T) :
    (Call.run calls s).user_requested_suspend_state =
      (match Call.lastUserSuspendRequest calls with
      | RequestedSuspendState.None => s.user_requested_suspend_state
      | later => later) := by
  induction calls generalizing s with
  | nil => rfl
  | cons c rest ih =>
    show (Call.run rest (c.apply s)).user_requested_suspend_state = _
    rw [ih (c.apply s), Call.apply_user_suspend]
    simp only [Call.lastUserSuspendRequest]
    cases Call.lastUserSuspendRequest rest <;> cases c <;> rfl

/-- Running two sequences one after the other is running their concatenation. -/
theorem Call.run_append (a b : List (Call T)) (s : FutureState T) :
    Call.run (a ++ b) s = Call.run b (Call.run a s) := by
  simp [Call.run, List.foldl_append]

/-- The owner's most recent suspend or resume request is not changed by
inserting or removing a call that is neither. -/
theorem Call.lastUserSuspendRequest_append (a b : List (Call T)) :
    Call.lastUserSuspendRequest (a ++ b) =
      (match Call.lastUserSuspendRequest b with
      | RequestedSuspendState.None => Call.lastUserSuspendRequest a
      | later => later) := by
  induction a with
  | nil =>
    simp only [List.nil_append, Call.lastUserSuspendRequest]
    cases Call.lastUserSuspendRequest b <;> rfl
  | cons c rest ih =>
    have unfolded : ∀ l : List (Call T), Call.lastUserSuspendRequest (c :: l) =
        (match Call.lastUserSuspendRequest l with
        | RequestedSuspendState.None =>
          match c with
          | Call.request_suspend => RequestedSuspendState.Suspended
          | Call.request_resume => RequestedSuspendState.Resumed
          | _ => RequestedSuspendState.None
        | later => later) := fun _ => rfl
    rw [List.cons_append, unfolded, unfolded, ih]
    cases Call.lastUserSuspendRequest b <;> rfl

/-- The suspend request read after the executor's slot was cleared is the
owner's slot. -/
theorem fetch_suspend_request_after_clear (s : FutureState T) :
    PromiseBase.fetch_suspend_request (PromiseBase.clear_force_suspension_request s) =
      { source := RequestSource.User, state := s.user_requested_suspend_state } := by
  rfl

/-- C10: after `request_force_suspend()` (resp. `request_force_resume()`),
along every sequence of calls that contains no `request_force_suspend`,
`request_force_resume` or `clear_force_suspension_request`,
`fetch_suspend_request()` stays `Executor` with `Suspended` (resp. `Resumed`);
after `clear_force_suspension_request()` it returns `User` with the owner's
most recent suspend or resume request in the whole history, `None` if the
owner made none. -/
theorem forced_suspension_protocol (s : FutureState T) (before calls : List (Call T))
    (h : ∀ c ∈ calls, Call.writesForcedSuspend c = false) :
    PromiseBase.fetch_suspend_request
        (Call.run calls (PromiseBase.request_force_suspend s)) =
      { source := RequestSource.Executor, state := RequestedSuspendState.Suspended } ∧
    PromiseBase.fetch_suspend_request
        (Call.run calls (PromiseBase.request_force_resume s)) =
      { source := RequestSource.Executor, state := RequestedSuspendState.Resumed } ∧
    PromiseBase.fetch_suspend_request
        (PromiseBase.clear_force_suspension_request
          (Call.run calls
            (PromiseBase.request_force_suspend (Call.run before (make_future T))))) =
      { source := RequestSource.User,
        state := Call.lastUserSuspendRequest (before ++ calls) } ∧
    PromiseBase.fetch_suspend_request
        (PromiseBase.clear_force_suspension_request
          (Call.run calls
            (PromiseBase.request_force_resume (Call.run before (make_future T))))) =
      { source := RequestSource.User,
        state := Call.lastUserSuspendRequest (before ++ calls) } := by
  have key : ∀ force : Call T, (∀ t : FutureState T,
        (force.apply t).user_requested_suspend_state = t.user_requested_suspend_state) →
      (Call.run calls (force.apply (Call.run before (make_future T)))).user_requested_suspend_state
        = Call.lastUserSuspendRequest (before ++ calls) := by
    intro force hforce
    rw [Call.run_user_suspend, hforce, Call.run_user_suspend,
      Call.lastUserSuspendRequest_append]
    cases Call.lastUserSuspendRequest calls <;>
      cases Call.lastUserSuspendRequest before <;> rfl
  refine ⟨?_, ?_, ?_, ?_⟩
  · have e := Call.run_executor_suspend calls (PromiseBase.request_force_suspend s) h
    simp only [PromiseBase.fetch_suspend_request,
      FutureRequestState.proxy___fetch_suspend_request]
    rw [e]
    rfl
  · have e := Call.run_executor_suspend calls (PromiseBase.request_force_resume s) h
    simp only [PromiseBase.fetch_suspend_request,
      FutureRequestState.proxy___fetch_suspend_request]
    rw [e]
    rfl
  · rw [fetch_suspend_request_after_clear]
    exact congrArg _ (key Call.request_force_suspend (fun _ => rfl))
  · rw [fetch_suspend_request_after_clear]
    exact congrArg _ (key Call.request_force_resume (fun _ => rfl))

/-- The owner asks to suspend, the executor forces a suspension, the owner asks
to resume and the executor notifies `Executing`: the forced suspension stays
in effect, and once cleared the owner's last request, `Resumed`, is read. -/
theorem forced_suspension_protocol_witness :
    PromiseBase.fetch_suspend_request
        (Call.run [Call.request_resume, Call.notify Notification.notify_executing]
          (PromiseBase.request_force_suspend (make_future Nat))) =
      { source := RequestSource.Executor, state := RequestedSuspendState.Suspended } ∧
    PromiseBase.fetch_suspend_request
        (PromiseBase.clear_force_suspension_request
          (Call.run [Call.request_resume, Call.notify Notification.notify_executing]
            (PromiseBase.request_force_suspend
              (Call.run [Call.request_suspend] (make_future Nat))))) =
      { source := RequestSource.User, state := RequestedSuspendState.Resumed } :=
  ⟨(forced_suspension_protocol (make_future Nat) [Call.request_suspend]
      [Call.request_resume, Call.notify Notification.notify_executing]
      (by decide)).1,
    (forced_suspension_protocol (make_future Nat) [Call.request_suspend]
      [Call.request_resume, Call.notify Notification.notify_executing]
      (by decide)).2.2.1⟩

end FutureProperties

/-! ## Properties of the generator ring memory -/

section RingProperties

variable {T : Type}

/-- A `uint64_t` holding less than the capacity can be incremented without
wrapping. -/
theorem succ_mod_two_pow_64 (x N : Nat) (hN64 : N < 2 ^ 64) (hx : x < N) :
    (x + 1) % 2 ^ 64 = x + 1 :=
  Nat.mod_eq_of_lt (by omega)

/-- The run of a sequence that starts with an allocation. -/
theorem RingCall.run_cons_allocate (N : Nat) (value : T) (rest : List (RingCall T))
    (r : GeneratorRingMemory T) :
    RingCall.run N (RingCall.allocate value :: rest) r =
      ((match (r.generator____allocate N value).1 with
        | Result.Ok slot => RingEvent.allocated slot
        | Result.Err _ => RingEvent.exhausted) ::
          (RingCall.run N rest (r.generator____allocate N value).2).1,
        (RingCall.run N rest (r.generator____allocate N value).2).2) :=
  rfl

/-- The run of a sequence that starts with an unref. -/
theorem RingCall.run_cons_unref (N : Nat) (rest : List (RingCall T))
    (r : GeneratorRingMemory T) :
    RingCall.run N (RingCall.unref :: rest) r =
      (RingEvent.destroyed (r.manager____unref N).1 ::
          (RingCall.run N rest (r.manager____unref N).2).1,
        (RingCall.run N rest (r.manager____unref N).2).2) :=
  rfl

/-- Running two sequences of ring calls one after the other is running their
concatenation; the traces concatenate. -/
theorem RingCall.run_ring_append (N : Nat) (a b : List (RingCall T))
    (r : GeneratorRingMemory T) :
    RingCall.run N (a ++ b) r =
      ((RingCall.run N a r).1 ++ (RingCall.run N b (RingCall.run N a r).2).1,
        (RingCall.run N b (RingCall.run N a r).2).2) := by
  induction a generalizing r with
  | nil => rfl
  | cons c rest ih =>
    cases c with
    | allocate value =>
      rw [List.cons_append, RingCall.run_cons_allocate, RingCall.run_cons_allocate, ih]
      rfl
    | unref =>
      rw [List.cons_append, RingCall.run_cons_unref, RingCall.run_cons_unref, ih]
      rfl

/-- Allocations that fit: starting with `num_in_use` slots in use on a ring
whose allocation index equals `num_in_use` modulo the capacity, allocating
values while the total stays within the capacity hands out the consecutive
slots `num_in_use`, `num_in_use + 1`, ... -/
theorem RingCall.run_allocations (N : Nat) (hN64 : N < 2 ^ 64) (values : List T)
    (r : GeneratorRingMemory T) (hfit : r.num_in_use + values.length ≤ N)
    (hidx : r.next_chunk_index = r.num_in_use % N) :
    (RingCall.run N (values.map RingCall.allocate) r).1 =
        (List.range' r.num_in_use values.length).map RingEvent.allocated ∧
      (RingCall.run N (values.map RingCall.allocate) r).2.num_in_use =
        r.num_in_use + values.length ∧
      (RingCall.run N (values.map RingCall.allocate) r).2.next_chunk_index =
        (r.num_in_use + values.length) % N ∧
      (RingCall.run N (values.map RingCall.allocate) r).2.next_destruct_index =
        r.next_destruct_index := by
  induction values generalizing r with
  | nil => exact ⟨rfl, rfl, hidx, rfl⟩
  | cons v rest ih =>
    have hlen : (v :: rest).length = rest.length + 1 := rfl
    rw [hlen] at hfit
    have hlt : r.num_in_use < N := by omega
    have hne : r.num_in_use ≠ N := by omega
    have hnc : r.next_chunk_index = r.num_in_use := by
      rw [hidx, Nat.mod_eq_of_lt hlt]
    have hstep : r.generator____allocate N v =
        (Result.Ok r.num_in_use,
          { r with
            next_chunk_index := (r.num_in_use + 1) % N
            num_in_use := r.num_in_use + 1
            memory_chunks := Function.update r.memory_chunks r.num_in_use
              (some { next := none, data := v }) }) := by
      simp only [GeneratorRingMemory.generator____allocate, if_neg hne, hnc,
        succ_mod_two_pow_64 r.num_in_use N hN64 hlt]
    have h := ih (r.generator____allocate N v).2
      (by rw [hstep]; show r.num_in_use + 1 + rest.length ≤ N; omega)
      (by rw [hstep])
    rw [hstep] at h
    simp only [List.map_cons, RingCall.run, hstep, hlen, List.range'_succ]
    refine ⟨?_, ?_, ?_, ?_⟩
    · rw [h.1]
    · rw [h.2.1]; show r.num_in_use + 1 + rest.length = _; omega
    · rw [h.2.2.1]
      show (r.num_in_use + 1 + rest.length) % N = _
      rw [show r.num_in_use + 1 + rest.length = r.num_in_use + (rest.length + 1) by omega]
    · rw [h.2.2.2]

/-- C5: on a ring of capacity `N` whose registers are in range,
`generator____allocate` returns `Err(NoMemory)` if and only if
`num_in_use == N`, and then leaves the three registers unchanged; otherwise
it returns the slot `next_chunk_index`, sets `next_chunk_index` to
`(next_chunk_index + 1) mod N` and increments `num_in_use`. On a fresh ring
`N` allocations succeed with the slots `0 .. N-1` and one more fails. -/
theorem ring_capacity (N : Nat) (hN64 : N < 2 ^ 64) (r : GeneratorRingMemory T)
    (value : T) (hr : r.num_in_use ≤ N) (hc : r.next_chunk_index < N)
    (values : List T) (hlen : values.length = N) :
    ((r.generator____allocate N value).1 = Result.Err AllocError.NoMemory ↔
        r.num_in_use = N) ∧
      (r.num_in_use = N →
        (r.generator____allocate N value).2.next_chunk_index = r.next_chunk_index ∧
        (r.generator____allocate N value).2.next_destruct_index = r.next_destruct_index ∧
        (r.generator____allocate N value).2.num_in_use = r.num_in_use) ∧
      (r.num_in_use ≠ N →
        (r.generator____allocate N value).1 = Result.Ok r.next_chunk_index ∧
        (r.generator____allocate N value).2.next_chunk_index =
          (r.next_chunk_index + 1) % N ∧
        (r.generator____allocate N value).2.num_in_use = r.num_in_use + 1 ∧
        (r.generator____allocate N value).2.next_destruct_index =
          r.next_destruct_index) ∧
      (RingCall.run N (values.map RingCall.allocate ++ [RingCall.allocate value]) {}).1 =
        (List.range N).map RingEvent.allocated ++ [RingEvent.exhausted] := by
  refine ⟨?_, ?_, ?_, ?_⟩
  · by_cases h : r.num_in_use = N
    · simp [GeneratorRingMemory.generator____allocate, h]
    · simp [GeneratorRingMemory.generator____allocate, h]
  · intro h
    simp [GeneratorRingMemory.generator____allocate, h]
  · intro h
    have hlt : r.num_in_use < N := by omega
    have e1 := succ_mod_two_pow_64 r.num_in_use N hN64 hlt
    have e2 := succ_mod_two_pow_64 r.next_chunk_index N hN64 hc
    refine ⟨?_, ?_, ?_, ?_⟩
    · simp only [GeneratorRingMemory.generator____allocate, if_neg h]
    · simp only [GeneratorRingMemory.generator____allocate, if_neg h, e2]
    · simp only [GeneratorRingMemory.generator____allocate, if_neg h, e1]
    · simp only [GeneratorRingMemory.generator____allocate, if_neg h]
  · have h := RingCall.run_allocations N hN64 values ({} : GeneratorRingMemory T)
      (by show 0 + values.length ≤ N; omega) (by show 0 = 0 % N; simp)
    rw [RingCall.run_ring_append]
    have hfull : (RingCall.run N (values.map RingCall.allocate)
        ({} : GeneratorRingMemory T)).2.num_in_use = N := by
      rw [h.2.1]; show 0 + values.length = N; omega
    have hev : (RingCall.run N (values.map RingCall.allocate)
        ({} : GeneratorRingMemory T)).1 = (List.range N).map RingEvent.allocated := by
      rw [h.1, hlen]
      show (List.range' 0 N).map RingEvent.allocated = _
      rw [List.range_eq_range']
    simp only [hev, RingCall.run, GeneratorRingMemory.generator____allocate, hfull,
      if_true]

/-- A ring of capacity 2: the allocation on the fresh ring returns slot 0, and
after the two allocations of 10 and 20 the allocation of 30 is refused. -/
theorem ring_capacity_witness :
    ((({} : GeneratorRingMemory Nat).generator____allocate 2 30).1 = Result.Ok 0) ∧
      (RingCall.run 2 ([10, 20].map RingCall.allocate ++ [RingCall.allocate 30])
          ({} : GeneratorRingMemory Nat)).1 =
        [RingEvent.allocated 0, RingEvent.allocated 1, RingEvent.exhausted] :=
  ⟨((ring_capacity 2 (by norm_num) ({} : GeneratorRingMemory Nat) 30
        (by decide) (by decide) [10, 20] rfl).2.2.1 (by decide)).1,
    (ring_capacity 2 (by norm_num) ({} : GeneratorRingMemory Nat) 30
        (by decide) (by decide) [10, 20] rfl).2.2.2⟩

/-- Two offsets from the same slot that differ by less than the capacity name
different slots. -/
theorem mod_add_ne (a i j N : Nat) (hij : i < j) (hN : j - i < N) :
    (a + i) % N ≠ (a + j) % N := by
  intro h
  have h1 : a + i ≡ a + j [MOD N] := h
  have h2 : i ≡ j [MOD N] := Nat.ModEq.add_left_cancel' a h1
  have h3 : N ∣ j - i := (Nat.modEq_iff_dvd' hij.le).1 h2
  have h4 := Nat.le_of_dvd (by omega) h3
  omega

/-- The fresh ring is consistent. -/
theorem GeneratorRingMemory.consistent_fresh (N : Nat) (hN : 0 < N) :
    GeneratorRingMemory.Consistent N ({} : GeneratorRingMemory T) :=
  ⟨Nat.zero_le N, hN, (Nat.mod_eq_of_lt hN).symm⟩

/-- A consistent ring has its registers in range, with the destruct index
`num_in_use` slots behind the allocation index. -/
theorem GeneratorRingMemory.Consistent.inRange {N : Nat} {r : GeneratorRingMemory T}
    (h : GeneratorRingMemory.Consistent N r) : GeneratorRingMemory.InRange N r := by
  obtain ⟨h1, h2, h3⟩ := h
  have hN : 0 < N := by omega
  refine ⟨h1, ?_, h2, ?_⟩
  · rw [h3]; exact Nat.mod_lt _ hN
  · by_cases hlt : r.next_destruct_index + r.num_in_use < N
    · rw [h3, Nat.mod_eq_of_lt hlt,
        show r.next_destruct_index + r.num_in_use + N - r.num_in_use =
          r.next_destruct_index + N by omega,
        Nat.add_mod_right, Nat.mod_eq_of_lt h2]
    · have hmod : (r.next_destruct_index + r.num_in_use) % N =
          r.next_destruct_index + r.num_in_use - N := by
        rw [Nat.mod_eq_sub_mod (by omega), Nat.mod_eq_of_lt (by omega)]
      rw [h3, hmod,
        show r.next_destruct_index + r.num_in_use - N + N - r.num_in_use =
          r.next_destruct_index by omega,
        Nat.mod_eq_of_lt h2]

/-- The slots in use of a consistent ring are pairwise different. -/
theorem GeneratorRingMemory.Consistent.nodup {N : Nat} {r : GeneratorRingMemory T}
    (h : GeneratorRingMemory.Consistent N r) :
    (GeneratorRingMemory.slotsInUse N r).Nodup := by
  obtain ⟨h1, _, _⟩ := h
  refine List.Nodup.map_on ?_ (List.nodup_range _)
  intro i hi j hj hij
  rw [List.mem_range] at hi hj
  by_contra hne
  rcases Nat.lt_or_gt_of_ne hne with hlt | hgt
  · exact mod_add_ne _ i j N hlt (by omega) hij
  · exact mod_add_ne _ j i N hgt (by omega) hij.symm

/-- One allocation on a consistent ring: either the ring is full and nothing
changes, or the slot `next_chunk_index`, which is not in use, is handed out and
joins the slots in use as the newest. -/
theorem GeneratorRingMemory.allocate_step (N : Nat) (hN64 : N < 2 ^ 64)
    (r : GeneratorRingMemory T) (h : GeneratorRingMemory.Consistent N r) (value : T) :
    (r.num_in_use = N ∧
        (r.generator____allocate N value).1 = Result.Err AllocError.NoMemory ∧
        (r.generator____allocate N value).2 = r) ∨
      (r.num_in_use < N ∧
        (r.generator____allocate N value).1 = Result.Ok r.next_chunk_index ∧
        GeneratorRingMemory.Consistent N (r.generator____allocate N value).2 ∧
        GeneratorRingMemory.slotsInUse N (r.generator____allocate N value).2 =
          GeneratorRingMemory.slotsInUse N r ++ [r.next_chunk_index] ∧
        r.next_chunk_index ∉ GeneratorRingMemory.slotsInUse N r) := by
  obtain ⟨h1, h2, h3⟩ := h
  have hN : 0 < N := by omega
  by_cases hfull : r.num_in_use = N
  · left
    simp [GeneratorRingMemory.generator____allocate, hfull]
  · right
    have hlt : r.num_in_use < N := by omega
    have hc : r.next_chunk_index < N := by rw [h3]; exact Nat.mod_lt _ hN
    have e1 := succ_mod_two_pow_64 r.num_in_use N hN64 hlt
    have e2 := succ_mod_two_pow_64 r.next_chunk_index N hN64 hc
    refine ⟨hlt, ?_, ⟨?_, ?_, ?_⟩, ?_, ?_⟩
    · simp only [GeneratorRingMemory.generator____allocate, if_neg hfull]
    · simp only [GeneratorRingMemory.generator____allocate, if_neg hfull, e1]
      omega
    · simp only [GeneratorRingMemory.generator____allocate, if_neg hfull]
      exact h2
    · simp only [GeneratorRingMemory.generator____allocate, if_neg hfull, e1, e2]
      rw [h3, Nat.mod_add_mod, Nat.add_assoc]
    · simp only [GeneratorRingMemory.generator____allocate, if_neg hfull, e1,
        GeneratorRingMemory.slotsInUse, List.range_succ, List.map_append, List.map_cons,
        List.map_nil, h3]
    · simp only [GeneratorRingMemory.slotsInUse, List.mem_map, List.mem_range, not_exists,
        not_and]
      intro i hi
      rw [h3]
      exact mod_add_ne _ i r.num_in_use N hi (by omega)

/-- One unref on a consistent ring with a slot in use: the slot destroyed is the
oldest slot in use, and it leaves the slots in use. -/
theorem GeneratorRingMemory.unref_step (N : Nat) (hN64 : N < 2 ^ 64)
    (r : GeneratorRingMemory T) (h : GeneratorRingMemory.Consistent N r)
    (hpos : 0 < r.num_in_use) :
    (r.manager____unref N).1 = r.next_destruct_index ∧
      GeneratorRingMemory.Consistent N (r.manager____unref N).2 ∧
      GeneratorRingMemory.slotsInUse N r =
        r.next_destruct_index :: GeneratorRingMemory.slotsInUse N (r.manager____unref N).2 := by
  obtain ⟨h1, h2, h3⟩ := h
  have hN : 0 < N := by omega
  have e1 : (r.num_in_use + 2 ^ 64 - 1) % 2 ^ 64 = r.num_in_use - 1 := by
    rw [show r.num_in_use + 2 ^ 64 - 1 = (r.num_in_use - 1) + 2 ^ 64 by omega,
      Nat.add_mod_right, Nat.mod_eq_of_lt (by omega)]
  have e2 := succ_mod_two_pow_64 r.next_destruct_index N hN64 h2
  have hn : (r.manager____unref N).2.num_in_use = r.num_in_use - 1 := by
    simp only [GeneratorRingMemory.manager____unref, GeneratorRingMemory.unref_capture,
      GeneratorRingMemory.unref_destroy, GeneratorRingMemory.unref_release, e1]
  have hd : (r.manager____unref N).2.next_destruct_index =
      (r.next_destruct_index + 1) % N := by
    simp only [GeneratorRingMemory.manager____unref, GeneratorRingMemory.unref_capture,
      GeneratorRingMemory.unref_destroy, GeneratorRingMemory.unref_release, e2]
  have hc : (r.manager____unref N).2.next_chunk_index = r.next_chunk_index := rfl
  refine ⟨rfl, ⟨?_, ?_, ?_⟩, ?_⟩
  · rw [hn]; omega
  · rw [hd]; exact Nat.mod_lt _ hN
  · rw [hc, hd, hn, h3, Nat.mod_add_mod,
      show r.next_destruct_index + 1 + (r.num_in_use - 1) =
        r.next_destruct_index + r.num_in_use by omega]
  · simp only [GeneratorRingMemory.slotsInUse, hn, hd]
    obtain ⟨m, hm⟩ : ∃ m, r.num_in_use = m + 1 := ⟨r.num_in_use - 1, by omega⟩
    rw [hm, List.range_succ_eq_map, List.map_cons, List.map_map, Nat.add_zero,
      Nat.mod_eq_of_lt h2, Nat.add_sub_cancel]
    refine congrArg (List.cons r.next_destruct_index) ?_
    apply List.map_congr_left
    intro i _
    show (r.next_destruct_index + (i + 1)) % N = _
    rw [Nat.mod_add_mod,
      show r.next_destruct_index + (i + 1) = r.next_destruct_index + 1 + i by omega]

/-- A sequence whose unrefs are all called while a slot is in use keeps that
property when cut short. -/
theorem RingCall.unrefsWhileInUse_take (N : Nat) (calls : List (RingCall T))
    (r : GeneratorRingMemory T) (k : Nat)
    (hv : RingCall.unrefsWhileInUse N calls r = true) :
    RingCall.unrefsWhileInUse N (calls.take k) r = true := by
  induction calls generalizing r k with
  | nil => simp [RingCall.unrefsWhileInUse]
  | cons c rest ih =>
    cases k with
    | zero => rfl
    | succ k =>
      cases c with
      | allocate value => exact ih _ k hv
      | unref =>
        simp only [RingCall.unrefsWhileInUse, Bool.and_eq_true] at hv
        simp only [List.take_succ_cons, RingCall.unrefsWhileInUse, Bool.and_eq_true]
        exact ⟨hv.1, ih _ k hv.2⟩

/-- Along a sequence of calls whose unrefs are all called while a slot is in
use, a consistent ring stays consistent, and the slots in use at the start
followed by the slots allocated are the slots destroyed followed by the slots
in use at the end. -/
theorem RingCall.run_consistent (N : Nat) (hN64 : N < 2 ^ 64) (calls : List (RingCall T))
    (r : GeneratorRingMemory T) (h : GeneratorRingMemory.Consistent N r)
    (hv : RingCall.unrefsWhileInUse N calls r = true) :
    GeneratorRingMemory.Consistent N (RingCall.run N calls r).2 ∧
      GeneratorRingMemory.slotsInUse N r ++ allocatedSlots (RingCall.run N calls r).1 =
        destroyedSlots (RingCall.run N calls r).1 ++
          GeneratorRingMemory.slotsInUse N (RingCall.run N calls r).2 := by
  induction calls generalizing r with
  | nil => exact ⟨h, by simp [RingCall.run, allocatedSlots, destroyedSlots]⟩
  | cons c rest ih =>
    cases c with
    | allocate value =>
      have hv1 : RingCall.unrefsWhileInUse N rest (r.generator____allocate N value).2 = true :=
        hv
      rw [RingCall.run_cons_allocate]
      rcases GeneratorRingMemory.allocate_step N hN64 r h value with
        ⟨_, hres, hst⟩ | ⟨_, hres, hcons, hq, _⟩
      · rw [hst] at hv1
        have hi := ih r h hv1
        simp only [hres, hst, allocatedSlots, destroyedSlots]
        exact hi
      · have hi := ih _ hcons hv1
        rw [hq] at hi
        simp only [hres, allocatedSlots, destroyedSlots]
        refine ⟨hi.1, ?_⟩
        rw [← hi.2, List.append_assoc, List.singleton_append]
    | unref =>
      simp only [RingCall.unrefsWhileInUse, Bool.and_eq_true, decide_eq_true_eq] at hv
      rw [RingCall.run_cons_unref]
      obtain ⟨hslot, hcons, hq⟩ := GeneratorRingMemory.unref_step N hN64 r h hv.1
      have hi := ih _ hcons hv.2
      simp only [hslot, allocatedSlots, destroyedSlots]
      refine ⟨hi.1, ?_⟩
      rw [hq, List.cons_append, hi.2, List.cons_append]

/-- A slot that is not in use is allocated before it is destroyed. -/
theorem RingCall.destroyed_was_allocated (N : Nat) (hN64 : N < 2 ^ 64)
    (calls : List (RingCall T)) (r : GeneratorRingMemory T)
    (h : GeneratorRingMemory.Consistent N r)
    (hv : RingCall.unrefsWhileInUse N calls r = true)
    (slot : Nat) (hfree : slot ∉ GeneratorRingMemory.slotsInUse N r)
    (before after : List RingEvent)
    (hev : (RingCall.run N calls r).1 = before ++ RingEvent.destroyed slot :: after) :
    RingEvent.allocated slot ∈ before := by
  induction calls generalizing r before with
  | nil =>
    cases before <;> simp [RingCall.run] at hev
  | cons c rest ih =>
    cases c with
    | allocate value =>
      have hv1 : RingCall.unrefsWhileInUse N rest (r.generator____allocate N value).2 = true :=
        hv
      rw [RingCall.run_cons_allocate] at hev
      rcases GeneratorRingMemory.allocate_step N hN64 r h value with
        ⟨_, hres, hst⟩ | ⟨_, hres, hcons, hq, _⟩
      · rw [hst] at hv1
        simp only [hres, hst] at hev
        cases before with
        | nil => simp at hev
        | cons e before1 =>
          simp only [List.cons_append, List.cons.injEq] at hev
          exact List.mem_cons_of_mem _ (ih r h hv1 hfree before1 hev.2)
      · simp only [hres] at hev
        cases before with
        | nil => simp at hev
        | cons e before1 =>
          simp only [List.cons_append, List.cons.injEq] at hev
          by_cases hs : slot = r.next_chunk_index
          · rw [← hev.1, hs]
            exact List.mem_cons_self _ _
          · refine List.mem_cons_of_mem _ (ih _ hcons hv1 ?_ before1 hev.2)
            rw [hq]
            simp only [List.mem_append, List.mem_singleton, not_or]
            exact ⟨hfree, hs⟩
    | unref =>
      simp only [RingCall.unrefsWhileInUse, Bool.and_eq_true, decide_eq_true_eq] at hv
      rw [RingCall.run_cons_unref] at hev
      obtain ⟨hslot, hcons, hq⟩ := GeneratorRingMemory.unref_step N hN64 r h hv.1
      simp only [hslot] at hev
      cases before with
      | nil =>
        simp only [List.nil_append, List.cons.injEq, RingEvent.destroyed.injEq] at hev
        exact absurd (by rw [hq, hev.1]; exact List.mem_cons_self _ _) hfree
      | cons e before1 =>
        simp only [List.cons_append, List.cons.injEq] at hev
        refine List.mem_cons_of_mem _ (ih _ hcons hv.2 ?_ before1 hev.2)
        intro hmem
        exact hfree (by rw [hq]; exact List.mem_cons_of_mem _ hmem)

/-- Between two destructions of the same slot the slot is allocated again. -/
theorem RingCall.destroyed_twice_reallocated (N : Nat) (hN64 : N < 2 ^ 64)
    (calls : List (RingCall T)) (r : GeneratorRingMemory T)
    (h : GeneratorRingMemory.Consistent N r)
    (hv : RingCall.unrefsWhileInUse N calls r = true)
    (slot : Nat) (before between after : List RingEvent)
    (hev : (RingCall.run N calls r).1 =
      before ++ RingEvent.destroyed slot :: (between ++ RingEvent.destroyed slot :: after)) :
    RingEvent.allocated slot ∈ between := by
  induction calls generalizing r before with
  | nil =>
    cases before <;> simp [RingCall.run] at hev
  | cons c rest ih =>
    cases c with
    | allocate value =>
      have hv1 : RingCall.unrefsWhileInUse N rest (r.generator____allocate N value).2 = true :=
        hv
      rw [RingCall.run_cons_allocate] at hev
      have hcons : GeneratorRingMemory.Consistent N (r.generator____allocate N value).2 := by
        rcases GeneratorRingMemory.allocate_step N hN64 r h value with
          ⟨_, _, hst⟩ | ⟨_, _, hcons, _, _⟩
        · rw [hst]; exact h
        · exact hcons
      cases before with
      | nil =>
        rcases GeneratorRingMemory.allocate_step N hN64 r h value with
          ⟨_, hres, _⟩ | ⟨_, hres, _, _, _⟩ <;> simp [hres] at hev
      | cons e before1 =>
        simp only [List.cons_append, List.cons.injEq] at hev
        exact ih _ hcons hv1 before1 hev.2
    | unref =>
      simp only [RingCall.unrefsWhileInUse, Bool.and_eq_true, decide_eq_true_eq] at hv
      rw [RingCall.run_cons_unref] at hev
      obtain ⟨hslot, hcons, hq⟩ := GeneratorRingMemory.unref_step N hN64 r h hv.1
      cases before with
      | nil =>
        simp only [hslot, List.nil_append, List.cons.injEq, RingEvent.destroyed.injEq] at hev
        have hnd := h.nodup
        rw [hq, hev.1, List.nodup_cons] at hnd
        exact RingCall.destroyed_was_allocated N hN64 rest _ hcons hv.2 slot hnd.1
          between after hev.2
      | cons e before1 =>
        simp only [List.cons_append, List.cons.injEq] at hev
        exact ih _ hcons hv.2 before1 hev.2

/-- The fresh ring holds no chunk. -/
theorem GeneratorRingMemory.holds_fresh (N : Nat) (hN : 0 < N) :
    GeneratorRingMemory.Holds N ({} : GeneratorRingMemory T) [] :=
  ⟨GeneratorRingMemory.consistent_fresh N hN, rfl, fun _ _ => rfl⟩

/-- A ring holds as many chunks as `num_in_use` counts. -/
theorem GeneratorRingMemory.Holds.length_eq {N : Nat} {r : GeneratorRingMemory T}
    {values : List T} (h : GeneratorRingMemory.Holds N r values) :
    values.length = r.num_in_use := by
  have h1 := congrArg List.length h.2.1
  simp only [GeneratorRingMemory.slotsInUse, List.length_map, List.length_range] at h1
  exact h1.symm

/-- The slots of `memory_chunks` that hold an object are exactly the slots in
use. -/
theorem GeneratorRingMemory.Holds.isSome_iff {N : Nat} {r : GeneratorRingMemory T}
    {values : List T} (h : GeneratorRingMemory.Holds N r values) (slot : Nat) :
    (r.memory_chunks slot).isSome = true ↔ slot ∈ GeneratorRingMemory.slotsInUse N r := by
  constructor
  · intro hs
    by_contra hmem
    rw [h.2.2 slot hmem] at hs
    exact absurd hs (by simp)
  · intro hmem
    have h1 : r.memory_chunks slot ∈
        (GeneratorRingMemory.slotsInUse N r).map r.memory_chunks :=
      List.mem_map_of_mem _ hmem
    rw [h.2.1, List.mem_map] at h1
    obtain ⟨value, _, hvalue⟩ := h1
    rw [← hvalue]
    rfl

/-- One allocation on a ring that is not full: the slot `next_chunk_index`
holds no object, the chunk is constructed in that slot and in no other, the
slot is returned, and the ring holds the new chunk as its newest. -/
theorem GeneratorRingMemory.allocate_holds (N : Nat) (hN64 : N < 2 ^ 64)
    (r : GeneratorRingMemory T) (values : List T)
    (h : GeneratorRingMemory.Holds N r values) (hfree : r.num_in_use ≠ N) (value : T) :
    (r.generator____allocate N value).1 = Result.Ok r.next_chunk_index ∧
      r.memory_chunks r.next_chunk_index = none ∧
      (r.generator____allocate N value).2.memory_chunks =
        Function.update r.memory_chunks r.next_chunk_index
          (some { next := none, data := value }) ∧
      GeneratorRingMemory.Holds N (r.generator____allocate N value).2 (values ++ [value]) := by
  obtain ⟨hc, hmap, hempty⟩ := h
  rcases GeneratorRingMemory.allocate_step N hN64 r hc value with
    ⟨hfull, _, _⟩ | ⟨_, hres, hcons, hq, hnot⟩
  · exact absurd hfull hfree
  · have hmem : (r.generator____allocate N value).2.memory_chunks =
        Function.update r.memory_chunks r.next_chunk_index
          (some { next := none, data := value }) := by
      simp only [GeneratorRingMemory.generator____allocate, if_neg hfree]
    refine ⟨hres, hempty _ hnot, hmem, hcons, ?_, ?_⟩
    · rw [hq, hmem, List.map_append, List.map_append, ← hmap]
      refine congrArg₂ (· ++ ·) ?_ ?_
      · apply List.map_congr_left
        intro slot hslot
        have hne : slot ≠ r.next_chunk_index := fun e => hnot (by rw [← e]; exact hslot)
        exact Function.update_noteq hne _ _
      · simp only [List.map_cons, List.map_nil, Function.update_same]
    · intro slot hslot
      rw [hq, List.mem_append, List.mem_singleton, not_or] at hslot
      rw [hmem, Function.update_noteq hslot.2]
      exact hempty slot hslot.1

/-- One unref on a ring that holds a chunk: the slot `next_destruct_index`
holds the oldest chunk, the destructor empties that slot and no other, and the
ring holds the remaining chunks. -/
theorem GeneratorRingMemory.unref_holds (N : Nat) (hN64 : N < 2 ^ 64)
    (r : GeneratorRingMemory T) (value : T) (values : List T)
    (h : GeneratorRingMemory.Holds N r (value :: values)) :
    (r.manager____unref N).1 = r.next_destruct_index ∧
      r.memory_chunks r.next_destruct_index = some { next := none, data := value } ∧
      (r.manager____unref N).2.memory_chunks =
        Function.update r.memory_chunks r.next_destruct_index none ∧
      GeneratorRingMemory.Holds N (r.manager____unref N).2 values := by
  have hlen := h.length_eq
  obtain ⟨hc, hmap, hempty⟩ := h
  have hpos : 0 < r.num_in_use := by rw [← hlen]; exact Nat.succ_pos _
  obtain ⟨hslot, hcons, hq⟩ := GeneratorRingMemory.unref_step N hN64 r hc hpos
  have hnd := hc.nodup
  rw [hq, List.nodup_cons] at hnd
  rw [hq, List.map_cons, List.map_cons, List.cons.injEq] at hmap
  have hmem : (r.manager____unref N).2.memory_chunks =
      Function.update r.memory_chunks r.next_destruct_index none := by
    simp only [GeneratorRingMemory.manager____unref, GeneratorRingMemory.unref_capture,
      GeneratorRingMemory.unref_destroy, GeneratorRingMemory.unref_release]
  refine ⟨hslot, hmap.1, hmem, hcons, ?_, ?_⟩
  · rw [hmem, ← hmap.2]
    apply List.map_congr_left
    intro slot hmemb
    have hne : slot ≠ r.next_destruct_index := fun e => hnd.1 (by rw [← e]; exact hmemb)
    exact Function.update_noteq hne _ _
  · intro slot hnot
    rw [hmem]
    by_cases hs : slot = r.next_destruct_index
    · rw [hs, Function.update_same]
    · rw [Function.update_noteq hs]
      apply hempty
      rw [hq, List.mem_cons, not_or]
      exact ⟨hs, hnot⟩

/-- Whether every unref of a concatenation is called while a slot is in use is
decided sequence by sequence. -/
theorem RingCall.unrefsWhileInUse_append (N : Nat) (a b : List (RingCall T))
    (r : GeneratorRingMemory T) :
    RingCall.unrefsWhileInUse N (a ++ b) r =
      (RingCall.unrefsWhileInUse N a r &&
        RingCall.unrefsWhileInUse N b (RingCall.run N a r).2) := by
  induction a generalizing r with
  | nil => rfl
  | cons c rest ih =>
    cases c with
    | allocate value => exact ih _
    | unref =>
      show (decide (0 < r.num_in_use) &&
          RingCall.unrefsWhileInUse N (rest ++ b) (r.manager____unref N).2) =
        ((decide (0 < r.num_in_use) &&
            RingCall.unrefsWhileInUse N rest (r.manager____unref N).2) &&
          RingCall.unrefsWhileInUse N b (RingCall.run N rest (r.manager____unref N).2).2)
      rw [ih, Bool.and_assoc]

/-- Along a sequence of calls whose unrefs are all called while a slot is in
use, the payloads held at the start followed by the payloads allocated are the
payloads of the chunks destroyed, one per unref, followed by the payloads the
ring holds at the end. -/
theorem RingCall.run_holds (N : Nat) (hN64 : N < 2 ^ 64) (calls : List (RingCall T))
    (r : GeneratorRingMemory T) (values : List T)
    (h : GeneratorRingMemory.Holds N r values)
    (hv : RingCall.unrefsWhileInUse N calls r = true) :
    ∃ gone kept : List T,
      gone.length = (destroyedSlots (RingCall.run N calls r).1).length ∧
        values ++ RingCall.allocatedValues N calls r = gone ++ kept ∧
        GeneratorRingMemory.Holds N (RingCall.run N calls r).2 kept := by
  induction calls generalizing r values with
  | nil => exact ⟨[], values, rfl, by simp [RingCall.allocatedValues], h⟩
  | cons c rest ih =>
    cases c with
    | allocate value =>
      have hv1 : RingCall.unrefsWhileInUse N rest (r.generator____allocate N value).2 = true :=
        hv
      rw [RingCall.run_cons_allocate]
      by_cases hfull : r.num_in_use = N
      · have hstep : r.generator____allocate N value = (Result.Err AllocError.NoMemory, r) := by
          simp only [GeneratorRingMemory.generator____allocate, if_pos hfull]
        rw [hstep] at hv1
        obtain ⟨gone, kept, h1, h2, h3⟩ := ih r values h hv1
        refine ⟨gone, kept, ?_, ?_, ?_⟩
        · simp only [hstep, destroyedSlots]
          exact h1
        · simp only [RingCall.allocatedValues, hstep]
          exact h2
        · simp only [hstep]
          exact h3
      · obtain ⟨hres, _, _, hholds⟩ :=
          GeneratorRingMemory.allocate_holds N hN64 r values h hfull value
        obtain ⟨gone, kept, h1, h2, h3⟩ := ih _ _ hholds hv1
        refine ⟨gone, kept, ?_, ?_, h3⟩
        · simp only [hres, destroyedSlots]
          exact h1
        · simp only [RingCall.allocatedValues, hres]
          rw [← h2, List.append_assoc, List.singleton_append]
    | unref =>
      simp only [RingCall.unrefsWhileInUse, Bool.and_eq_true, decide_eq_true_eq] at hv
      rw [RingCall.run_cons_unref]
      cases values with
      | nil =>
        have hlen := h.length_eq
        rw [List.length_nil] at hlen
        omega
      | cons oldest others =>
        obtain ⟨_, _, _, hholds⟩ := GeneratorRingMemory.unref_holds N hN64 r oldest others h
        obtain ⟨gone, kept, h1, h2, h3⟩ := ih _ _ hholds hv.2
        refine ⟨oldest :: gone, kept, ?_, ?_, h3⟩
        · simp only [destroyedSlots, List.length_cons, h1]
        · simp only [RingCall.allocatedValues]
          rw [List.cons_append, List.cons_append, h2]

/-- C6: on a fresh ring of capacity `N`, along every sequence of
`generator____allocate` and `manager____unref` calls in which unref is only
called while `num_in_use > 0`, after every call `num_in_use <= N`,
`next_chunk_index < N`, `next_destruct_index < N` and
`next_destruct_index == (next_chunk_index + N - num_in_use) mod N`; the slots
handed out are, in order, the slots destroyed followed by the slots still in
use, so the k-th unref destroys the slot of the k-th successful allocation;
and between two destructions of one slot that slot is allocated again. In
`memory_chunks`: after every call the slots that hold an object are exactly the
slots in use; the unref that follows `k` earlier unrefs finds in the slot at
`next_destruct_index` the chunk constructed by the `k`-th successful
allocation (numbered from 0), that slot is the one this allocation returned,
the destructor empties that slot and leaves every other slot as it was, and the
trace records that slot; an allocation on a ring that is not full finds the
slot at `next_chunk_index` empty, constructs the chunk in that slot and in no
other, and returns it. -/
theorem ring_invariant (N : Nat) (hN : 0 < N) (hN64 : N < 2 ^ 64)
    (calls : List (RingCall T))
    (hv : RingCall.unrefsWhileInUse N calls ({} : GeneratorRingMemory T) = true) :
    (∀ k, GeneratorRingMemory.InRange N
        (RingCall.run N (calls.take k) ({} : GeneratorRingMemory T)).2) ∧
      allocatedSlots (RingCall.run N calls ({} : GeneratorRingMemory T)).1 =
        destroyedSlots (RingCall.run N calls ({} : GeneratorRingMemory T)).1 ++
          GeneratorRingMemory.slotsInUse N
            (RingCall.run N calls ({} : GeneratorRingMemory T)).2 ∧
      (∀ (k slot : Nat),
        (destroyedSlots (RingCall.run N calls ({} : GeneratorRingMemory T)).1)[k]? =
            some slot →
          (allocatedSlots (RingCall.run N calls ({} : GeneratorRingMemory T)).1)[k]? =
            some slot) ∧
      (∀ slot before between after,
        (RingCall.run N calls ({} : GeneratorRingMemory T)).1 =
            before ++ RingEvent.destroyed slot ::
              (between ++ RingEvent.destroyed slot :: after) →
          RingEvent.allocated slot ∈ between) ∧
      (∀ (k slot : Nat),
        ((RingCall.run N (calls.take k)
            ({} : GeneratorRingMemory T)).2.memory_chunks slot).isSome = true ↔
          slot ∈ GeneratorRingMemory.slotsInUse N
            (RingCall.run N (calls.take k) ({} : GeneratorRingMemory T)).2) ∧
      (∀ before after, calls = before ++ RingCall.unref :: after →
        ∃ value,
          (RingCall.allocatedValues N before ({} : GeneratorRingMemory T))[
              (destroyedSlots
                (RingCall.run N before ({} : GeneratorRingMemory T)).1).length]? =
            some value ∧
          (allocatedSlots (RingCall.run N before ({} : GeneratorRingMemory T)).1)[
              (destroyedSlots
                (RingCall.run N before ({} : GeneratorRingMemory T)).1).length]? =
            some (RingCall.run N before
              ({} : GeneratorRingMemory T)).2.next_destruct_index ∧
          (RingCall.run N before ({} : GeneratorRingMemory T)).2.memory_chunks
              (RingCall.run N before ({} : GeneratorRingMemory T)).2.next_destruct_index =
            some { next := none, data := value } ∧
          ((RingCall.run N before
              ({} : GeneratorRingMemory T)).2.manager____unref N).2.memory_chunks =
            Function.update
              (RingCall.run N before ({} : GeneratorRingMemory T)).2.memory_chunks
              (RingCall.run N before ({} : GeneratorRingMemory T)).2.next_destruct_index
              none ∧
          (RingCall.run N calls ({} : GeneratorRingMemory T)).1 =
            (RingCall.run N before ({} : GeneratorRingMemory T)).1 ++
              RingEvent.destroyed
                  (RingCall.run N before
                    ({} : GeneratorRingMemory T)).2.next_destruct_index ::
                (RingCall.run N after
                  ((RingCall.run N before
                    ({} : GeneratorRingMemory T)).2.manager____unref N).2).1) ∧
      (∀ before value after, calls = before ++ RingCall.allocate value :: after →
        (RingCall.run N before ({} : GeneratorRingMemory T)).2.num_in_use ≠ N →
          (RingCall.run N before ({} : GeneratorRingMemory T)).2.memory_chunks
              (RingCall.run N before ({} : GeneratorRingMemory T)).2.next_chunk_index =
            none ∧
          ((RingCall.run N before
              ({} : GeneratorRingMemory T)).2.generator____allocate N value).1 =
            Result.Ok
              (RingCall.run N before ({} : GeneratorRingMemory T)).2.next_chunk_index ∧
          ((RingCall.run N before
              ({} : GeneratorRingMemory T)).2.generator____allocate N value).2.memory_chunks =
            Function.update
              (RingCall.run N before ({} : GeneratorRingMemory T)).2.memory_chunks
              (RingCall.run N before ({} : GeneratorRingMemory T)).2.next_chunk_index
              (some { next := none, data := value }) ∧
          (RingCall.run N calls ({} : GeneratorRingMemory T)).1 =
            (RingCall.run N before ({} : GeneratorRingMemory T)).1 ++
              RingEvent.allocated
                  (RingCall.run N before
                    ({} : GeneratorRingMemory T)).2.next_chunk_index ::
                (RingCall.run N after
                  ((RingCall.run N before
                    ({} : GeneratorRingMemory T)).2.generator____allocate N value).2).1) := by
  have hfresh := GeneratorRingMemory.consistent_fresh (T := T) N hN
  have hfreshHolds := GeneratorRingMemory.holds_fresh (T := T) N hN
  have hrun := RingCall.run_consistent N hN64 calls _ hfresh hv
  have hsplit : allocatedSlots (RingCall.run N calls ({} : GeneratorRingMemory T)).1 =
      destroyedSlots (RingCall.run N calls ({} : GeneratorRingMemory T)).1 ++
        GeneratorRingMemory.slotsInUse N
          (RingCall.run N calls ({} : GeneratorRingMemory T)).2 := by
    have h2 := hrun.2
    simpa [GeneratorRingMemory.slotsInUse] using h2
  refine ⟨?_, hsplit, ?_, ?_, ?_, ?_, ?_⟩
  · intro k
    exact (RingCall.run_consistent N hN64 (calls.take k) _ hfresh
      (RingCall.unrefsWhileInUse_take N calls _ k hv)).1.inRange
  · intro k slot hk
    rw [hsplit, List.getElem?_append_left (List.getElem?_eq_some_iff.1 hk).1]
    exact hk
  · intro slot before between after hev
    exact RingCall.destroyed_twice_reallocated N hN64 calls _ hfresh hv slot before between
      after hev
  · intro k slot
    obtain ⟨_, kept, _, _, hholds⟩ := RingCall.run_holds N hN64 (calls.take k) _ []
      hfreshHolds (RingCall.unrefsWhileInUse_take N calls _ k hv)
    exact hholds.isSome_iff slot
  · intro before after hcalls
    subst hcalls
    rw [RingCall.unrefsWhileInUse_append, Bool.and_eq_true] at hv
    obtain ⟨hvb, hva⟩ := hv
    simp only [RingCall.unrefsWhileInUse, Bool.and_eq_true, decide_eq_true_eq] at hva
    obtain ⟨gone, kept, h1, h2, hholds⟩ :=
      RingCall.run_holds N hN64 before _ [] hfreshHolds hvb
    have hb := (RingCall.run_consistent N hN64 before _ hfresh hvb).2
    cases kept with
    | nil =>
      have hlen := hholds.length_eq
      rw [List.length_nil] at hlen
      omega
    | cons value kept1 =>
      obtain ⟨hslot, hold, hmem, _⟩ :=
        GeneratorRingMemory.unref_holds N hN64 _ value kept1 hholds
      obtain ⟨_, _, hq⟩ := GeneratorRingMemory.unref_step N hN64 _ hholds.1 hva.1
      refine ⟨value, ?_, ?_, hold, hmem, ?_⟩
      · rw [List.nil_append] at h2
        rw [h2, ← h1, List.getElem?_append_right (Nat.le_refl _), Nat.sub_self,
          List.getElem?_cons_zero]
      · have hb1 : allocatedSlots (RingCall.run N before ({} : GeneratorRingMemory T)).1 =
            destroyedSlots (RingCall.run N before ({} : GeneratorRingMemory T)).1 ++
              GeneratorRingMemory.slotsInUse N
                (RingCall.run N before ({} : GeneratorRingMemory T)).2 := by
          simpa [GeneratorRingMemory.slotsInUse] using hb
        rw [hb1, hq, List.getElem?_append_right (Nat.le_refl _), Nat.sub_self,
          List.getElem?_cons_zero]
      · rw [RingCall.run_ring_append, RingCall.run_cons_unref, hslot]
  · intro before value after hcalls hfree
    subst hcalls
    rw [RingCall.unrefsWhileInUse_append, Bool.and_eq_true] at hv
    obtain ⟨_, kept, _, _, hholds⟩ :=
      RingCall.run_holds N hN64 before _ [] hfreshHolds hv.1
    obtain ⟨hres, hempty, hmem, _⟩ :=
      GeneratorRingMemory.allocate_holds N hN64 _ kept hholds hfree value
    refine ⟨hempty, hres, hmem, ?_⟩
    rw [RingCall.run_ring_append, RingCall.run_cons_allocate, hres]

/-- A ring of capacity 2 on which 1 and 2 are allocated, the oldest is
reclaimed, 3 is allocated into the reclaimed slot, and two more are
reclaimed: the slots destroyed are the slots allocated, in order, and the
first unref finds the chunk of payload 1 in slot 0 and empties that slot. -/
theorem ring_invariant_witness :
    allocatedSlots (RingCall.run 2
        [RingCall.allocate 1, RingCall.allocate 2, RingCall.unref, RingCall.allocate 3,
          RingCall.unref, RingCall.unref] ({} : GeneratorRingMemory Nat)).1 =
      destroyedSlots (RingCall.run 2
        [RingCall.allocate 1, RingCall.allocate 2, RingCall.unref, RingCall.allocate 3,
          RingCall.unref, RingCall.unref] ({} : GeneratorRingMemory Nat)).1 ++
        GeneratorRingMemory.slotsInUse 2 (RingCall.run 2
          [RingCall.allocate 1, RingCall.allocate 2, RingCall.unref, RingCall.allocate 3,
            RingCall.unref, RingCall.unref] ({} : GeneratorRingMemory Nat)).2 ∧
      ∃ value,
        (RingCall.run 2 [RingCall.allocate 1, RingCall.allocate 2]
            ({} : GeneratorRingMemory Nat)).2.memory_chunks 0 =
          some { next := none, data := value } ∧
        ((RingCall.run 2 [RingCall.allocate 1, RingCall.allocate 2]
            ({} : GeneratorRingMemory Nat)).2.manager____unref 2).2.memory_chunks =
          Function.update
            (RingCall.run 2 [RingCall.allocate 1, RingCall.allocate 2]
              ({} : GeneratorRingMemory Nat)).2.memory_chunks 0 none :=
  ⟨(ring_invariant 2 (by decide) (by norm_num)
      [RingCall.allocate 1, RingCall.allocate 2, RingCall.unref, RingCall.allocate 3,
        RingCall.unref, RingCall.unref] (by decide)).2.1,
    ((ring_invariant 2 (by decide) (by norm_num)
      [RingCall.allocate 1, RingCall.allocate 2, RingCall.unref, RingCall.allocate 3,
        RingCall.unref, RingCall.unref] (by decide)).2.2.2.2.2.1
      [RingCall.allocate 1, RingCall.allocate 2]
      [RingCall.allocate 3, RingCall.unref, RingCall.unref] rfl).elim
      (fun value h => ⟨value, h.2.2.1, h.2.2.2.1⟩)⟩

end RingProperties

/-! ## Properties of the stream state -/

section StreamProperties

variable {T : Type}

/-- A chain of links depends only on the `next` members of its own chunks. -/
theorem StreamSystem.Linked.congr {c1 c2 : Nat → StreamChunk T} {queue : List Nat}
    {p : Option Nat} (h : StreamSystem.Linked c1 p queue)
    (hsame : ∀ a ∈ queue, (c2 a).next = (c1 a).next) :
    StreamSystem.Linked c2 p queue := by
  induction queue generalizing p with
  | nil => exact h
  | cons a rest ih =>
    refine ⟨h.1, ?_⟩
    rw [hsame a (List.mem_cons_self a rest)]
    exact ih h.2 (fun b hb => hsame b (List.mem_cons_of_mem a hb))

/-- Linking a new chunk behind the last chunk of a non-empty chain extends the
chain by that chunk. -/
theorem StreamSystem.Linked.snoc {chunks : Nat → StreamChunk T} {queue : List Nat}
    {p : Option Nat} (h : StreamSystem.Linked chunks p queue) (hnd : queue.Nodup)
    (last a : Nat) (hlast : queue.getLast? = some last) (hnew : a ∉ queue)
    (hnext : (chunks a).next = none) :
    StreamSystem.Linked
      (Function.update chunks last { chunks last with next := some a }) p (queue ++ [a]) := by
  induction queue generalizing p with
  | nil => simp at hlast
  | cons x rest ih =>
    have hax : a ≠ x := fun e => hnew (e ▸ List.mem_cons_self x rest)
    have har : a ∉ rest := fun e => hnew (List.mem_cons_of_mem x e)
    cases rest with
    | nil =>
      simp only [List.getLast?_singleton, Option.some.injEq] at hlast
      subst hlast
      refine ⟨h.1, ?_, ?_⟩
      · simp [Function.update_same]
      · simp [Function.update_noteq hax, hnext, StreamSystem.Linked]
    | cons y ys =>
      have hlast1 : (y :: ys).getLast? = some last := by
        rw [List.getLast?_cons_cons] at hlast
        exact hlast
      have hmem : last ∈ y :: ys := List.mem_of_getLast?_eq_some hlast1
      have hx : x ≠ last := fun e => (List.nodup_cons.1 hnd).1 (e ▸ hmem)
      refine ⟨h.1, ?_⟩
      rw [Function.update_noteq hx]
      exact ih h.2 (List.nodup_cons.1 hnd).2 hlast1 har

/-- A chain from a null pointer is empty, and a chain from a chunk starts with it. -/
theorem StreamSystem.Linked.pop_it_eq {chunks : Nat → StreamChunk T} {queue : List Nat}
    {p : Option Nat} (h : StreamSystem.Linked chunks p queue) : p = queue.head? := by
  cases queue with
  | nil => exact h
  | cons a rest => exact h.1

/-- A yield without the close flag on an open stream that holds `queue`: the
chunk joins the queue at the back, nothing is unreffed, and only the `next`
member of the former last chunk is written. -/
theorem StreamSystem.yield_step (payload : Nat → T) (w : StreamSystem T)
    (queue : List Nat) (a : Nat) (hrep : StreamSystem.Represents payload w queue)
    (hnext : (w.chunks a).next = none) (hdata : (w.chunks a).data = payload a)
    (hnew : a ∉ queue) :
    StreamSystem.Represents payload (w.generator____yield a false) (queue ++ [a]) ∧
      (w.generator____yield a false).unrefs = w.unrefs ∧
      (∀ b, b ∉ queue → (w.generator____yield a false).chunks b = w.chunks b) := by
  obtain ⟨hclosed, hlinked, hlast, hnd, hpay⟩ := hrep
  cases queue with
  | nil =>
    have hpop : w.state.pop_it = none := hlinked
    have hchunks : (w.generator____yield a false).chunks = w.chunks := by
      cases hyl : w.state.yield_last <;>
        simp [StreamSystem.generator____yield, hclosed, hpop, hyl]
    have hstate : (w.generator____yield a false).state =
        { closed := false, pop_it := some a, yield_last := some a } := by
      simp [StreamSystem.generator____yield, hclosed, hpop]
    refine ⟨⟨?_, ?_, ?_, ?_, ?_⟩, ?_, ?_⟩
    · rw [hstate]
    · rw [hstate, hchunks]
      exact ⟨rfl, hnext⟩
    · intro l hl
      rw [hstate]
      simpa using hl
    · simp
    · intro b hb
      rw [hchunks]
      simp only [List.nil_append, List.mem_singleton] at hb
      rw [hb]
      exact hdata
    · simp [StreamSystem.generator____yield, hclosed]
    · intro b _
      rw [hchunks]
  | cons x rest =>
    have hpop : w.state.pop_it = some x := hlinked.1
    obtain ⟨last, hl⟩ : ∃ last, (x :: rest).getLast? = some last :=
      ⟨(x :: rest).getLast (List.cons_ne_nil x rest), List.getLast?_eq_getLast _ _⟩
    have hyl : w.state.yield_last = some last := hlast last hl
    have hmem : last ∈ x :: rest := List.mem_of_getLast?_eq_some hl
    have hchunks : (w.generator____yield a false).chunks =
        Function.update w.chunks last { w.chunks last with next := some a } := by
      simp [StreamSystem.generator____yield, hclosed, hpop, hyl]
    have hstate : (w.generator____yield a false).state =
        { closed := false, pop_it := some x, yield_last := some a } := by
      simp [StreamSystem.generator____yield, hclosed, hpop]
    refine ⟨⟨?_, ?_, ?_, ?_, ?_⟩, ?_, ?_⟩
    · rw [hstate]
    · rw [hstate, hchunks]
      have h := StreamSystem.Linked.snoc hlinked hnd last a hl hnew hnext
      rw [hpop] at h
      exact h
    · intro l hl1
      rw [hstate]
      rw [List.getLast?_append_of_ne_nil _ (List.cons_ne_nil a []),
        List.getLast?_singleton] at hl1
      exact hl1
    · rw [List.nodup_append]
      refine ⟨hnd, List.nodup_singleton a, ?_⟩
      intro b hb hb1
      rw [List.mem_singleton] at hb1
      exact hnew (hb1 ▸ hb)
    · intro b hb
      rw [hchunks]
      rw [List.mem_append, List.mem_singleton] at hb
      by_cases hbl : b = last
      · rw [hbl, Function.update_same]
        exact hpay last hmem
      · rw [Function.update_noteq hbl]
        rcases hb with hb | hb
        · exact hpay b hb
        · rw [hb]; exact hdata
    · simp [StreamSystem.generator____yield, hclosed]
    · intro b hb
      rw [hchunks, Function.update_noteq]
      intro e
      exact hb (e ▸ hmem)

/-- A pop on an open stream that holds no chunk reports `Pending` and changes
nothing. -/
theorem StreamSystem.pop_step_nil (payload : Nat → T) (moved : T → T) (w : StreamSystem T)
    (hrep : StreamSystem.Represents payload w []) :
    w.stream____pop moved = (Result.Err StreamError.Pending, w) := by
  obtain ⟨hclosed, hlinked, _, _, _⟩ := hrep
  have hpop : w.state.pop_it = none := hlinked
  simp [StreamSystem.stream____pop, hpop, hclosed]

/-- A pop on an open stream that holds `a :: queue` returns the payload of `a`,
unrefs `a`, and leaves the stream holding `queue`; only the chunk `a` is
written. -/
theorem StreamSystem.pop_step_cons (payload : Nat → T) (moved : T → T) (w : StreamSystem T)
    (a : Nat) (queue : List Nat) (hrep : StreamSystem.Represents payload w (a :: queue)) :
    (w.stream____pop moved).1 = Result.Ok (payload a) ∧
      StreamSystem.Represents payload (w.stream____pop moved).2 queue ∧
      (w.stream____pop moved).2.unrefs = w.unrefs ++ [a] ∧
      (∀ b, b ≠ a → (w.stream____pop moved).2.chunks b = w.chunks b) := by
  obtain ⟨hclosed, hlinked, hlast, hnd, hpay⟩ := hrep
  have hpop : w.state.pop_it = some a := hlinked.1
  have hna : a ∉ queue := (List.nodup_cons.1 hnd).1
  have hres : w.stream____pop moved =
      (Result.Ok (w.chunks a).data,
        { state := { w.state with pop_it := (w.chunks a).next }
          chunks := Function.update w.chunks a
            { w.chunks a with data := moved (w.chunks a).data }
          unrefs := w.unrefs ++ [a] }) := by
    simp [StreamSystem.stream____pop, hpop]
  rw [hres]
  refine ⟨?_, ⟨hclosed, ?_, ?_, (List.nodup_cons.1 hnd).2, ?_⟩, rfl, ?_⟩
  · rw [hpay a (List.mem_cons_self a queue)]
  · refine StreamSystem.Linked.congr hlinked.2 ?_
    intro b hb
    have hba : b ≠ a := fun e => hna (e ▸ hb)
    simp only [Function.update_noteq hba]
  · intro l hl
    apply hlast l
    cases queue with
    | nil => simp at hl
    | cons y ys => rw [List.getLast?_cons_cons]; exact hl
  · intro b hb
    have hba : b ≠ a := fun e => hna (e ▸ hb)
    simp only [Function.update_noteq hba]
    exact hpay b (List.mem_cons_of_mem a hb)
  · intro b hba
    simp only [Function.update_noteq hba]

/-- The handles yielded by a concatenation of call sequences. -/
theorem StreamCall.yielded_append (a b : List StreamCall) :
    StreamCall.yielded (a ++ b) = StreamCall.yielded a ++ StreamCall.yielded b := by
  induction a with
  | nil => rfl
  | cons c rest ih =>
    cases c with
    | yield chunk_handle should_close => exact congrArg (List.cons chunk_handle) ih
    | close => exact ih
    | pop => exact ih

/-- A fresh stream over any chunk memory holds the empty queue. -/
theorem StreamSystem.represents_fresh (payload : Nat → T) (chunks : Nat → StreamChunk T) :
    StreamSystem.Represents payload ({ chunks := chunks } : StreamSystem T) [] := by
  refine ⟨rfl, rfl, ?_, List.nodup_nil, ?_⟩
  · intro l hl
    simp at hl
  · intro a ha
    simp at ha

/-- Yields without the close flag and pops on an open stream that holds
`queue`, the yielded chunks being new, pairwise different and unlinked: the
chunks popped, in order, followed by the chunks the stream holds at the end
are the queue followed by the chunks yielded; the pops unref exactly the
chunks they pop; and the pop results are those of the FIFO queue. -/
theorem StreamCall.run_represents (payload : Nat → T) (moved : T → T)
    (calls : List StreamCall) (w : StreamSystem T) (queue : List Nat)
    (hrep : StreamSystem.Represents payload w queue)
    (hopen : ∀ c ∈ calls, StreamCall.isOpenYieldOrPop c = true)
    (hnd : (StreamCall.yielded calls).Nodup)
    (hfresh : ∀ a ∈ StreamCall.yielded calls,
      (w.chunks a).next = none ∧ (w.chunks a).data = payload a ∧ a ∉ queue) :
    ∃ popped rest,
      StreamSystem.Represents payload (StreamCall.run moved calls w).2 rest ∧
        (StreamCall.run moved calls w).2.unrefs = w.unrefs ++ popped ∧
        queue ++ StreamCall.yielded calls = popped ++ rest ∧
        poppedValues (StreamCall.run moved calls w).1 = popped.map payload ∧
        (StreamCall.run moved calls w).1 = fifoRun payload calls (queue.map payload) := by
  induction calls generalizing w queue with
  | nil =>
    exact ⟨[], queue, hrep, by simp [StreamCall.run], by simp [StreamCall.yielded],
      by simp [StreamCall.run, poppedValues], by simp [StreamCall.run, fifoRun]⟩
  | cons c tl ih =>
    have hopen1 : ∀ d ∈ tl, StreamCall.isOpenYieldOrPop d = true :=
      fun d hd => hopen d (List.mem_cons_of_mem c hd)
    cases c with
    | yield a should_close =>
      have hflag : should_close = false := by
        have h := hopen _ (List.mem_cons_self _ tl)
        cases should_close
        · rfl
        · simp [StreamCall.isOpenYieldOrPop] at h
      subst hflag
      have hy : StreamCall.yielded (StreamCall.yield a false :: tl) =
          a :: StreamCall.yielded tl := rfl
      rw [hy] at hnd hfresh
      obtain ⟨hnext, hdata, hnew⟩ := hfresh a (List.mem_cons_self a _)
      obtain ⟨hrep1, hunrefs, hsame⟩ :=
        StreamSystem.yield_step payload w queue a hrep hnext hdata hnew
      have hfresh1 : ∀ b ∈ StreamCall.yielded tl,
          ((w.generator____yield a false).chunks b).next = none ∧
            ((w.generator____yield a false).chunks b).data = payload b ∧
            b ∉ queue ++ [a] := by
        intro b hb
        obtain ⟨h1, h2, h3⟩ := hfresh b (List.mem_cons_of_mem a hb)
        rw [hsame b h3]
        refine ⟨h1, h2, ?_⟩
        rw [List.mem_append, List.mem_singleton, not_or]
        exact ⟨h3, fun e => (List.nodup_cons.1 hnd).1 (e ▸ hb)⟩
      obtain ⟨popped, rest, h1, h2, h3, h4, h5⟩ :=
        ih (w.generator____yield a false) (queue ++ [a]) hrep1 hopen1
          (List.nodup_cons.1 hnd).2 hfresh1
      refine ⟨popped, rest, h1, ?_, ?_, h4, ?_⟩
      · rw [← hunrefs]; exact h2
      · rw [hy, ← h3, List.append_assoc, List.singleton_append]
      · rw [List.map_append, List.map_singleton] at h5
        exact h5
    | close =>
      have h := hopen _ (List.mem_cons_self _ tl)
      simp [StreamCall.isOpenYieldOrPop] at h
    | pop =>
      have hy : StreamCall.yielded (StreamCall.pop :: tl) = StreamCall.yielded tl := rfl
      rw [hy] at hnd hfresh
      have hrun : StreamCall.run moved (StreamCall.pop :: tl) w =
          ((w.stream____pop moved).1 ::
            (StreamCall.run moved tl (w.stream____pop moved).2).1,
            (StreamCall.run moved tl (w.stream____pop moved).2).2) := rfl
      cases queue with
      | nil =>
        have hp := StreamSystem.pop_step_nil payload moved w hrep
        obtain ⟨popped, rest, h1, h2, h3, h4, h5⟩ := ih w [] hrep hopen1 hnd hfresh
        rw [hrun, hp]
        refine ⟨popped, rest, h1, h2, ?_, ?_, ?_⟩
        · rw [hy]; exact h3
        · simp only [poppedValues]; exact h4
        · simp only [List.map_nil, fifoRun, h5]
      | cons x q =>
        obtain ⟨hres, hrep1, hunrefs, hsame⟩ :=
          StreamSystem.pop_step_cons payload moved w x q hrep
        have hfresh1 : ∀ b ∈ StreamCall.yielded tl,
            (((w.stream____pop moved).2).chunks b).next = none ∧
              (((w.stream____pop moved).2).chunks b).data = payload b ∧ b ∉ q := by
          intro b hb
          obtain ⟨h1, h2, h3⟩ := hfresh b hb
          have hbx : b ≠ x := fun e => h3 (e ▸ List.mem_cons_self x q)
          rw [hsame b hbx]
          exact ⟨h1, h2, fun e => h3 (List.mem_cons_of_mem x e)⟩
        obtain ⟨popped, rest, h1, h2, h3, h4, h5⟩ :=
          ih (w.stream____pop moved).2 q hrep1 hopen1 hnd hfresh1
        rw [hrun]
        refine ⟨x :: popped, rest, h1, ?_, ?_, ?_, ?_⟩
        · rw [h2, hunrefs, List.append_assoc, List.singleton_append]
        · rw [hy, List.cons_append, List.cons_append, h3]
        · simp only [hres, poppedValues, List.map_cons, h4]
        · simp only [hres, List.map_cons, fifoRun, h5]

/-- C4: on an initially empty, open stream, for every finite interleaving of
`generator____yield(chunk, false)` calls on pairwise different, unlinked
chunks and `stream____pop()` calls, the pop results are those of a FIFO queue
of the payloads; the payloads returned by the successful pops are, in order,
the payloads of the first yielded chunks (the i-th successful pop returns the
payload of the i-th yielded chunk); the chunks released by the pops are those
same first yielded chunks, each once; and a pop returns `Err(Pending)` exactly
when the number of earlier successful pops equals the number of earlier
yields. -/
theorem stream_refines_fifo (moved : T → T) (chunks : Nat → StreamChunk T)
    (calls : List StreamCall)
    (hopen : ∀ c ∈ calls, StreamCall.isOpenYieldOrPop c = true)
    (hnd : (StreamCall.yielded calls).Nodup)
    (hnull : ∀ a ∈ StreamCall.yielded calls, (chunks a).next = none) :
    (StreamCall.run moved calls ({ chunks := chunks } : StreamSystem T)).1 =
        fifoRun (fun a => (chunks a).data) calls [] ∧
      poppedValues (StreamCall.run moved calls ({ chunks := chunks } : StreamSystem T)).1 =
        ((StreamCall.yielded calls).take
          (poppedValues
            (StreamCall.run moved calls ({ chunks := chunks } : StreamSystem T)).1).length).map
          (fun a => (chunks a).data) ∧
      (StreamCall.run moved calls ({ chunks := chunks } : StreamSystem T)).2.unrefs =
        (StreamCall.yielded calls).take
          (poppedValues
            (StreamCall.run moved calls ({ chunks := chunks } : StreamSystem T)).1).length ∧
      (∀ before after, calls = before ++ StreamCall.pop :: after →
        (((StreamCall.run moved before
              ({ chunks := chunks } : StreamSystem T)).2.stream____pop moved).1 =
            Result.Err StreamError.Pending ↔
          (poppedValues
              (StreamCall.run moved before ({ chunks := chunks } : StreamSystem T)).1).length =
            (StreamCall.yielded before).length)) := by
  have hfresh : ∀ l : List StreamCall, (∀ a ∈ StreamCall.yielded l, (chunks a).next = none) →
      ∀ a ∈ StreamCall.yielded l,
        ((({ chunks := chunks } : StreamSystem T).chunks a).next = none ∧
          (({ chunks := chunks } : StreamSystem T).chunks a).data =
            (fun a => (chunks a).data) a ∧ a ∉ ([] : List Nat)) :=
    fun l hl a ha => ⟨hl a ha, rfl, List.not_mem_nil a⟩
  obtain ⟨popped, rest, _, h2, h3, h4, h5⟩ :=
    StreamCall.run_represents (fun a => (chunks a).data) moved calls
      ({ chunks := chunks } : StreamSystem T) []
      (StreamSystem.represents_fresh _ chunks) hopen hnd (hfresh calls hnull)
  have htake : (StreamCall.yielded calls).take popped.length = popped := by
    rw [List.nil_append] at h3
    rw [h3, List.take_left']
    rfl
  refine ⟨h5, ?_, ?_, ?_⟩
  · rw [h4, List.length_map, htake]
  · rw [h2, h4, List.length_map, htake]
    rfl
  · intro before after hcalls
    have hyield : StreamCall.yielded calls =
        StreamCall.yielded before ++ StreamCall.yielded after := by
      rw [hcalls, StreamCall.yielded_append]
      rfl
    have hopen1 : ∀ c ∈ before, StreamCall.isOpenYieldOrPop c = true :=
      fun c hc => hopen c (by rw [hcalls]; exact List.mem_append_left _ hc)
    have hnd1 : (StreamCall.yielded before).Nodup := by
      rw [hyield] at hnd
      exact (List.nodup_append.1 hnd).1
    have hnull1 : ∀ a ∈ StreamCall.yielded before, (chunks a).next = none :=
      fun a ha => hnull a (by rw [hyield]; exact List.mem_append_left _ ha)
    obtain ⟨popped1, rest1, hrep1, _, hsplit, hvals, _⟩ :=
      StreamCall.run_represents (fun a => (chunks a).data) moved before
        ({ chunks := chunks } : StreamSystem T) []
        (StreamSystem.represents_fresh _ chunks) hopen1 hnd1 (hfresh before hnull1)
    rw [List.nil_append] at hsplit
    rw [hvals, List.length_map, hsplit, List.length_append]
    cases rest1 with
    | nil =>
      rw [StreamSystem.pop_step_nil _ moved _ hrep1]
      simp
    | cons x q =>
      rw [(StreamSystem.pop_step_cons _ moved _ x q hrep1).1]
      simp

/-- Yielding the chunks with payloads 1, 2, 3 in that order and popping three
times returns 1, 2, 3. -/
theorem stream_refines_fifo_witness :
    (StreamCall.run id
        [StreamCall.yield 10 false, StreamCall.yield 20 false, StreamCall.yield 30 false,
          StreamCall.pop, StreamCall.pop, StreamCall.pop]
        ({ chunks := fun a => { next := none, data := a / 10 } } : StreamSystem Nat)).1 =
      [Result.Ok 1, Result.Ok 2, Result.Ok 3] :=
  (stream_refines_fifo id (fun a => { next := none, data := a / 10 })
    [StreamCall.yield 10 false, StreamCall.yield 20 false, StreamCall.yield 30 false,
      StreamCall.pop, StreamCall.pop, StreamCall.pop]
    (by decide) (by decide) (fun _ _ => rfl)).1

end StreamProperties

/-! ## Status reads -/

section StatusProperties

variable {T : Type}

/-- C11: for every status `s`, `user___is_done()` on a state with status `s`
(and `Future::is_done()` on a shared state with that status) equals
`is_terminal_future_status(s)`, which is true exactly for `Canceled`,
`ForceCanceled` and `Completed`, hence false for the other eleven statuses. -/
theorem is_done_is_terminal_test (s : FutureStatus) (state : FutureState T) :
    FutureExecutionState.user___is_done { future_status := s } =
        is_terminal_future_status s ∧
      Future.is_done state = is_terminal_future_status (Future.fetch_status state) ∧
      (is_terminal_future_status s = true ↔
        (s = FutureStatus.Canceled ∨ s = FutureStatus.ForceCanceled ∨
          s = FutureStatus.Completed)) ∧
      (is_terminal_future_status s = false ↔
        (s = FutureStatus.Scheduled ∨ s = FutureStatus.Submitted ∨
          s = FutureStatus.Executing ∨ s = FutureStatus.Canceling ∨
          s = FutureStatus.ForceCanceling ∨ s = FutureStatus.Suspending ∨
          s = FutureStatus.ForceSuspending ∨ s = FutureStatus.Suspended ∨
          s = FutureStatus.ForceSuspended ∨ s = FutureStatus.Resuming ∨
          s = FutureStatus.ForceResuming)) := by
  refine ⟨?_, ?_, ?_, ?_⟩
  · cases s <;> rfl
  · obtain ⟨⟨⟨status⟩, requests⟩, storage, lock⟩ := state
    cases status <;> rfl
  · cases s <;> simp [is_terminal_future_status]
  · cases s <;> simp [is_terminal_future_status]

/-- Every `executor___notify_*` call stores the status it names. -/
theorem ExecutorNotification.apply_status (n : ExecutorNotification)
    (s : FutureExecutionState) : (n.apply s).future_status = n.status := by
  cases n <;> rfl

/-- After a sequence of notifications the register holds the status named by
the last one, and its old content when the sequence is empty. -/
theorem ExecutorNotification.run_status (calls : List ExecutorNotification)
    (s : FutureExecutionState) :
    (ExecutorNotification.run calls s).future_status =
      (match calls.getLast? with
      | none => s.future_status
      | some n => n.status) := by
  induction calls generalizing s with
  | nil => rfl
  | cons n rest ih =>
    show (ExecutorNotification.run rest (n.apply s)).future_status = _
    rw [ih (n.apply s)]
    cases rest with
    | nil => exact ExecutorNotification.apply_status n s
    | cons m tl =>
      rw [List.getLast?_cons_cons]
      cases h : (m :: tl).getLast? with
      | none => simp at h
      | some x => rfl

/-- C12: for every finite sequence of `executor___notify_*` calls on a fresh
state and every prefix of it, `fetch_status()` after the prefix returns the
status named by the last call of the prefix, `Scheduled` for the empty
prefix, and `fetch_status_with_result()` returns the same value. -/
theorem status_reads_see_last_notification (calls : List ExecutorNotification) (k : Nat) :
    (ExecutorNotification.run (calls.take k) {}).user___fetch_status =
        ExecutorNotification.lastStatus (calls.take k) ∧
      (ExecutorNotification.run (calls.take k) {}).user___fetch_status_with_result =
        (ExecutorNotification.run (calls.take k) {}).user___fetch_status := by
  refine ⟨?_, rfl⟩
  show (ExecutorNotification.run (calls.take k) {}).future_status = _
  rw [ExecutorNotification.run_status, ExecutorNotification.lastStatus]

end StatusProperties

/-! ## Properties of closed streams, rejection and teardown -/

section ClosedStreamProperties

variable {T : Type}

/-- C13: whenever the pop cursor is null, `stream____pop()` returns
`Err(Pending)` if the stream is not closed and `Err(Closed)` if it is closed,
and in both cases returns the stream as it found it: `pop_it`, `yield_last`,
`closed`, the chunks and the log of unrefs are unchanged. -/
theorem pop_on_empty_stream (moved : T → T) (w : StreamSystem T)
    (hnull : w.state.pop_it = none) :
    (w.state.closed = false →
        (w.stream____pop moved).1 = Result.Err StreamError.Pending) ∧
      (w.state.closed = true →
        (w.stream____pop moved).1 = Result.Err StreamError.Closed) ∧
      (w.stream____pop moved).2 = w ∧
      (w.stream____pop moved).2.state.pop_it = w.state.pop_it ∧
      (w.stream____pop moved).2.state.yield_last = w.state.yield_last ∧
      (w.stream____pop moved).2.state.closed = w.state.closed ∧
      (w.stream____pop moved).2.unrefs = w.unrefs := by
  have hpop : (w.stream____pop moved).2 = w := by
    simp only [StreamSystem.stream____pop, hnull]
    split_ifs <;> rfl
  refine ⟨?_, ?_, hpop, ?_, ?_, ?_, ?_⟩
  · intro h
    simp [StreamSystem.stream____pop, hnull, h]
  · intro h
    simp [StreamSystem.stream____pop, hnull, h]
  all_goals rw [hpop]

/-- Popping a fresh stream reports `Pending`, popping it after a close reports
`Closed`, and neither changes the log of unrefs. -/
theorem pop_on_empty_stream_witness :
    (({ chunks := fun _ => { data := 0 } } : StreamSystem Nat).stream____pop id).1 =
        Result.Err StreamError.Pending ∧
      ((({ chunks := fun _ => { data := 0 } } : StreamSystem Nat).generator____close).stream____pop
          id).1 = Result.Err StreamError.Closed ∧
      ((({ chunks := fun _ => { data := 0 } } : StreamSystem Nat).generator____close).stream____pop
          id).2.unrefs = [] :=
  ⟨(pop_on_empty_stream id ({ chunks := fun _ => { data := 0 } } : StreamSystem Nat) rfl).1 rfl,
    (pop_on_empty_stream id
      (({ chunks := fun _ => { data := 0 } } : StreamSystem Nat).generator____close) rfl).2.1 rfl,
    (pop_on_empty_stream id
      (({ chunks := fun _ => { data := 0 } } : StreamSystem Nat).generator____close)
      rfl).2.2.2.2.2.2⟩

/-- The chain from a pointer is unique. -/
theorem StreamSystem.Linked.unique {chunks : Nat → StreamChunk T} {l1 l2 : List Nat}
    {p : Option Nat} (h1 : StreamSystem.Linked chunks p l1)
    (h2 : StreamSystem.Linked chunks p l2) : l1 = l2 := by
  induction l1 generalizing p l2 with
  | nil =>
    cases l2 with
    | nil => rfl
    | cons b r2 =>
      have e1 : p = none := h1
      have e2 : p = some b := h2.1
      rw [e1] at e2
      cases e2
  | cons a r1 ih =>
    cases l2 with
    | nil =>
      have e1 : p = some a := h1.1
      have e2 : p = none := h2
      rw [e1] at e2
      cases e2
    | cons b r2 =>
      have e : some a = some b := h1.1.symm.trans h2.1
      cases e
      rw [ih h1.2 h2.2]

/-- A chunk inside a chain starts the chain of what follows it. -/
theorem StreamSystem.Linked.from_member {chunks : Nat → StreamChunk T} {pre post : List Nat}
    {a : Nat} {p : Option Nat} (h : StreamSystem.Linked chunks p (pre ++ a :: post)) :
    StreamSystem.Linked chunks (some a) (a :: post) := by
  induction pre generalizing p with
  | nil => exact ⟨rfl, h.2⟩
  | cons x rest ih => exact ih h.2

/-- A chain that ends in a null link visits no chunk twice. -/
theorem StreamSystem.Linked.chain_nodup {chunks : Nat → StreamChunk T} {queue : List Nat}
    {p : Option Nat} (h : StreamSystem.Linked chunks p queue) : queue.Nodup := by
  induction queue generalizing p with
  | nil => exact List.nodup_nil
  | cons a rest ih =>
    refine List.nodup_cons.2 ⟨?_, ih h.2⟩
    intro hmem
    obtain ⟨pre, post, hsplit⟩ := List.append_of_mem hmem
    have h1 : StreamSystem.Linked chunks (some a) (a :: post) := by
      have h2 := h.2
      rw [hsplit] at h2
      exact StreamSystem.Linked.from_member h2
    have h3 : StreamSystem.Linked chunks (some a) (a :: rest) := ⟨rfl, h.2⟩
    have e := StreamSystem.Linked.unique h1 h3
    have elen := congrArg List.length e
    rw [hsplit] at elen
    simp at elen
    omega

/-- A yield on a closed stream only adds the chunk to the log of unrefs. -/
theorem StreamSystem.yield_rejected (w : StreamSystem T) (chunk_handle : Nat)
    (should_close : Bool) (hclosed : w.state.closed = true) :
    w.generator____yield chunk_handle should_close =
      { w with unrefs := w.unrefs ++ [chunk_handle] } := by
  simp [StreamSystem.generator____yield, hclosed]

/-- A pop on a stream, open or closed, whose chain is empty reports `Pending`
or `Closed` and changes nothing. -/
theorem StreamSystem.pop_chained_nil (payload : Nat → T) (moved : T → T)
    (w : StreamSystem T) (h : StreamSystem.Chained payload w []) :
    w.stream____pop moved =
      (if w.state.closed then Result.Err StreamError.Closed
        else Result.Err StreamError.Pending, w) := by
  have hpop : w.state.pop_it = none := h.1
  simp only [StreamSystem.stream____pop, hpop]
  split_ifs <;> rfl

/-- A pop on a stream, open or closed, whose chain is `a :: queue` returns the
payload of `a`, unrefs `a`, writes only the chunk `a`, keeps `closed` and
`yield_last`, and leaves the chain `queue`. -/
theorem StreamSystem.pop_chained_cons (payload : Nat → T) (moved : T → T)
    (w : StreamSystem T) (a : Nat) (queue : List Nat)
    (h : StreamSystem.Chained payload w (a :: queue)) :
    w.state.pop_it = some a ∧
      (w.stream____pop moved).1 = Result.Ok (payload a) ∧
      StreamSystem.Chained payload (w.stream____pop moved).2 queue ∧
      (w.stream____pop moved).2.unrefs = w.unrefs ++ [a] ∧
      (w.stream____pop moved).2.state.closed = w.state.closed ∧
      (w.stream____pop moved).2.state.yield_last = w.state.yield_last ∧
      (∀ b, b ≠ a → (w.stream____pop moved).2.chunks b = w.chunks b) := by
  obtain ⟨hlinked, hpay⟩ := h
  have hpop : w.state.pop_it = some a := hlinked.1
  have hna : a ∉ queue := (List.nodup_cons.1 hlinked.chain_nodup).1
  have hres : w.stream____pop moved =
      (Result.Ok (w.chunks a).data,
        { state := { w.state with pop_it := (w.chunks a).next }
          chunks := Function.update w.chunks a
            { w.chunks a with data := moved (w.chunks a).data }
          unrefs := w.unrefs ++ [a] }) := by
    simp [StreamSystem.stream____pop, hpop]
  rw [hres]
  refine ⟨hpop, ?_, ⟨?_, ?_⟩, rfl, rfl, rfl, ?_⟩
  · rw [hpay a (List.mem_cons_self a queue)]
  · refine StreamSystem.Linked.congr hlinked.2 ?_
    intro b hb
    have hba : b ≠ a := fun e => hna (e ▸ hb)
    simp only [Function.update_noteq hba]
  · intro b hb
    have hba : b ≠ a := fun e => hna (e ▸ hb)
    simp only [Function.update_noteq hba]
    exact hpay b (List.mem_cons_of_mem a hb)
  · intro b hba
    simp only [Function.update_noteq hba]

/-- Cutting a list padded with copies of one element is the same whatever the
padding beyond the cut. -/
theorem take_append_replicate {α : Type} (e : α) (xs : List α) (n m : Nat) (h : n ≤ m) :
    (xs ++ List.replicate m e).take n = (xs ++ List.replicate n e).take n := by
  induction xs generalizing n m with
  | nil =>
    simp only [List.nil_append, List.take_replicate, Nat.min_eq_left h, Nat.min_self]
  | cons x rest ih =>
    cases n with
    | zero => rfl
    | succ k =>
      simp only [List.cons_append, List.take_succ_cons]
      rw [ih k m (by omega), ih k (k + 1) (by omega)]

/-- Any calls on a closed stream whose chain is `queue`: the pops hand out the
chunks of the chain in order, with their payloads, and report `Closed` once
the chain is used up; the stream stays closed. -/
theorem StreamCall.run_closed (payload : Nat → T) (moved : T → T)
    (calls : List StreamCall) (w : StreamSystem T) (queue : List Nat)
    (hclosed : w.state.closed = true) (h : StreamSystem.Chained payload w queue) :
    (StreamCall.run moved calls w).1 =
        (queue.map (fun c => Result.Ok (payload c)) ++
          List.replicate (calls.count StreamCall.pop)
            (Result.Err StreamError.Closed)).take (calls.count StreamCall.pop) ∧
      StreamCall.popped moved calls w = queue.take (calls.count StreamCall.pop) ∧
      (StreamCall.run moved calls w).2.state.closed = true := by
  induction calls generalizing w queue with
  | nil => exact ⟨rfl, rfl, hclosed⟩
  | cons c rest ih =>
    cases c with
    | yield a b =>
      have hcount : (StreamCall.yield a b :: rest).count StreamCall.pop =
          rest.count StreamCall.pop := by simp [List.count_cons]
      have hstep := StreamSystem.yield_rejected w a b hclosed
      have hi := ih (w.generator____yield a b) queue (by rw [hstep]; exact hclosed)
        (by rw [hstep]; exact h)
      rw [hcount]
      exact hi
    | close =>
      have hcount : (StreamCall.close :: rest).count StreamCall.pop =
          rest.count StreamCall.pop := by simp [List.count_cons]
      have hi := ih w.generator____close queue rfl h
      rw [hcount]
      exact hi
    | pop =>
      have hcount : (StreamCall.pop :: rest).count StreamCall.pop =
          rest.count StreamCall.pop + 1 := by simp [List.count_cons]
      have hrun : StreamCall.run moved (StreamCall.pop :: rest) w =
          ((w.stream____pop moved).1 ::
            (StreamCall.run moved rest (w.stream____pop moved).2).1,
            (StreamCall.run moved rest (w.stream____pop moved).2).2) := rfl
      have hpopped : StreamCall.popped moved (StreamCall.pop :: rest) w =
          (match w.state.pop_it with
            | some chunk => [chunk]
            | none => []) ++ StreamCall.popped moved rest (w.stream____pop moved).2 := rfl
      rw [hcount, hrun, hpopped]
      cases queue with
      | nil =>
        have hp := StreamSystem.pop_chained_nil payload moved w h
        have hnull : w.state.pop_it = none := h.1
        rw [hclosed] at hp
        simp only [if_true] at hp
        obtain ⟨h1, h2, h3⟩ := ih w [] hclosed h
        rw [hp, hnull]
        refine ⟨?_, ?_, h3⟩
        · simp only [h1, List.map_nil, List.nil_append, List.take_replicate, Nat.min_self,
            List.replicate_succ, List.take_succ_cons]
        · simp only [h2, List.take_nil, List.nil_append]
      | cons x q =>
        obtain ⟨hpop, hres, hch, _, hcl, _, _⟩ :=
          StreamSystem.pop_chained_cons payload moved w x q h
        obtain ⟨h1, h2, h3⟩ := ih (w.stream____pop moved).2 q (by rw [hcl]; exact hclosed) hch
        rw [hpop]
        refine ⟨?_, ?_, h3⟩
        · simp only [hres, h1, List.map_cons, List.cons_append, List.take_succ_cons]
          rw [take_append_replicate _ _ _ (rest.count StreamCall.pop + 1) (by omega)]
        · simp only [h2, List.singleton_append, List.take_succ_cons]

/-- C15, as the claim states it, fails: on a fresh stream that has been
closed, the log of unrefs is empty before `generator____yield(7, false)` and
holds the rejected chunk 7 after it: the yield itself released the chunk. -/
theorem rejected_yield_unrefs_chunk :
    (({ chunks := fun _ => { data := 0 } } : StreamSystem Nat).generator____close).unrefs = [] ∧
      ((({ chunks := fun _ => { data := 0 } } : StreamSystem Nat).generator____close).generator____yield
          7 false).unrefs = [7] := by
  exact ⟨rfl, rfl⟩

/-- C15, amended: a yield attempted on a closed stream (a stream on which
`generator____close()` has run) returns nothing to its caller and releases the
rejected chunk itself: it calls `manager.unref()` on the chunk once and
changes nothing else. -/
theorem rejected_yield_releases_chunk_itself (w : StreamSystem T) (chunk_handle : Nat)
    (should_close : Bool) :
    w.generator____close.generator____yield chunk_handle should_close =
      { w.generator____close with unrefs := w.generator____close.unrefs ++ [chunk_handle] } :=
  StreamSystem.yield_rejected w.generator____close chunk_handle should_close rfl

/-- C16: `generator____close()` changes only the `closed` flag, which it sets;
so if the chunks `queue` are linked from `pop_it` at the time of the close,
then whatever calls follow, their pops return the payloads of those chunks in
that order and every pop after them returns `Err(Closed)`. -/
theorem close_does_not_evict (moved : T → T) (w : StreamSystem T) (queue : List Nat)
    (hlinked : StreamSystem.Linked w.chunks w.state.pop_it queue) (calls : List StreamCall) :
    w.generator____close.state.closed = true ∧
      w.generator____close.state.pop_it = w.state.pop_it ∧
      w.generator____close.state.yield_last = w.state.yield_last ∧
      w.generator____close.chunks = w.chunks ∧
      w.generator____close.unrefs = w.unrefs ∧
      (StreamCall.run moved calls w.generator____close).1 =
        (queue.map (fun c => Result.Ok (w.chunks c).data) ++
          List.replicate (calls.count StreamCall.pop)
            (Result.Err StreamError.Closed)).take (calls.count StreamCall.pop) ∧
      StreamCall.popped moved calls w.generator____close =
        queue.take (calls.count StreamCall.pop) := by
  have h := StreamCall.run_closed (fun a => (w.chunks a).data) moved calls
    w.generator____close queue rfl ⟨hlinked, fun _ _ => rfl⟩
  exact ⟨rfl, rfl, rfl, rfl, rfl, h.1, h.2.1⟩

/-- The chunks with payloads 1 and 2 are yielded and the stream is closed:
three pops, with a rejected yield in between, return 1, 2 and `Closed`. -/
theorem close_does_not_evict_witness :
    (StreamCall.run id
        [StreamCall.pop, StreamCall.yield 30 false, StreamCall.pop, StreamCall.pop]
        (StreamCall.run id [StreamCall.yield 10 false, StreamCall.yield 20 false]
          ({ chunks := fun a => { next := none, data := a / 10 } } :
            StreamSystem Nat)).2.generator____close).1 =
      [Result.Ok 1, Result.Ok 2, Result.Err StreamError.Closed] :=
  (close_does_not_evict id
    (StreamCall.run id [StreamCall.yield 10 false, StreamCall.yield 20 false]
      ({ chunks := fun a => { next := none, data := a / 10 } } : StreamSystem Nat)).2
    [10, 20] ⟨rfl, rfl, rfl⟩
    [StreamCall.pop, StreamCall.yield 30 false, StreamCall.pop, StreamCall.pop]).2.2.2.2.2.1

/-- An accepted yield with either value of the close flag: the chunks, the
log of unrefs, `pop_it` and `yield_last` are those of the yield without the
flag, and `closed` takes the value of the flag. -/
theorem StreamSystem.yield_flag (w : StreamSystem T) (a : Nat) (b : Bool)
    (hclosed : w.state.closed = false) :
    (w.generator____yield a b).chunks = (w.generator____yield a false).chunks ∧
      (w.generator____yield a b).unrefs = (w.generator____yield a false).unrefs ∧
      (w.generator____yield a b).state.pop_it = (w.generator____yield a false).state.pop_it ∧
      (w.generator____yield a b).state.yield_last =
        (w.generator____yield a false).state.yield_last ∧
      (w.generator____yield a b).state.closed = b := by
  simp [StreamSystem.generator____yield, hclosed]

/-- A yield on an open stream that holds `queue`, with either value of the
close flag: the chunk joins the queue at the back, `closed` takes the value of
the flag, nothing is unreffed and no chunk outside the queue is written. -/
theorem StreamSystem.yield_accepted (payload : Nat → T) (w : StreamSystem T)
    (queue : List Nat) (a : Nat) (b : Bool) (hclosed : w.state.closed = false)
    (hq : StreamSystem.Queued payload w queue)
    (hnext : (w.chunks a).next = none) (hdata : (w.chunks a).data = payload a)
    (hnew : a ∉ queue) :
    StreamSystem.Queued payload (w.generator____yield a b) (queue ++ [a]) ∧
      (w.generator____yield a b).state.closed = b ∧
      (w.generator____yield a b).unrefs = w.unrefs ∧
      (∀ c, c ∉ queue → (w.generator____yield a b).chunks c = w.chunks c) := by
  obtain ⟨⟨_, h1, h2, _, h3⟩, hu, hsame⟩ :=
    StreamSystem.yield_step payload w queue a
      ⟨hclosed, hq.1.1, hq.2, hq.1.1.chain_nodup, hq.1.2⟩ hnext hdata hnew
  obtain ⟨e1, e2, e3, e4, e5⟩ := StreamSystem.yield_flag w a b hclosed
  refine ⟨⟨⟨?_, ?_⟩, ?_⟩, e5, ?_, ?_⟩
  · rw [e1, e3]; exact h1
  · rw [e1]; exact h3
  · rw [e4]; exact h2
  · rw [e2]; exact hu
  · rw [e1]; exact hsame

/-- A pop on a stream, open or closed, that holds `a :: queue` leaves it
holding `queue`. -/
theorem StreamSystem.pop_queued_cons (payload : Nat → T) (moved : T → T)
    (w : StreamSystem T) (a : Nat) (queue : List Nat)
    (hq : StreamSystem.Queued payload w (a :: queue)) :
    StreamSystem.Queued payload (w.stream____pop moved).2 queue := by
  obtain ⟨_, _, hch, _, _, hyl, _⟩ := StreamSystem.pop_chained_cons payload moved w a queue hq.1
  refine ⟨hch, ?_⟩
  intro l hl
  rw [hyl]
  apply hq.2 l
  cases queue with
  | nil => simp at hl
  | cons y ys => rw [List.getLast?_cons_cons]; exact hl

/-- Any yields, closes and pops on a stream that holds `queue`, the yielded
chunks being new, pairwise different and unlinked: at the end the stream
holds a queue, and the chunks unreffed so far together with that queue are, up
to order, the chunks unreffed before, the old queue and the chunks yielded. -/
theorem StreamCall.run_queued (payload : Nat → T) (moved : T → T)
    (calls : List StreamCall) (w : StreamSystem T) (queue : List Nat)
    (hq : StreamSystem.Queued payload w queue)
    (hnd : (StreamCall.yielded calls).Nodup)
    (hfresh : ∀ a ∈ StreamCall.yielded calls,
      (w.chunks a).next = none ∧ (w.chunks a).data = payload a ∧ a ∉ queue) :
    ∃ rest,
      StreamSystem.Queued payload (StreamCall.run moved calls w).2 rest ∧
        ((StreamCall.run moved calls w).2.unrefs ++ rest).Perm
          (w.unrefs ++ (queue ++ StreamCall.yielded calls)) := by
  induction calls generalizing w queue with
  | nil =>
    refine ⟨queue, hq, ?_⟩
    simp [StreamCall.run, StreamCall.yielded]
  | cons c tl ih =>
    cases c with
    | yield a b =>
      have hy : StreamCall.yielded (StreamCall.yield a b :: tl) =
          a :: StreamCall.yielded tl := rfl
      have hrun : StreamCall.run moved (StreamCall.yield a b :: tl) w =
          StreamCall.run moved tl (w.generator____yield a b) := rfl
      rw [hy] at hnd hfresh
      rw [hy, hrun]
      obtain ⟨hnext, hdata, hnew⟩ := hfresh a (List.mem_cons_self a _)
      cases hclosed : w.state.closed with
      | true =>
        have hstep := StreamSystem.yield_rejected w a b hclosed
        obtain ⟨rest, h1, h2⟩ := ih (w.generator____yield a b) queue
          (by rw [hstep]; exact hq) (List.nodup_cons.1 hnd).2
          (by
            intro c hc
            rw [hstep]
            exact hfresh c (List.mem_cons_of_mem a hc))
        refine ⟨rest, h1, h2.trans ?_⟩
        rw [hstep]
        rw [List.perm_iff_count]
        intro c
        simp only [List.count_append, List.count_cons, List.count_nil]
        omega
      | false =>
        obtain ⟨hq1, _, hu, hsame⟩ :=
          StreamSystem.yield_accepted payload w queue a b hclosed hq hnext hdata hnew
        obtain ⟨rest, h1, h2⟩ := ih (w.generator____yield a b) (queue ++ [a]) hq1
          (List.nodup_cons.1 hnd).2
          (by
            intro c hc
            obtain ⟨g1, g2, g3⟩ := hfresh c (List.mem_cons_of_mem a hc)
            rw [hsame c g3]
            refine ⟨g1, g2, ?_⟩
            rw [List.mem_append, List.mem_singleton, not_or]
            exact ⟨g3, fun e => (List.nodup_cons.1 hnd).1 (e ▸ hc)⟩)
        refine ⟨rest, h1, ?_⟩
        rw [hu, List.append_assoc, List.singleton_append] at h2
        exact h2
    | close =>
      exact ih w.generator____close queue hq hnd hfresh
    | pop =>
      have hy : StreamCall.yielded (StreamCall.pop :: tl) = StreamCall.yielded tl := rfl
      have hrun : (StreamCall.run moved (StreamCall.pop :: tl) w).2 =
          (StreamCall.run moved tl (w.stream____pop moved).2).2 := rfl
      rw [hy] at hnd hfresh
      rw [hy, hrun]
      cases queue with
      | nil =>
        have hp := StreamSystem.pop_chained_nil payload moved w hq.1
        rw [hp]
        exact ih w [] hq hnd hfresh
      | cons x q =>
        obtain ⟨_, _, _, hu, _, _, hsame⟩ :=
          StreamSystem.pop_chained_cons payload moved w x q hq.1
        have hq1 := StreamSystem.pop_queued_cons payload moved w x q hq
        obtain ⟨rest, h1, h2⟩ := ih (w.stream____pop moved).2 q hq1 hnd
          (by
            intro c hc
            obtain ⟨g1, g2, g3⟩ := hfresh c hc
            have hcx : c ≠ x := fun e => g3 (e ▸ List.mem_cons_self x q)
            rw [hsame c hcx]
            exact ⟨g1, g2, fun e => g3 (List.mem_cons_of_mem x e)⟩)
        refine ⟨rest, h1, ?_⟩
        rw [hu, List.append_assoc, List.singleton_append] at h2
        exact h2

/-- The unrefs of a trace made of two parts. -/
theorem TeardownEvent.unrefs_append (a b : List TeardownEvent) :
    TeardownEvent.unrefs (a ++ b) = TeardownEvent.unrefs a ++ TeardownEvent.unrefs b := by
  induction a with
  | nil => rfl
  | cons e rest ih =>
    cases e with
    | read_next c => exact ih
    | unref c => exact congrArg (List.cons c) ih

/-- A trace of reads holds no unref. -/
theorem TeardownEvent.unrefs_reads (l : List Nat) :
    TeardownEvent.unrefs (l.map TeardownEvent.read_next) = [] := by
  induction l with
  | nil => rfl
  | cons c rest ih => exact ih

/-- A trace of unrefs unrefs its chunks in order. -/
theorem TeardownEvent.unrefs_unrefs (l : List Nat) :
    TeardownEvent.unrefs (l.map TeardownEvent.unref) = l := by
  induction l with
  | nil => rfl
  | cons c rest ih => exact congrArg (List.cons c) ih

/-- With more fuel than the chain is long, `unref_pass` on a chain returns: it
reads the `next` member of every chunk from head to tail and then unrefs the
chunks from tail to head. -/
theorem StreamSystem.unref_pass_linked (chunks : Nat → StreamChunk T) (queue : List Nat)
    (p : Option Nat) (h : StreamSystem.Linked chunks p queue) (fuel : Nat)
    (hfuel : queue.length < fuel) :
    StreamSystem.unref_pass chunks fuel p =
      some (queue.map TeardownEvent.read_next ++ queue.reverse.map TeardownEvent.unref) := by
  induction queue generalizing p fuel with
  | nil =>
    have e : p = none := h
    rw [e]
    cases fuel <;> rfl
  | cons a rest ih =>
    have e : p = some a := h.1
    rw [e]
    cases fuel with
    | zero => simp at hfuel
    | succ f =>
      have hi := ih (chunks a).next h.2 f (by simp at hfuel; omega)
      simp only [StreamSystem.unref_pass, hi, Option.map_some', List.map_cons,
        List.reverse_cons, List.map_append, List.map_nil, List.cons_append,
        List.append_assoc]

/-- C19: for every finite sequence of `generator____yield` (pairwise different
chunks, unlinked when yielded), `generator____close` and `stream____pop` calls
on a fresh stream, the destructor that follows returns (given more fuel than
there are chunks), and afterwards the chunks on which `manager.unref()` has
been called are, up to order, exactly the chunks passed to yield: each of them
has been unreffed exactly once in total. -/
theorem every_chunk_unreffed_once (moved : T → T) (chunks : Nat → StreamChunk T)
    (calls : List StreamCall) (hnd : (StreamCall.yielded calls).Nodup)
    (hnull : ∀ a ∈ StreamCall.yielded calls, (chunks a).next = none)
    (fuel : Nat) (hfuel : (StreamCall.yielded calls).length < fuel) :
    ∃ w, (StreamCall.run moved calls ({ chunks := chunks } : StreamSystem T)).2.destroy fuel =
        some w ∧
      w.unrefs.Perm (StreamCall.yielded calls) ∧
      ∀ a ∈ StreamCall.yielded calls, w.unrefs.count a = 1 := by
  obtain ⟨rest, hq, hperm⟩ :=
    StreamCall.run_queued (fun a => (chunks a).data) moved calls
      ({ chunks := chunks } : StreamSystem T) []
      ⟨⟨rfl, fun a ha => absurd ha (List.not_mem_nil a)⟩, fun l hl => by simp at hl⟩ hnd
      (fun a ha => ⟨hnull a ha, rfl, List.not_mem_nil a⟩)
  have hperm1 : ((StreamCall.run moved calls
      ({ chunks := chunks } : StreamSystem T)).2.unrefs ++ rest).Perm
      (StreamCall.yielded calls) := by
    simpa using hperm
  have hlen : rest.length < fuel := by
    have := hperm1.length_eq
    rw [List.length_append] at this
    omega
  have hpass := StreamSystem.unref_pass_linked _ rest _ hq.1.1 fuel hlen
  have hfinal : ((StreamCall.run moved calls
      ({ chunks := chunks } : StreamSystem T)).2.unrefs ++ rest.reverse).Perm
      (StreamCall.yielded calls) :=
    (List.Perm.append_left _ (List.reverse_perm rest)).trans hperm1
  refine ⟨{ (StreamCall.run moved calls ({ chunks := chunks } : StreamSystem T)).2 with
    unrefs := (StreamCall.run moved calls ({ chunks := chunks } : StreamSystem T)).2.unrefs ++
      rest.reverse }, ?_, hfinal, ?_⟩
  · simp only [StreamSystem.destroy, StreamSystem.unref_items, hpass, Option.map_some',
      TeardownEvent.unrefs_append, TeardownEvent.unrefs_reads, TeardownEvent.unrefs_unrefs,
      List.nil_append]
  · intro a ha
    rw [hfinal.count_eq]
    exact List.count_eq_one_of_mem hnd ha

/-- Chunks 10, 20, 30 and 40 are yielded, with one pop, a close before the
last yield, and then the destructor: 10 is unreffed by the pop, 40 by the
yield that rejects it, 30 and 20 by the destructor, each once. -/
theorem every_chunk_unreffed_once_witness :
    ∃ w, (StreamCall.run id
        [StreamCall.yield 10 false, StreamCall.yield 20 false, StreamCall.pop,
          StreamCall.yield 30 false, StreamCall.close, StreamCall.yield 40 false]
        ({ chunks := fun a => { next := none, data := a / 10 } } :
          StreamSystem Nat)).2.destroy 5 = some w ∧
      w.unrefs.Perm [10, 20, 30, 40] ∧
      ∀ a ∈ [10, 20, 30, 40], w.unrefs.count a = 1 :=
  every_chunk_unreffed_once id (fun a => { next := none, data := a / 10 })
    [StreamCall.yield 10 false, StreamCall.yield 20 false, StreamCall.pop,
      StreamCall.yield 30 false, StreamCall.close, StreamCall.yield 40 false]
    (by decide) (fun _ _ => rfl) 5 (by decide)

end ClosedStreamProperties

/-! ## Slot reuse in the ring -/

section RingReuseProperties

variable {T : Type}

/-- On a full ring with its registers in range, an unref destroys the slot at
`next_destruct_index` and the allocation that follows returns that slot. -/
theorem GeneratorRingMemory.reuse_step (N : Nat) (hN64 : N < 2 ^ 64)
    (r : GeneratorRingMemory T) (hr : GeneratorRingMemory.InRange N r)
    (hfull : r.num_in_use = N) (value : T) :
    (r.manager____unref N).1 = r.next_destruct_index ∧
      ((r.manager____unref N).2.generator____allocate N value).1 =
        Result.Ok r.next_destruct_index := by
  obtain ⟨_, h2, h3, h4⟩ := hr
  have hN : 0 < N := by omega
  have e1 : (r.num_in_use + 2 ^ 64 - 1) % 2 ^ 64 = N - 1 := by
    rw [hfull, show N + 2 ^ 64 - 1 = (N - 1) + 2 ^ 64 by omega, Nat.add_mod_right,
      Nat.mod_eq_of_lt (by omega)]
  have hn : (r.manager____unref N).2.num_in_use = N - 1 := by
    simp only [GeneratorRingMemory.manager____unref, GeneratorRingMemory.unref_capture,
      GeneratorRingMemory.unref_destroy, GeneratorRingMemory.unref_release, e1]
  have hc : (r.manager____unref N).2.next_chunk_index = r.next_chunk_index := rfl
  have hd : r.next_destruct_index = r.next_chunk_index := by
    rw [h4, hfull, Nat.add_sub_cancel, Nat.mod_eq_of_lt h2]
  have hne : (r.manager____unref N).2.num_in_use ≠ N := by rw [hn]; omega
  refine ⟨rfl, ?_⟩
  simp only [GeneratorRingMemory.generator____allocate, if_neg hne, hc, hd]

/-- The ring after no call is the ring. -/
theorem RingCall.state_nil (N : Nat) (r : GeneratorRingMemory T) :
    (RingCall.run N ([] : List (RingCall T)) r).2 = r :=
  rfl

/-- The ring after a sequence that starts with an allocation. -/
theorem RingCall.state_cons_allocate (N : Nat) (value : T) (rest : List (RingCall T))
    (r : GeneratorRingMemory T) :
    (RingCall.run N (RingCall.allocate value :: rest) r).2 =
      (RingCall.run N rest (r.generator____allocate N value).2).2 :=
  rfl

/-- The ring after a sequence that starts with an unref. -/
theorem RingCall.state_cons_unref (N : Nat) (rest : List (RingCall T))
    (r : GeneratorRingMemory T) :
    (RingCall.run N (RingCall.unref :: rest) r).2 =
      (RingCall.run N rest (r.manager____unref N).2).2 :=
  rfl

/-- On a full ring with its registers in range, an unref empties the slot at
`next_destruct_index` of `memory_chunks` and no other, and the allocation that
follows constructs its chunk in that slot and in no other. -/
theorem GeneratorRingMemory.reuse_memory (N : Nat) (hN64 : N < 2 ^ 64)
    (r : GeneratorRingMemory T) (hr : GeneratorRingMemory.InRange N r)
    (hfull : r.num_in_use = N) (value : T) :
    (r.manager____unref N).2.memory_chunks =
        Function.update r.memory_chunks r.next_destruct_index none ∧
      ((r.manager____unref N).2.generator____allocate N value).2.memory_chunks =
        Function.update r.memory_chunks r.next_destruct_index
          (some { next := none, data := value }) := by
  obtain ⟨_, h2, h3, h4⟩ := hr
  have hN : 0 < N := by omega
  have e1 : (r.num_in_use + 2 ^ 64 - 1) % 2 ^ 64 = N - 1 := by
    rw [hfull, show N + 2 ^ 64 - 1 = (N - 1) + 2 ^ 64 by omega, Nat.add_mod_right,
      Nat.mod_eq_of_lt (by omega)]
  have hn : (r.manager____unref N).2.num_in_use = N - 1 := by
    simp only [GeneratorRingMemory.manager____unref, GeneratorRingMemory.unref_capture,
      GeneratorRingMemory.unref_destroy, GeneratorRingMemory.unref_release, e1]
  have hc : (r.manager____unref N).2.next_chunk_index = r.next_chunk_index := rfl
  have hd : r.next_destruct_index = r.next_chunk_index := by
    rw [h4, hfull, Nat.add_sub_cancel, Nat.mod_eq_of_lt h2]
  have hne : (r.manager____unref N).2.num_in_use ≠ N := by rw [hn]; omega
  have hmem : (r.manager____unref N).2.memory_chunks =
      Function.update r.memory_chunks r.next_destruct_index none := by
    simp only [GeneratorRingMemory.manager____unref, GeneratorRingMemory.unref_capture,
      GeneratorRingMemory.unref_destroy, GeneratorRingMemory.unref_release]
  refine ⟨hmem, ?_⟩
  simp only [GeneratorRingMemory.generator____allocate, if_neg hne, hc, hmem, hd,
    Function.update_idem]

/-- Allocations that fit on a ring construct their chunks behind the chunks the
ring already holds. -/
theorem RingCall.allocations_hold (N : Nat) (hN64 : N < 2 ^ 64) (values : List T)
    (r : GeneratorRingMemory T) (held : List T)
    (h : GeneratorRingMemory.Holds N r held) (hfit : r.num_in_use + values.length ≤ N) :
    GeneratorRingMemory.Holds N (RingCall.run N (values.map RingCall.allocate) r).2
      (held ++ values) := by
  induction values generalizing r held with
  | nil =>
    rw [List.append_nil]
    exact h
  | cons v rest ih =>
    have hlen : (v :: rest).length = rest.length + 1 := rfl
    rw [hlen] at hfit
    have hfree : r.num_in_use ≠ N := by omega
    obtain ⟨_, _, _, hholds⟩ := GeneratorRingMemory.allocate_holds N hN64 r held h hfree v
    have hn : (r.generator____allocate N v).2.num_in_use = r.num_in_use + 1 := by
      rw [← hholds.length_eq, ← h.length_eq, List.length_append]
      rfl
    have hi := ih _ _ hholds (by rw [hn]; omega)
    rw [List.map_cons, RingCall.run_cons_allocate]
    rw [List.append_assoc, List.singleton_append] at hi
    exact hi

/-- C17: on a full ring of capacity `N` with its registers in range, one
`manager____unref()` destroys the slot at `next_destruct_index` and the next
`generator____allocate` succeeds and returns exactly that slot; in particular
on a fresh ring filled by `N` allocations (slots `0 .. N-1`), the unref
destroys slot 0 and the next allocation returns slot 0. In `memory_chunks`: the
unref empties the slot at `next_destruct_index` and leaves every other slot as
it was, and the allocation constructs its chunk in that same slot and in no
other; if the ring holds chunks, the slot emptied held the oldest of them and
afterwards the ring holds the others followed by the new chunk. On the fresh
ring filled by `N` allocations the slots `0 .. N-1` hold the chunks of the
payloads in order, the unref empties slot 0 and the allocation constructs the
new chunk in slot 0. -/
theorem slot_reuse_after_reclamation (N : Nat) (hN64 : N < 2 ^ 64)
    (r : GeneratorRingMemory T) (hr : GeneratorRingMemory.InRange N r)
    (hfull : r.num_in_use = N) (value : T) (values : List T) (hlen : values.length = N) :
    (r.manager____unref N).1 = r.next_destruct_index ∧
      ((r.manager____unref N).2.generator____allocate N value).1 =
        Result.Ok (r.manager____unref N).1 ∧
      (RingCall.run N
          (values.map RingCall.allocate ++ [RingCall.unref, RingCall.allocate value])
          ({} : GeneratorRingMemory T)).1 =
        (List.range N).map RingEvent.allocated ++
          [RingEvent.destroyed 0, RingEvent.allocated 0] ∧
      (r.manager____unref N).2.memory_chunks =
        Function.update r.memory_chunks r.next_destruct_index none ∧
      ((r.manager____unref N).2.generator____allocate N value).2.memory_chunks =
        Function.update r.memory_chunks r.next_destruct_index
          (some { next := none, data := value }) ∧
      (∀ oldest others, GeneratorRingMemory.Holds N r (oldest :: others) →
        r.memory_chunks r.next_destruct_index = some { next := none, data := oldest } ∧
          GeneratorRingMemory.Holds N
            ((r.manager____unref N).2.generator____allocate N value).2
            (others ++ [value])) ∧
      (List.range N).map
          (RingCall.run N (values.map RingCall.allocate)
            ({} : GeneratorRingMemory T)).2.memory_chunks =
        values.map (fun v => some { next := none, data := v }) ∧
      (RingCall.run N (values.map RingCall.allocate ++ [RingCall.unref])
          ({} : GeneratorRingMemory T)).2.memory_chunks =
        Function.update
          (RingCall.run N (values.map RingCall.allocate)
            ({} : GeneratorRingMemory T)).2.memory_chunks 0 none ∧
      (RingCall.run N
          (values.map RingCall.allocate ++ [RingCall.unref, RingCall.allocate value])
          ({} : GeneratorRingMemory T)).2.memory_chunks =
        Function.update
          (RingCall.run N (values.map RingCall.allocate)
            ({} : GeneratorRingMemory T)).2.memory_chunks 0
          (some { next := none, data := value }) := by
  have hN : 0 < N := by have := hr.2.1; omega
  have hgen := GeneratorRingMemory.reuse_memory N hN64 r hr hfull value
  have hholdsGen : ∀ oldest others, GeneratorRingMemory.Holds N r (oldest :: others) →
      r.memory_chunks r.next_destruct_index = some { next := none, data := oldest } ∧
        GeneratorRingMemory.Holds N
          ((r.manager____unref N).2.generator____allocate N value).2
          (others ++ [value]) := by
    intro oldest others hholds
    obtain ⟨_, hold, _, hrest⟩ := GeneratorRingMemory.unref_holds N hN64 r oldest others hholds
    have hfree : (r.manager____unref N).2.num_in_use ≠ N := by
      have h1 := hrest.length_eq
      have h2 := hholds.length_eq
      rw [List.length_cons] at h2
      omega
    exact ⟨hold,
      (GeneratorRingMemory.allocate_holds N hN64 _ others hrest hfree value).2.2.2⟩
  have hfilled := RingCall.allocations_hold N hN64 values ({} : GeneratorRingMemory T) []
    (GeneratorRingMemory.holds_fresh N hN) (by show 0 + values.length ≤ N; omega)
  rw [List.nil_append] at hfilled
  have h := RingCall.run_allocations N hN64 values ({} : GeneratorRingMemory T)
    (by show 0 + values.length ≤ N; omega) (by show 0 = 0 % N; simp)
  obtain ⟨hev, hnum, hidx, hdes⟩ := h
  have hnum1 : (RingCall.run N (values.map RingCall.allocate)
      ({} : GeneratorRingMemory T)).2.num_in_use = N := by
    rw [hnum]; show 0 + values.length = N; omega
  have hidx1 : (RingCall.run N (values.map RingCall.allocate)
      ({} : GeneratorRingMemory T)).2.next_chunk_index = 0 := by
    rw [hidx]; show (0 + values.length) % N = 0; rw [Nat.zero_add, hlen, Nat.mod_self]
  have hdes1 : (RingCall.run N (values.map RingCall.allocate)
      ({} : GeneratorRingMemory T)).2.next_destruct_index = 0 := hdes
  have hr1 : GeneratorRingMemory.InRange N
      (RingCall.run N (values.map RingCall.allocate) ({} : GeneratorRingMemory T)).2 := by
    refine ⟨by rw [hnum1], by rw [hidx1]; exact hN, by rw [hdes1]; exact hN, ?_⟩
    rw [hdes1, hidx1, hnum1, Nat.zero_add, Nat.sub_self, Nat.zero_mod]
  obtain ⟨hu, ha⟩ := GeneratorRingMemory.reuse_step N hN64 _ hr1 hnum1 value
  rw [hdes1] at hu ha
  have hev1 : (RingCall.run N (values.map RingCall.allocate)
      ({} : GeneratorRingMemory T)).1 = (List.range N).map RingEvent.allocated := by
    rw [hev, hlen]
    show (List.range' 0 N).map RingEvent.allocated = _
    rw [List.range_eq_range']
  have hmemFresh := GeneratorRingMemory.reuse_memory N hN64 _ hr1 hnum1 value
  rw [hdes1] at hmemFresh
  have hstate1 : ∀ s : GeneratorRingMemory T,
      (RingCall.run N [RingCall.unref] s).2 = (s.manager____unref N).2 := by
    intro s
    rw [RingCall.state_cons_unref, RingCall.state_nil]
  have hstate2 : ∀ s : GeneratorRingMemory T,
      (RingCall.run N [RingCall.unref, RingCall.allocate value] s).2 =
        ((s.manager____unref N).2.generator____allocate N value).2 := by
    intro s
    rw [RingCall.state_cons_unref, RingCall.state_cons_allocate, RingCall.state_nil]
  have happ : ∀ a b : List (RingCall T),
      (RingCall.run N (a ++ b) ({} : GeneratorRingMemory T)).2 =
        (RingCall.run N b (RingCall.run N a ({} : GeneratorRingMemory T)).2).2 := by
    intro a b
    rw [RingCall.run_ring_append]
  refine ⟨rfl, (GeneratorRingMemory.reuse_step N hN64 r hr hfull value).2, ?_, hgen.1, hgen.2,
    hholdsGen, ?_, ?_, ?_⟩
  · rw [RingCall.run_ring_append, hev1, RingCall.run_cons_unref, RingCall.run_cons_allocate,
      hu, ha]
    rfl
  · have hm := hfilled.2.1
    have hs : GeneratorRingMemory.slotsInUse N
        (RingCall.run N (values.map RingCall.allocate) ({} : GeneratorRingMemory T)).2 =
          List.range N := by
      simp only [GeneratorRingMemory.slotsInUse, hnum1, hdes1, Nat.zero_add]
      conv_rhs => rw [← List.map_id (List.range N)]
      apply List.map_congr_left
      intro i hi
      exact Nat.mod_eq_of_lt (List.mem_range.1 hi)
    rw [hs] at hm
    exact hm
  · rw [happ, hstate1]
    exact hmemFresh.1
  · rw [happ, hstate2]
    exact hmemFresh.2

/-- A ring of capacity 2 filled with 10 and 20: the unref destroys slot 0 and
the allocation of 30 returns slot 0. -/
theorem slot_reuse_after_reclamation_witness :
    ((RingCall.run 2 [RingCall.allocate 10, RingCall.allocate 20]
        ({} : GeneratorRingMemory Nat)).2.manager____unref 2).1 = 0 ∧
      (RingCall.run 2
          ([10, 20].map RingCall.allocate ++ [RingCall.unref, RingCall.allocate 30])
          ({} : GeneratorRingMemory Nat)).1 =
        [RingEvent.allocated 0, RingEvent.allocated 1, RingEvent.destroyed 0,
          RingEvent.allocated 0] ∧
      ((RingCall.run 2 [RingCall.allocate 10, RingCall.allocate 20]
          ({} : GeneratorRingMemory Nat)).2.manager____unref 2).2.memory_chunks =
        Function.update
          (RingCall.run 2 [RingCall.allocate 10, RingCall.allocate 20]
            ({} : GeneratorRingMemory Nat)).2.memory_chunks 0 none ∧
      [0, 1].map
          (RingCall.run 2 ([10, 20].map RingCall.allocate)
            ({} : GeneratorRingMemory Nat)).2.memory_chunks =
        [some { next := none, data := 10 }, some { next := none, data := 20 }] :=
  ⟨(slot_reuse_after_reclamation 2 (by norm_num)
      (RingCall.run 2 [RingCall.allocate 10, RingCall.allocate 20]
        ({} : GeneratorRingMemory Nat)).2
      ⟨by decide, by decide, by decide, by decide⟩ (by decide) 30 [10, 20] rfl).1,
    (slot_reuse_after_reclamation 2 (by norm_num)
      (RingCall.run 2 [RingCall.allocate 10, RingCall.allocate 20]
        ({} : GeneratorRingMemory Nat)).2
      ⟨by decide, by decide, by decide, by decide⟩ (by decide) 30 [10, 20] rfl).2.2.1,
    (slot_reuse_after_reclamation 2 (by norm_num)
      (RingCall.run 2 [RingCall.allocate 10, RingCall.allocate 20]
        ({} : GeneratorRingMemory Nat)).2
      ⟨by decide, by decide, by decide, by decide⟩ (by decide) 30 [10, 20] rfl).2.2.2.1,
    (slot_reuse_after_reclamation 2 (by norm_num)
      (RingCall.run 2 [RingCall.allocate 10, RingCall.allocate 20]
        ({} : GeneratorRingMemory Nat)).2
      ⟨by decide, by decide, by decide, by decide⟩ (by decide) 30 [10, 20] rfl).2.2.2.2.2.2.1⟩

end RingReuseProperties

/-! ## Lifetime of the shared state -/

section LifetimeProperties

variable {Object : Type}

/-- A `ref` below the top of the `uint64_t` range adds one to the count. -/
theorem IntrusiveRefCountHandle.ref_count_ref (h : IntrusiveRefCountHandle Object)
    (hsmall : h.ref_count + 1 < 2 ^ 64) : h.ref.ref_count = h.ref_count + 1 :=
  Nat.mod_eq_of_lt hsmall

/-- An `unref` on a positive count takes one from the count. -/
theorem IntrusiveRefCountHandle.ref_count_unref (h : IntrusiveRefCountHandle Object)
    (hpos : 0 < h.ref_count) (hsmall : h.ref_count < 2 ^ 64) :
    h.unref.2.ref_count = h.ref_count - 1 := by
  show (h.ref_count + 2 ^ 64 - 1) % 2 ^ 64 = _
  rw [show h.ref_count + 2 ^ 64 - 1 = (h.ref_count - 1) + 2 ^ 64 by omega, Nat.add_mod_right,
    Nat.mod_eq_of_lt (by omega)]

/-- Along calls made through handles that hold a reference, without overflow
of the count: the count moves by the number of refs less the number of
unrefs, and no call but the last runs `delete this`, which the last call does
exactly when it leaves the count at 0. -/
theorem RcCall.run_flags (calls : List RcCall) (h : IntrusiveRefCountHandle Object)
    (hheld : RcCall.heldThroughout calls h = true)
    (hsmall : h.ref_count + calls.length < 2 ^ 64) :
    (RcCall.run calls h).2.ref_count + calls.count RcCall.unref =
        h.ref_count + calls.count RcCall.ref ∧
      (calls ≠ [] →
        (RcCall.run calls h).1 =
          List.replicate (calls.length - 1) false ++
            [decide ((RcCall.run calls h).2.ref_count = 0)]) := by
  induction calls generalizing h with
  | nil => exact ⟨rfl, fun hne => absurd rfl hne⟩
  | cons c rest ih =>
    have hlen : (c :: rest).length = rest.length + 1 := rfl
    rw [hlen] at hsmall
    cases c with
    | ref =>
      simp only [RcCall.heldThroughout, Bool.and_eq_true, decide_eq_true_eq] at hheld
      have hc := IntrusiveRefCountHandle.ref_count_ref h (by omega)
      obtain ⟨h1, h2⟩ := ih h.ref hheld.2 (by rw [hc]; omega)
      have hrun : RcCall.run (RcCall.ref :: rest) h =
          (false :: (RcCall.run rest h.ref).1, (RcCall.run rest h.ref).2) := rfl
      rw [hrun]
      refine ⟨?_, fun _ => ?_⟩
      · simp only [List.count_cons, beq_self_eq_true, if_true]
        have : (RcCall.ref == RcCall.unref) = false := rfl
        simp only [this, Bool.false_eq_true, if_false]
        omega
      · cases rest with
        | nil =>
          show [false] = [decide (h.ref.ref_count = 0)]
          rw [hc]
          simp
        | cons d tl =>
          rw [h2 (List.cons_ne_nil d tl)]
          rfl
    | unref =>
      simp only [RcCall.heldThroughout, Bool.and_eq_true, decide_eq_true_eq] at hheld
      have hc := IntrusiveRefCountHandle.ref_count_unref h hheld.1 (by omega)
      obtain ⟨h1, h2⟩ := ih h.unref.2 hheld.2 (by rw [hc]; omega)
      have hrun : RcCall.run (RcCall.unref :: rest) h =
          (decide (h.ref_count = 1) :: (RcCall.run rest h.unref.2).1,
            (RcCall.run rest h.unref.2).2) := rfl
      rw [hrun]
      refine ⟨?_, fun _ => ?_⟩
      · simp only [List.count_cons, beq_self_eq_true, if_true]
        have : (RcCall.unref == RcCall.ref) = false := rfl
        simp only [this, Bool.false_eq_true, if_false]
        omega
      · cases rest with
        | nil =>
          show [decide (h.ref_count = 1)] = [decide (h.unref.2.ref_count = 0)]
          rw [hc]
          have : (h.ref_count = 1) ↔ (h.ref_count - 1 = 0) := by omega
          simp only [this]
        | cons d tl =>
          have hpos : 0 < h.unref.2.ref_count := by
            have := hheld.2
            cases d <;>
              simp only [RcCall.heldThroughout, Bool.and_eq_true, decide_eq_true_eq] at this <;>
              exact this.1
          have hne : ¬ h.ref_count = 1 := by rw [hc] at hpos; omega
          rw [h2 (List.cons_ne_nil d tl), decide_eq_false hne]
          rfl

/-- The handle returned by `make_rc_inplace` counts one reference. -/
theorem make_rc_inplace_count (object : Object) : (make_rc_inplace object).ref_count = 1 := by
  show (0 + 1) % 2 ^ 64 = 1
  norm_num

/-- The handle behind the pair of `make_future` counts two references. -/
theorem make_future_shared_count (T : Type) : (make_future_shared T).ref_count = 2 := by
  show ((0 + 1) % 2 ^ 64 + 1) % 2 ^ 64 = 2
  norm_num

/-- C20: `make_rc_inplace` returns the handle with `ref_count` exactly 1 and
`make_future` leaves it at 2, one reference per side; `unref` runs `delete
this` exactly when it finds the count at 1, which it takes to 0, and `ref`
never deletes; along every sequence of `ref()`/`unref()` calls made through
handles that hold a reference, no call but the last deletes the handle, the
last does so exactly when it leaves the count at 0, and the count has moved by
the refs less the unrefs. Hence on the pair of `make_future` the release of one
side keeps the shared state and the release of the other side deletes it. -/
theorem shared_state_lifetime (T : Type) (object : Object)
    (h : IntrusiveRefCountHandle Object) (calls : List RcCall)
    (hheld : RcCall.heldThroughout calls h = true)
    (hsmall : h.ref_count + calls.length < 2 ^ 64) :
    (make_rc_inplace object).ref_count = 1 ∧
      (make_future_shared T).ref_count = 2 ∧
      (h.unref.1 = true ↔ h.ref_count = 1) ∧
      (h.ref_count = 1 → h.unref.2.ref_count = 0) ∧
      (RcCall.run [RcCall.ref] h).1 = [false] ∧
      (RcCall.run calls h).2.ref_count + calls.count RcCall.unref =
        h.ref_count + calls.count RcCall.ref ∧
      (calls ≠ [] →
        (RcCall.run calls h).1 =
          List.replicate (calls.length - 1) false ++
            [decide ((RcCall.run calls h).2.ref_count = 0)]) ∧
      (Rc.release (make_future_shared T)).1 = false ∧
      (Rc.release (Rc.release (make_future_shared T)).2).1 = true ∧
      (RcCall.run [RcCall.unref, RcCall.unref] (make_future_shared T)).1 = [false, true] := by
  have hrun := RcCall.run_flags calls h hheld hsmall
  have hfirst : (make_future_shared T).unref.2.ref_count = 1 := by
    rw [IntrusiveRefCountHandle.ref_count_unref _ (by rw [make_future_shared_count]; omega)
      (by rw [make_future_shared_count]; omega), make_future_shared_count]
  have hrel1 : (Rc.release (make_future_shared T)).1 = false := by
    show decide ((make_future_shared T).ref_count = 1) = false
    rw [make_future_shared_count]
    rfl
  have hfst : ∀ x : IntrusiveRefCountHandle (FutureState T),
      (Rc.release x).1 = decide (x.ref_count = 1) := fun _ => rfl
  have hsnd : ∀ x : IntrusiveRefCountHandle (FutureState T),
      (Rc.release x).2 = x.unref.2 := fun _ => rfl
  have htwo : ∀ x : IntrusiveRefCountHandle (FutureState T),
      (RcCall.run [RcCall.unref, RcCall.unref] x).1 =
        [(x.unref).1, ((x.unref).2.unref).1] := by
    intro x
    simp only [RcCall.run]
  have hdel : ∀ x : IntrusiveRefCountHandle (FutureState T),
      (x.unref).1 = decide (x.ref_count = 1) := fun _ => rfl
  have hrel2 : (Rc.release (Rc.release (make_future_shared T)).2).1 = true := by
    rw [hfst, hsnd, hfirst]
    rfl
  refine ⟨make_rc_inplace_count object, make_future_shared_count T, ?_, ?_, rfl, hrun.1,
    hrun.2, hrel1, hrel2, ?_⟩
  · simp [IntrusiveRefCountHandle.unref]
  · intro h1
    show (h.ref_count + 2 ^ 64 - 1) % 2 ^ 64 = 0
    rw [h1]
    norm_num
  · rw [htwo, hdel, hdel, hfirst, make_future_shared_count]
    rfl

/-- On the shared state of `make_future`, a third handle is taken and the
three handles are released: only the last release deletes the state. -/
theorem shared_state_lifetime_witness :
    (RcCall.run [RcCall.ref, RcCall.unref, RcCall.unref, RcCall.unref]
      (make_future_shared Nat)).1 = [false, false, false, true] :=
  (shared_state_lifetime Nat (make_future Nat) (make_future_shared Nat)
    [RcCall.ref, RcCall.unref, RcCall.unref, RcCall.unref] (by decide)
    (by rw [make_future_shared_count]; norm_num)).2.2.2.2.2.2.1 (by decide)

end LifetimeProperties

/-! ## A ring-backed stream -/

section RingBackedProperties

/-- C18 fails on the code. On a ring of capacity 2, the chunks 10 (slot 0) and
20 (slot 1) are allocated and yielded in that order. (a) When the stream is
closed between the two yields, the second yield is rejected and unrefs chunk
1, and `manager____unref` destroys slot 0: the chunk 10, still linked from
`pop_it`, is destroyed and chunk 1 stays constructed. (b) When both are
accepted and the stream is destroyed, the destructor unrefs chunk 1 first and
`manager____unref` destroys slot 0. (c) Only on the pop path does the slot
destroyed belong to the chunk released. -/
theorem ring_backed_release_destroys_other_slot :
    ((((({ stream := { chunks := fun _ => { data := 0 } } } :
          RingBackedStream Nat).allocate_and_yield 2 10 false).close).allocate_and_yield
        2 20 false).releases = [(1, 0)]) ∧
      ((((({ stream := { chunks := fun _ => { data := 0 } } } :
          RingBackedStream Nat).allocate_and_yield 2 10 false).close).allocate_and_yield
        2 20 false).stream.state.pop_it = some 0) ∧
      ((((({ stream := { chunks := fun _ => { data := 0 } } } :
          RingBackedStream Nat).allocate_and_yield 2 10 false).close).allocate_and_yield
        2 20 false).ring.memory_chunks 0 = none) ∧
      ((((({ stream := { chunks := fun _ => { data := 0 } } } :
          RingBackedStream Nat).allocate_and_yield 2 10 false).close).allocate_and_yield
        2 20 false).ring.memory_chunks 1 = some { next := none, data := 20 }) ∧
      ((((({ stream := { chunks := fun _ => { data := 0 } } } :
          RingBackedStream Nat).allocate_and_yield 2 10 false).allocate_and_yield
        2 20 false).destroy 2 3).map (fun s => s.releases) = some [(1, 0), (0, 1)]) ∧
      ((((({ stream := { chunks := fun _ => { data := 0 } } } :
          RingBackedStream Nat).allocate_and_yield 2 10 false).allocate_and_yield
        2 20 false).pop 2 id).2.releases = [(0, 0)]) := by
  decide

end RingBackedProperties

/-! ## Further properties of the future/promise shared state -/

section PairProperties

variable {T : Type}

/-- C28: on a fresh future/promise pair, before any operation,
`fetch_status()` is `Scheduled`, `is_done()` is false, `copy_result()` and
`move_result()` return `Err(Pending)`, and `fetch_cancel_request()` and
`fetch_suspend_request()` return `User` with `None`. -/
theorem fresh_pair_initial_state (moved : T → T) :
    Future.fetch_status (make_future T) = FutureStatus.Scheduled ∧
      Future.is_done (make_future T) = false ∧
      (Future.copy (make_future T)).1 = some (Result.Err FutureError.Pending) ∧
      (Future.move moved (make_future T)).1 = some (Result.Err FutureError.Pending) ∧
      PromiseBase.fetch_cancel_request (make_future T) =
        { source := RequestSource.User, state := RequestedCancelState.None } ∧
      PromiseBase.fetch_suspend_request (make_future T) =
        { source := RequestSource.User, state := RequestedSuspendState.None } :=
  ⟨rfl, rfl, rfl, rfl, rfl, rfl⟩

/-- C26 fails on the code: on every shared state, `notify_force_resumed()`
of `PromiseBase` and of `PromiseAny` stores `ForceResuming`, the status that
`notify_force_resume_begin()` stores, and not `Executing`, the status that
`notify_user_resumed()` stores. -/
theorem notify_force_resumed_stores_force_resuming (s : FutureState T) :
    Future.fetch_status (PromiseBase.notify_force_resumed s) = FutureStatus.ForceResuming ∧
      (PromiseAny.notify_force_resumed s.toFutureBaseState).future_status =
        FutureStatus.ForceResuming ∧
      Future.fetch_status (PromiseBase.notify_force_resumed s) ≠ FutureStatus.Executing ∧
      PromiseBase.notify_force_resumed s = PromiseBase.notify_force_resume_begin s ∧
      Future.fetch_status (PromiseBase.notify_user_resumed s) = FutureStatus.Executing ∧
      (PromiseAny.notify_user_resumed s.toFutureBaseState).future_status =
        FutureStatus.Executing := by
  refine ⟨rfl, rfl, ?_, rfl, rfl, rfl⟩
  intro h
  have h1 : FutureStatus.ForceResuming = FutureStatus.Executing := h
  cases h1

/-- C27: on a state whose executor suspend slot is `None`, after every
non-empty sequence of owner `request_suspend()`/`request_resume()` calls
`fetch_suspend_request()` returns `User` with `Suspended` if the last call was
`request_suspend` and `User` with `Resumed` if it was `request_resume`,
whatever the earlier calls; and each request repeated is the request made
once. -/
theorem last_request_wins (s : FutureState T)
    (hnone : s.executor_requested_suspend_state = RequestedSuspendState.None)
    (calls : List (Call T))
    (hcalls : ∀ c ∈ calls, c = Call.request_suspend ∨ c = Call.request_resume) :
    PromiseBase.fetch_suspend_request (Call.run (calls ++ [Call.request_suspend]) s) =
        { source := RequestSource.User, state := RequestedSuspendState.Suspended } ∧
      PromiseBase.fetch_suspend_request (Call.run (calls ++ [Call.request_resume]) s) =
        { source := RequestSource.User, state := RequestedSuspendState.Resumed } ∧
      Future.request_suspend (Future.request_suspend s) = Future.request_suspend s ∧
      Future.request_resume (Future.request_resume s) = Future.request_resume s := by
  have hforced : ∀ c ∈ calls, Call.writesForcedSuspend c = false := by
    intro c hc
    rcases hcalls c hc with h | h <;> rw [h] <;> rfl
  have hexec : (Call.run calls s).executor_requested_suspend_state =
      RequestedSuspendState.None := by
    rw [Call.run_executor_suspend calls s hforced, hnone]
  have hfetch : ∀ t : FutureState T,
      t.executor_requested_suspend_state = RequestedSuspendState.None →
      PromiseBase.fetch_suspend_request (Future.request_suspend t) =
          { source := RequestSource.User, state := RequestedSuspendState.Suspended } ∧
        PromiseBase.fetch_suspend_request (Future.request_resume t) =
          { source := RequestSource.User, state := RequestedSuspendState.Resumed } := by
    intro t ht
    obtain ⟨⟨status, ⟨uc, us, ec, es⟩⟩, storage, lock⟩ := t
    simp only at ht
    subst ht
    exact ⟨rfl, rfl⟩
  refine ⟨?_, ?_, rfl, rfl⟩
  · rw [Call.run_append]
    exact (hfetch _ hexec).1
  · rw [Call.run_append]
    exact (hfetch _ hexec).2

/-- The owner asks to suspend, to resume, to resume and to suspend: the
request read is the last one, `Suspended`. -/
theorem last_request_wins_witness :
    PromiseBase.fetch_suspend_request
        (Call.run
          ([Call.request_suspend, Call.request_resume, Call.request_resume] ++
            [Call.request_suspend]) (make_future Nat)) =
      { source := RequestSource.User, state := RequestedSuspendState.Suspended } :=
  (last_request_wins (make_future Nat) rfl
    [Call.request_suspend, Call.request_resume, Call.request_resume] (by decide)).1

/-- C29: every owner request writes only the owner's slot of its kind, every
executor `request_force_*` or clear call writes only the executor's slot of
its kind, and every `notify_*` call writes only the status: the status, the
other request slots, the stored result and the result lock are those before
the call; `notify_completed(v)` leaves the four request slots unchanged. The
`PromiseAny` methods do the same on the base state. -/
theorem registers_independent (s : FutureState T) (n : Notification) (v : T) :
    Future.request_cancel s =
        { s with user_requested_cancel_state := RequestedCancelState.Canceled } ∧
      Future.request_suspend s =
        { s with user_requested_suspend_state := RequestedSuspendState.Suspended } ∧
      Future.request_resume s =
        { s with user_requested_suspend_state := RequestedSuspendState.Resumed } ∧
      PromiseBase.request_force_cancel s =
        { s with executor_requested_cancel_state := RequestedCancelState.Canceled } ∧
      PromiseBase.request_force_suspend s =
        { s with executor_requested_suspend_state := RequestedSuspendState.Suspended } ∧
      PromiseBase.request_force_resume s =
        { s with executor_requested_suspend_state := RequestedSuspendState.Resumed } ∧
      PromiseBase.clear_force_suspension_request s =
        { s with executor_requested_suspend_state := RequestedSuspendState.None } ∧
      n.apply s = { s with future_status := n.status } ∧
      (Promise.notify_completed s v).toFutureRequestState = s.toFutureRequestState ∧
      PromiseAny.request_force_cancel s.toFutureBaseState =
        { s.toFutureBaseState with
          executor_requested_cancel_state := RequestedCancelState.Canceled } ∧
      PromiseAny.request_force_suspend s.toFutureBaseState =
        { s.toFutureBaseState with
          executor_requested_suspend_state := RequestedSuspendState.Suspended } ∧
      PromiseAny.request_force_resume s.toFutureBaseState =
        { s.toFutureBaseState with
          executor_requested_suspend_state := RequestedSuspendState.Resumed } ∧
      PromiseAny.clear_force_suspension_request s.toFutureBaseState =
        { s.toFutureBaseState with
          executor_requested_suspend_state := RequestedSuspendState.None } ∧
      n.applyAny s.toFutureBaseState =
        { s.toFutureBaseState with future_status := n.status } := by
  refine ⟨rfl, rfl, rfl, rfl, rfl, rfl, rfl, ?_, rfl, rfl, rfl, rfl, rfl, ?_⟩
  · cases n <;> rfl
  · cases n <;> rfl

/-- The shared state after `copy()` is the shared state before it. -/
theorem Future.copy_state (s : FutureState T) : (Future.copy s).2 = s := by
  obtain ⟨⟨⟨status⟩, requests⟩, storage, lock⟩ := s
  cases status <;> cases lock <;> rfl

/-- The owner's `move()` leaves the status and the result lock as they were,
and a storage cell that held an object still holds one. -/
theorem Future.move_state (moved : T → T) (s : FutureState T) :
    (Future.move moved s).2.future_status = s.future_status ∧
      (Future.move moved s).2.result_lock_status = s.result_lock_status ∧
      (Future.move moved s).2.storage.isSome = s.storage.isSome := by
  obtain ⟨⟨⟨status⟩, requests⟩, storage, lock⟩ := s
  cases status <;> cases lock <;> cases storage <;> exact ⟨rfl, rfl, rfl⟩

/-- No operation on the pair leaves the result lock other than it found it. -/
theorem PairCall.apply_lock (moved : T → T) (c : PairCall T) (s : FutureState T) :
    (c.apply moved s).result_lock_status = s.result_lock_status := by
  cases c with
  | call c => exact Call.apply_result_lock_status c s
  | copy => show (Future.copy s).2.result_lock_status = _; rw [Future.copy_state]
  | move => exact (Future.move_state moved s).2.1

/-- A sequence of operations on the pair leaves the result lock as it found
it. -/
theorem PairCall.run_lock (moved : T → T) (calls : List (PairCall T)) (s : FutureState T) :
    (PairCall.run moved calls s).result_lock_status = s.result_lock_status := by
  induction calls generalizing s with
  | nil => rfl
  | cons c rest ih =>
    show (PairCall.run moved rest (c.apply moved s)).result_lock_status = _
    rw [ih, PairCall.apply_lock]

/-- Repeated `copy()` calls leave the shared state as it was. -/
theorem Future.copy_iterate (n : Nat) (s : FutureState T) :
    (fun t : FutureState T => (Future.copy t).2)^[n] s = s := by
  induction n with
  | zero => rfl
  | succ k ih => rw [Function.iterate_succ_apply, Future.copy_state, ih]

/-- C30: for every state, the shared state after `copy_result()` (status,
four request slots, stored value, result lock) is the state before the call,
so a lock that was free on entry is free again; hence on a pair used by
non-overlapping operations the lock is free at every call and `copy_result()`
never returns `Err(Locked)`, and any number of consecutive `copy_result()`
calls on a future completed with `v` each return `Ok(v)`. -/
theorem copy_result_non_destructive (moved : T → T) (s : FutureState T)
    (calls : List (PairCall T)) (v : T) (n : Nat) :
    (Future.copy s).2 = s ∧
      (PairCall.run moved calls (make_future T)).result_lock_status = LockStatus.Unlocked ∧
      (Future.copy (PairCall.run moved calls (make_future T))).1 ≠
        some (Result.Err FutureError.Locked) ∧
      (Future.copy
          ((fun t : FutureState T => (Future.copy t).2)^[n]
            (Promise.notify_completed (PairCall.run moved calls (make_future T)) v))).1 =
        some (Result.Ok v) := by
  have hlock : (PairCall.run moved calls (make_future T)).result_lock_status =
      LockStatus.Unlocked := PairCall.run_lock moved calls (make_future T)
  refine ⟨Future.copy_state s, hlock, ?_, ?_⟩
  · generalize PairCall.run moved calls (make_future T) = t at hlock
    obtain ⟨⟨⟨status⟩, requests⟩, storage, lock⟩ := t
    simp only at hlock
    subst hlock
    cases status <;> cases storage <;>
      simp [Future.copy, FutureState.user___copy_result, FutureState.user___try_lock_result,
        FutureState.user___unlock_result, FutureState.unsafe_launder_readable,
        FutureExecutionState.user___fetch_status_with_result]
  · rw [Future.copy_iterate]
    generalize PairCall.run moved calls (make_future T) = t at hlock
    obtain ⟨⟨⟨status⟩, requests⟩, storage, lock⟩ := t
    simp only at hlock
    subst hlock
    rfl

/-- One operation on the pair keeps the guard of the destructor: a state that
is `Completed` holds an object in its storage cell, and only
`notify_completed` puts an object into an empty cell. -/
theorem PairCall.apply_guard (moved : T → T) (c : PairCall T) (s : FutureState T)
    (h : s.future_status = FutureStatus.Completed → s.storage.isSome = true) :
    ((c.apply moved s).future_status = FutureStatus.Completed →
        (c.apply moved s).storage.isSome = true) ∧
      ((c.apply moved s).storage.isSome = true →
        s.storage.isSome = true ∨ ∃ value, c = PairCall.call (Call.notify_completed value)) := by
  cases c with
  | call c =>
    cases c with
    | notify n =>
      show ((n.apply s).future_status = _ → (n.apply s).storage.isSome = true) ∧
        ((n.apply s).storage.isSome = true → _)
      rw [Notification.apply_eq]
      refine ⟨fun hn => ?_, fun hs => Or.inl hs⟩
      have hn1 : n.status = FutureStatus.Completed := hn
      cases n <;> cases hn1
    | notify_completed value => exact ⟨fun _ => rfl, fun _ => Or.inr ⟨value, rfl⟩⟩
    | request_cancel => exact ⟨h, Or.inl⟩
    | request_suspend => exact ⟨h, Or.inl⟩
    | request_resume => exact ⟨h, Or.inl⟩
    | request_force_cancel => exact ⟨h, Or.inl⟩
    | request_force_suspend => exact ⟨h, Or.inl⟩
    | request_force_resume => exact ⟨h, Or.inl⟩
    | clear_force_suspension_request => exact ⟨h, Or.inl⟩
  | copy =>
    show ((Future.copy s).2.future_status = _ → (Future.copy s).2.storage.isSome = true) ∧
      ((Future.copy s).2.storage.isSome = true → _)
    rw [Future.copy_state]
    exact ⟨h, Or.inl⟩
  | move =>
    obtain ⟨h1, _, h3⟩ := Future.move_state moved s
    show ((Future.move moved s).2.future_status = _ →
      (Future.move moved s).2.storage.isSome = true) ∧
      ((Future.move moved s).2.storage.isSome = true → _)
    rw [h1, h3]
    exact ⟨h, Or.inl⟩

/-- After any operations on a fresh pair, a `Completed` state holds an object
in its storage cell, and a storage cell that holds an object was initialised
by a `notify_completed` of the sequence. -/
theorem PairCall.run_guard (moved : T → T) (calls : List (PairCall T)) :
    ((PairCall.run moved calls (make_future T)).future_status = FutureStatus.Completed →
        (PairCall.run moved calls (make_future T)).storage.isSome = true) ∧
      ((PairCall.run moved calls (make_future T)).storage.isSome = true →
        ∃ value, PairCall.call (Call.notify_completed value) ∈ calls) := by
  induction calls using List.reverseRecOn with
  | nil =>
    refine ⟨fun h => ?_, fun h => ?_⟩
    · have h1 : FutureStatus.Scheduled = FutureStatus.Completed := h
      cases h1
    · have h1 : (none : Option T).isSome = true := h
      cases h1
  | append_singleton l c ih =>
    have hrun : PairCall.run moved (l ++ [c]) (make_future T) =
        c.apply moved (PairCall.run moved l (make_future T)) := by
      simp [PairCall.run, List.foldl_append]
    rw [hrun]
    obtain ⟨g1, g2⟩ := PairCall.apply_guard moved c _ ih.1
    refine ⟨g1, fun hs => ?_⟩
    rcases g2 hs with hprev | ⟨value, hc⟩
    · obtain ⟨value, hmem⟩ := ih.2 hprev
      exact ⟨value, List.mem_append_left _ hmem⟩
    · exact ⟨value, by rw [hc]; simp⟩

/-- C21: for every sequence of `Future<T>`/`Promise<T>` operations on a fresh
pair followed by the destruction of the shared state, the destructor of the
stored value is invoked if and only if the status at destruction is
`Completed`; it is invoked at most once; and whenever it is invoked, the
storage cell holds an object and an earlier `notify_completed(value)` of the
sequence initialised the cell. -/
theorem guarded_result_destruction (moved : T → T) (calls : List (PairCall T)) :
    ((PairCall.run moved calls (make_future T)).destructor.length = 1 ↔
        Future.fetch_status (PairCall.run moved calls (make_future T)) =
          FutureStatus.Completed) ∧
      (PairCall.run moved calls (make_future T)).destructor.length ≤ 1 ∧
      (∀ cell ∈ (PairCall.run moved calls (make_future T)).destructor,
        (∃ object, cell = some object) ∧
          ∃ value, PairCall.call (Call.notify_completed value) ∈ calls) := by
  obtain ⟨g1, g2⟩ := PairCall.run_guard moved calls
  generalize PairCall.run moved calls (make_future T) = s at g1 g2
  obtain ⟨⟨⟨status⟩, requests⟩, storage, lock⟩ := s
  cases status <;>
    simp [FutureState.destructor, FutureState.unsafe_destroy, Future.fetch_status,
      FutureExecutionState.user___fetch_status_with_result,
      FutureExecutionState.user___fetch_status]
  simp only [true_implies] at g1
  cases storage with
  | none => simp at g1
  | some object => exact ⟨⟨object, rfl⟩, g2 rfl⟩

end PairProperties

/-! ## Teardown order, closing yields and interleaved ring steps -/

section TeardownProperties

variable {T : Type}

/-- C23: destroying a stream whose un-popped chunks are linked from `pop_it`
in the order `queue` (with more fuel than chunks, the recursion returns)
reads the `next` member of every chunk, head to tail, before any unref is
issued, and then issues `manager.unref()` exactly once per chunk, tail to
head; with `pop_it == null` it issues none. -/
theorem teardown_order (w : StreamSystem T) (queue : List Nat)
    (hlinked : StreamSystem.Linked w.chunks w.state.pop_it queue) (fuel : Nat)
    (hfuel : queue.length < fuel) :
    w.unref_items fuel =
        some (queue.map TeardownEvent.read_next ++ queue.reverse.map TeardownEvent.unref) ∧
      (w.unref_items fuel).map TeardownEvent.unrefs = some queue.reverse ∧
      (w.destroy fuel).map (fun w1 => w1.unrefs) = some (w.unrefs ++ queue.reverse) ∧
      (w.state.pop_it = none → ∀ n, w.unref_items n = some []) := by
  have hpass := StreamSystem.unref_pass_linked w.chunks queue w.state.pop_it hlinked fuel hfuel
  have hitems : w.unref_items fuel =
      some (queue.map TeardownEvent.read_next ++ queue.reverse.map TeardownEvent.unref) := hpass
  have hun : TeardownEvent.unrefs
      (queue.map TeardownEvent.read_next ++ queue.reverse.map TeardownEvent.unref) =
      queue.reverse := by
    rw [TeardownEvent.unrefs_append, TeardownEvent.unrefs_reads, TeardownEvent.unrefs_unrefs,
      List.nil_append]
  refine ⟨hitems, ?_, ?_, ?_⟩
  · rw [hitems, Option.map_some', hun]
  · simp only [StreamSystem.destroy, hitems, Option.map_some', Option.map_map, hun]
  · intro hnull n
    show StreamSystem.unref_pass w.chunks n w.state.pop_it = some []
    rw [hnull]
    cases n <;> rfl

/-- The chunks 10, 20 and 30 are yielded and the stream is destroyed: the three
links are read head to tail, then 30, 20 and 10 are unreffed. -/
theorem teardown_order_witness :
    (StreamCall.run id
        [StreamCall.yield 10 false, StreamCall.yield 20 false, StreamCall.yield 30 false]
        ({ chunks := fun a => { next := none, data := a / 10 } } :
          StreamSystem Nat)).2.unref_items 4 =
      some [TeardownEvent.read_next 10, TeardownEvent.read_next 20, TeardownEvent.read_next 30,
        TeardownEvent.unref 30, TeardownEvent.unref 20, TeardownEvent.unref 10] :=
  (teardown_order
    (StreamCall.run id
      [StreamCall.yield 10 false, StreamCall.yield 20 false, StreamCall.yield 30 false]
      ({ chunks := fun a => { next := none, data := a / 10 } } : StreamSystem Nat)).2
    [10, 20, 30] ⟨rfl, rfl, rfl, rfl⟩ 4 (by decide)).1

/-- C25: on an open stream that holds `queue`, `generator____yield(chunk,
true)` of a new, unlinked chunk is accepted: the chunk is linked behind the
queue and `closed` becomes true; whatever calls follow, yields included, the
pops return the payloads of the queue and then of that chunk, hand out no
chunk after it, and return `Err(Closed)` from then on. -/
theorem closing_yield_is_last (payload : Nat → T) (moved : T → T) (w : StreamSystem T)
    (queue : List Nat) (a : Nat) (hopen : w.state.closed = false)
    (hq : StreamSystem.Queued payload w queue)
    (hnext : (w.chunks a).next = none) (hdata : (w.chunks a).data = payload a)
    (hnew : a ∉ queue) (calls : List StreamCall) :
    (w.generator____yield a true).state.closed = true ∧
      StreamSystem.Queued payload (w.generator____yield a true) (queue ++ [a]) ∧
      (w.generator____yield a true).unrefs = w.unrefs ∧
      (StreamCall.run moved calls (w.generator____yield a true)).1 =
        ((queue ++ [a]).map (fun c => Result.Ok (payload c)) ++
          List.replicate (calls.count StreamCall.pop)
            (Result.Err StreamError.Closed)).take (calls.count StreamCall.pop) ∧
      StreamCall.popped moved calls (w.generator____yield a true) =
        (queue ++ [a]).take (calls.count StreamCall.pop) := by
  obtain ⟨h1, h2, h3, _⟩ :=
    StreamSystem.yield_accepted payload w queue a true hopen hq hnext hdata hnew
  obtain ⟨g1, g2, _⟩ :=
    StreamCall.run_closed payload moved calls (w.generator____yield a true) (queue ++ [a]) h2
      h1.1
  exact ⟨h2, h1, h3, g1, g2⟩

/-- The chunk with payload 1 is yielded with the close flag on a fresh stream;
a pop, a yield and two more pops follow: the pops return 1, `Closed` and
`Closed`. -/
theorem closing_yield_is_last_witness :
    (StreamCall.run id
        [StreamCall.pop, StreamCall.yield 20 false, StreamCall.pop, StreamCall.pop]
        (({ chunks := fun a => { next := none, data := a / 10 } } :
          StreamSystem Nat).generator____yield 10 true)).1 =
      [Result.Ok 1, Result.Err StreamError.Closed, Result.Err StreamError.Closed] :=
  (closing_yield_is_last (fun a => a / 10) id
    ({ chunks := fun a => { next := none, data := a / 10 } } : StreamSystem Nat) [] 10 rfl
    ⟨⟨rfl, fun a ha => absurd ha (List.not_mem_nil a)⟩, fun l hl => by simp at hl⟩ rfl rfl
    (List.not_mem_nil 10)
    [StreamCall.pop, StreamCall.yield 20 false, StreamCall.pop, StreamCall.pop]).2.2.2.1

/-- C24 fails on the code. On a ring of capacity 2 the values 10 and 20 are
allocated (slots 0 and 1), two unrefs capture slot 0 and slot 1, each slot
allocated when captured, and the unref that captured slot 1 finishes first.
Then `num_in_use` is 1, slot 0 is still between the two steps of its unref,
and `generator____allocate` succeeds and returns slot 0. -/
theorem allocate_returns_slot_in_destruction :
    RingStep.allPermitted 2
        [RingStep.allocate 10, RingStep.allocate 20, RingStep.unref_capture,
          RingStep.unref_capture, RingStep.unref_finish 1]
        ({} : RingThreads Nat) = true ∧
      (RingStep.run 2
        [RingStep.allocate 10, RingStep.allocate 20, RingStep.unref_capture,
          RingStep.unref_capture]
        ({} : RingThreads Nat)).in_destruction = [0, 1] ∧
      (RingStep.run 2
        [RingStep.allocate 10, RingStep.allocate 20, RingStep.unref_capture,
          RingStep.unref_capture, RingStep.unref_finish 1]
        ({} : RingThreads Nat)).in_destruction = [0] ∧
      (RingStep.run 2
        [RingStep.allocate 10, RingStep.allocate 20, RingStep.unref_capture,
          RingStep.unref_capture, RingStep.unref_finish 1]
        ({} : RingThreads Nat)).ring.num_in_use = 1 ∧
      ((RingStep.run 2
        [RingStep.allocate 10, RingStep.allocate 20, RingStep.unref_capture,
          RingStep.unref_capture, RingStep.unref_finish 1]
        ({} : RingThreads Nat)).ring.generator____allocate 2 30).1 = Result.Ok 0 := by
  decide

end TeardownProperties

end stx
